import Mathlib

/-!
Verification of the graph-partitioning core of `functorch/_src/aot_autograd.py`:
the simple two-coloring partitioner (`default_partition`), the sub-graph
extractor (`_extract_graph_with_inputs_outputs`) and the min-cut recompute
partitioner (`partition_with_recompute_fwd_in_bwd`).

The torch.fx graph is shallowly embedded: a graph is a list of nodes in
insertion (= topological) order; a node carries its unique name, its opcode,
its target and its arguments.  Node arguments are modelled as the
pytree-flattened sequence of positional and keyword arguments, each either a
reference to another node (by its unique name) or a constant leaf — the
source treats positional and keyword arguments uniformly through
`map_arg` / `tree_flatten`.  Replayed and copied nodes keep the source node's
name (fx `node_copy` copies the name; freshly traced nodes get generated
names, on which nothing below depends), so a valid proxy for a source node is
identified by that node's name.
-/

set_option maxRecDepth 10000

namespace AotAutograd

/-- Opcode of a torch.fx node, restricted to the opcodes `aot_autograd.py`
manipulates. -/
inductive Op where
  | placeholder
  | call_function
  | get_attr
  | output
deriving DecidableEq, Repr

/-- A node argument: a reference to another node by name, or a constant. -/
inductive Arg where
  | node (name : String)
  | const (v : Int)
deriving DecidableEq, Repr

/-- A torch.fx node. -/
structure Node where
  name : String
  op : Op
  target : String
  args : List Arg
deriving DecidableEq, Repr

/-- Names of the node-typed arguments of a node (the `fx.Node` leaves that
`map_arg` and `pytree.tree_flatten` traverse). -/
def nodeArgNames (n : Node) : List String :=
  n.args.filterMap (fun a => match a with | .node s => some s | .const _ => none)

/-- The users of the node named `x` in graph `g`: the nodes that reference
`x` among their arguments (the reverse index `node.users` of torch.fx). -/
def usersOf (g : List Node) (x : String) : List Node :=
  g.filter (fun n => decide (x ∈ nodeArgNames n))

/-- `"sub" in s` of Python: `sub` occurs as a contiguous substring of `s`. -/
def strContains (s sub : String) : Bool :=
  decide (List.IsInfix sub.toList s.toList)

/-- A tangent placeholder: `node.op == 'placeholder' and 'tangents' in node.target`. -/
def isTangentPH (n : Node) : Bool :=
  n.op == .placeholder && strContains n.target "tangents"

/-- A primal placeholder: `node.op == 'placeholder' and 'tangents' not in node.target`. -/
def isPrimalPH (n : Node) : Bool :=
  n.op == .placeholder && !strContains n.target "tangents"

/-- The placeholder created by `new_graph.placeholder(node.name)`. -/
def mkPlaceholder (s : String) : Node := ⟨s, .placeholder, s, []⟩

/-- The output node created by `new_graph.output([...])`. -/
def mkOutput (outs : List String) : Node :=
  ⟨"output", .output, "output", outs.map Arg.node⟩

/-- Names of the placeholder nodes of a graph, in graph order. -/
def placeholderNames (g : List Node) : List String :=
  (g.filter (fun n => n.op == .placeholder)).map Node.name

/-- The (first) output node of a graph. -/
def findOutput (g : List Node) : Option Node :=
  g.find? (fun n => n.op == .output)

/-- Names of the node-typed entries of the (first) output node's argument
list — the graph's own output list. -/
def outputNamesOf (g : List Node) : List String :=
  match findOutput g with
  | some o => o.args.filterMap (fun a => match a with | .node s => some s | .const _ => none)
  | none => []

/-! ### Well-formedness of a graph

These invariants hold of every torch.fx graph the source manipulates:
names are unique, arguments reference strictly earlier nodes (append-only
construction), placeholder and `get_attr` nodes carry no node-typed
arguments, there is exactly one output node and it is last, and no
non-output node uses the reserved name `"output"`. -/

/-- Every node's node-arguments reference names of earlier nodes
(`seen` are the names preceding the list). -/
def refsOkAux : List String → List Node → Bool
  | _, [] => true
  | seen, n :: rest =>
    (nodeArgNames n).all (fun a => decide (a ∈ seen)) && refsOkAux (seen ++ [n.name]) rest

/-- Well-formedness of a graph. -/
def wfGraph (g : List Node) : Bool :=
  decide ((g.map Node.name).Nodup)
  && refsOkAux [] g
  && g.all (fun n => match n.op with
      | .placeholder => (nodeArgNames n).isEmpty
      | .get_attr => (nodeArgNames n).isEmpty
      | _ => true)
  && g.all (fun n => n.op == .output || n.name != "output")
  && (match g.getLast? with | some n => n.op == .output | none => false)
  && (g.filter (fun n => n.op == .output)).length == 1

/-! ### Dead-code elimination

`new_graph.eliminate_dead_code()`: one pass over the nodes in reverse order,
erasing every node that is not impure (placeholder and output nodes are
impure) and has no remaining users.  Because arguments reference strictly
earlier nodes, the single reverse pass reaches the fixpoint.  The fold
accumulates, right to left, the kept nodes together with the names they
use. -/

/-- Placeholder and output nodes are impure and never dead-code-eliminated. -/
def isImpure (n : Node) : Bool := n.op == .placeholder || n.op == .output

/-- One step of the reverse dead-code-elimination pass. -/
def dceStep (n : Node) (acc : List Node × List String) : List Node × List String :=
  if isImpure n || decide (n.name ∈ acc.2) then (n :: acc.1, acc.2 ++ nodeArgNames n)
  else acc

/-- The reverse pass: kept nodes together with the names they use. -/
def dceAux (g : List Node) : List Node × List String :=
  g.foldr dceStep ([], [])

/-- `Graph.eliminate_dead_code` of torch.fx. -/
def eliminate_dead_code (g : List Node) : List Node :=
  (dceAux g).1

/-! ### Sub-graph extraction (`_extract_graph_with_inputs_outputs`)

The walk keeps an environment mapping source nodes to a valid proxy or to
`InvalidNode`.  With names preserved, a valid proxy for a source node is the
new-graph node of the same name, so the environment is represented by the
list of valid names (a name of a processed non-output node that is not in
`valid` is mapped to `InvalidNode`; an unprocessed or output node has no
entry — both make the final output lookup fail).  `err` records the crash
that `node_copy` of a `get_attr` node would raise when one of its
node-arguments has no valid proxy (real `get_attr` nodes have none). -/

structure ExtSt where
  valid : List String
  body : List Node
  err : Bool
deriving DecidableEq, Repr

/-- Processing of one source node by `_extract_graph_with_inputs_outputs`. -/
def extStep (ins : List String) (st : ExtSt) (n : Node) : ExtSt :=
  if st.err then st
  else if decide (n.name ∈ ins) then { st with valid := n.name :: st.valid }
  else match n.op with
    | .placeholder => st
    | .call_function =>
      if (nodeArgNames n).all (fun a => decide (a ∈ st.valid)) then
        { st with valid := n.name :: st.valid, body := st.body ++ [n] }
      else st
    | .get_attr =>
      if (nodeArgNames n).all (fun a => decide (a ∈ st.valid)) then
        { st with valid := n.name :: st.valid, body := st.body ++ [n] }
      else { st with err := true }
    | .output => st

/-- The environment after walking the whole source graph. -/
def extractEnv (src : List Node) (ins : List String) : ExtSt :=
  src.foldl (extStep ins) ⟨[], [], false⟩

/-- `_extract_graph_with_inputs_outputs(joint_graph, inputs, outputs)`:
placeholders are created in the order of `ins`; the walk replays every
reproducible node; the final `output` call fails (`none`) when a requested
output has no valid proxy; dead code is then eliminated. -/
def _extract_graph_with_inputs_outputs (src : List Node) (ins outs : List String) :
    Option (List Node) :=
  let st := extractEnv src ins
  if st.err then none
  else if outs.all (fun a => decide (a ∈ st.valid)) then
    some (eliminate_dead_code (ins.map mkPlaceholder ++ st.body ++ [mkOutput outs]))
  else none

/-! ### The simple/default partitioner (`default_partition`)

The classification walk keeps the set `bw_nodes` of backward-reachable
nodes and the set `saved_nodes` of values crossing the boundary.  Python
sets are modelled as first-insertion-ordered duplicate-free lists (the
iteration order of a CPython set is arbitrary but stable while the set is
not mutated; every property proved below is independent of which stable
order is chosen). -/

/-- Insert at the end if not already present. -/
def pushName (c : List String) (x : String) : List String :=
  if x ∈ c then c else c ++ [x]

structure DPSt where
  bw : List String
  saved : List String
deriving DecidableEq, Repr

/-- Processing of one node by the classification loop of `default_partition`:
a tangent placeholder joins `bw_nodes`; any other non-output node is colored
when one of its arguments is in `bw_nodes` or in `saved_nodes`, and then all
its arguments outside `bw_nodes` are added to `saved_nodes`. -/
def dpStep (st : DPSt) (n : Node) : DPSt :=
  if isTangentPH n then { st with bw := pushName st.bw n.name }
  else if n.op == .output then st
  else if (nodeArgNames n).any (fun a => decide (a ∈ st.bw) || decide (a ∈ st.saved)) then
    let bw1 := pushName st.bw n.name
    { bw := bw1,
      saved := (nodeArgNames n).foldl
        (fun sv a => if a ∈ bw1 then sv else pushName sv a) st.saved }
  else st

/-- The classification produced by the first loop of `default_partition`. -/
def classifyDefault (g : List Node) : DPSt :=
  g.foldl dpStep ⟨[], []⟩

/-- State of a `node_copy` loop: the domain of `value_remap` and the copied
nodes; `err` is the `KeyError` raised when an argument is not in the map. -/
structure CopySt where
  dom : List String
  body : List Node
  err : Bool
deriving DecidableEq, Repr

/-- One step of a `node_copy` loop over the joint graph: nodes selected by
`keep` are copied (same name, target and arguments), provided every
node-argument is already in `value_remap`. -/
def nodeCopyStep (keep : Node → Bool) (st : CopySt) (n : Node) : CopySt :=
  if st.err then st
  else if keep n then
    if (nodeArgNames n).all (fun a => decide (a ∈ st.dom)) then
      { st with dom := n.name :: st.dom, body := st.body ++ [n] }
    else { st with err := true }
  else st

/-- `value_remap[i]` for an output entry: a node reference in the domain maps
to its copy (same name); anything else raises `KeyError`. -/
def remapArg (dom : List String) (a : Arg) : Option String :=
  match a with
  | .node s => if s ∈ dom then some s else none
  | .const _ => none

/-- Names of the node-typed entries of the backward output slice
(`bw_outputs = output_node.args[0][num_fwd_outputs:]`; only node entries can
ever match a node in a membership test). -/
def bwOutNamesOf (o : Node) (numFwd : Nat) : List String :=
  (o.args.drop numFwd).filterMap
    (fun a => match a with | .node s => some s | .const _ => none)

/-- The backward `node_copy` loop of `default_partition` (lines 73-75):
`value_remap` starts with the saved-node placeholders, and every node in
`bw_nodes` or among the backward outputs is copied. -/
def bwCopy (g : List Node) (st : DPSt) (bwOutNames : List String) : CopySt :=
  g.foldl
    (nodeCopyStep (fun n => decide (n.name ∈ st.bw) || decide (n.name ∈ bwOutNames)))
    ⟨st.saved, [], false⟩

/-- The forward `node_copy` loop of `default_partition` (lines 86-88):
every node outside `bw_nodes` other than the output node is copied. -/
def fwCopy (g : List Node) (st : DPSt) : CopySt :=
  g.foldl
    (nodeCopyStep (fun n => !decide (n.name ∈ st.bw) && n.op != .output)) ⟨[], [], false⟩

/-- `default_partition(fx_module, joint_inputs)`.  `numFwd` and `numBwd` are
`num_fwd_outputs` / `num_bwd_outputs` read from the module's output spec.
The backward graph gets one placeholder per saved node, then copies of every
node in `bw_nodes` or in the backward output slice; the forward graph copies
every non-`bw_nodes` node and outputs the forward slice followed by the
saved nodes.  Any `KeyError` of `value_remap`, or the arity assertion
failing, yields `none`. -/
def default_partition (g : List Node) (numFwd numBwd : Nat) :
    Option (List Node × List Node) := do
  let st := classifyDefault g
  let o ← findOutput g
  let cbw := bwCopy g st (bwOutNamesOf o numFwd)
  if cbw.err then none else do
  let bwdOuts ← (o.args.drop numFwd).mapM (remapArg cbw.dom)
  if numFwd + numBwd ≠ o.args.length then none else do
  let bwGraph := st.saved.map mkPlaceholder ++ cbw.body ++ [mkOutput bwdOuts]
  let cfw := fwCopy g st
  if cfw.err then none else do
  let fwSlice ← (o.args.take numFwd).mapM (remapArg cfw.dom)
  let savedOuts ← st.saved.mapM (fun s => if s ∈ cfw.dom then some s else none)
  let fwGraph := cfw.body ++ [mkOutput (fwSlice ++ savedOuts)]
  return (fwGraph, bwGraph)

/-! ### Execution semantics

A graph is executed against an interpretation of operation targets
(`interp`), of module attributes (`attrs`) and of constant leaves (`lit`) —
the numeric tensor runtime is an external collaborator.  Placeholders read
their value from a named input assignment `env₀`; the environment of
computed node values is an association list.  A `GraphModule` call binds its
positional arguments to placeholders in graph order, which is recovered
below by zipping the graph's placeholder-name list with the value list. -/

structure Sem (α : Type) where
  interp : String → List α → α
  attrs : String → α
  lit : Int → α

variable {α : Type}

/-- Evaluate one argument in a node-value environment. -/
def evalArg (S : Sem α) (env : List (String × α)) : Arg → Option α
  | .node s => env.lookup s
  | .const v => some (S.lit v)

/-- Execute the nodes in order, extending the value environment. -/
def runNodes (S : Sem α) (env₀ : List (String × α)) :
    List Node → List (String × α) → Option (List (String × α))
  | [], env => some env
  | n :: rest, env =>
    match n.op with
    | .placeholder =>
      match env₀.lookup n.name with
      | some v => runNodes S env₀ rest ((n.name, v) :: env)
      | none => none
    | .call_function =>
      match n.args.mapM (evalArg S env) with
      | some vs => runNodes S env₀ rest ((n.name, S.interp n.target vs) :: env)
      | none => none
    | .get_attr => runNodes S env₀ rest ((n.name, S.attrs n.target) :: env)
    | .output => runNodes S env₀ rest env

/-- The outputs of executing a graph on a named input assignment. -/
def graphOutputs (S : Sem α) (env₀ : List (String × α)) (g : List Node) :
    Option (List α) := do
  let ρ ← runNodes S env₀ g []
  let o ← findOutput g
  o.args.mapM (evalArg S ρ)

/-! ### The min-cut recompute partitioner (`partition_with_recompute_fwd_in_bwd`)

The flow network's vertices are modelled structurally: the source computes
vertex names by string concatenation (`node.name + "_in"` / `"_out"`), which
is the string encoding of exactly this vertex type (node names are assumed
not to collide with the encoding).  The external min-cut solver is a
pluggable collaborator; the pipeline below takes the `reachable` vertex set
of a cut as a parameter, and the decoding step — including the
`node_in[:-3] == node_out[:-4]` assertion that every cut edge is an
"in"→"out" edge — is modelled faithfully. -/

inductive NetV where
  | source
  | sink
  | vin (s : String)
  | vout (s : String)
deriving DecidableEq, Repr

inductive Cap where
  | inf
  | fin (n : Nat)
deriving DecidableEq, Repr

structure Edge where
  u : NetV
  v : NetV
  c : Cap
deriving DecidableEq, Repr

/-- Per-node metadata from the external shape/size oracle (`ShapeProp`):
whether `node.meta['type']` is a tensor subclass, and
`node.meta['tensor_meta'].nbytes`. -/
structure MetaInfo where
  tensorType : Bool
  nbytes : Nat

/-- `compute_intense_ops + view_ops + misc_ops + random_ops + buggy_ops`. -/
def notRecomputableOps : List String :=
  ["aten.bmm", "aten.addmm", "aten.cudnn_convolution_backward",
   "aten.cudnn_convolution", "aten.max_pool2d_with_indices",
   "aten.expand", "aten.clone", "aten.transpose", "aten.t", "aten.view",
   "aten._unsafe_view", "aten.permute", "aten.transpose", "aten.t",
   "aten._reshape_alias", "aten.squeeze",
   "aten.cat", "aten.stack", "aten.select", "aten.repeat", "aten.unbind",
   "aten.new_zeros", "aten.cudnn_batch_norm",
   "aten.rand_like", "aten.native_layer_norm"]

/-- One step of the tangent-closure loop: a tangent placeholder enters the
closure; the users of any node already in the closure enter it too. -/
def tcStep (g : List Node) (c : List String) (n : Node) : List String :=
  let c1 := if isTangentPH n then pushName c n.name else c
  if n.name ∈ c1 then (usersOf g n.name).foldl (fun acc u => pushName acc u.name) c1
  else c1

/-- The set of nodes reachable forward from a tangent placeholder. -/
def tangentClosure (g : List Node) : List String :=
  g.foldl (tcStep g) []

/-- The weight of a node's "in"→"out" edge (lines 211-218 of the source):
infinite when `node.meta['type']` is not a tensor subclass, otherwise the
oracle's byte size for placeholders and twice the byte size for all other
nodes. -/
def nodeWeight (metaOf : String → MetaInfo) (n : Node) : Cap :=
  if !(metaOf n.name).tensorType then .inf
  else if n.op == .placeholder then .fin (metaOf n.name).nbytes
  else .fin ((metaOf n.name).nbytes * 2)

/-- Edges contributed by one node to the flow network (lines 204-225 of the
source): a closure node only gets an infinite edge to the sink; otherwise a
primal placeholder gets an infinite source edge, the node gets its
"in"→"out" edge weighted by `nodeWeight`, a non-recomputable operation gets
an infinite source edge, and each user gets an infinite "out"→"in" edge. -/
def netStep (g : List Node) (metaOf : String → MetaInfo) (closure : List String)
    (acc : List Edge) (n : Node) : List Edge :=
  if n.name ∈ closure then acc ++ [⟨.vin n.name, .sink, .inf⟩]
  else
    let acc1 := if n.op == .placeholder && strContains n.target "primals" then
        acc ++ [⟨.source, .vin n.name, .inf⟩] else acc
    let acc2 := if n.target ∈ notRecomputableOps then
        acc1 ++ [⟨.source, .vin n.name, .inf⟩] else acc1
    acc2 ++ [⟨.vin n.name, .vout n.name, nodeWeight metaOf n⟩]
      ++ (usersOf g n.name).map (fun u => ⟨.vout n.name, .vin u.name, .inf⟩)

/-- The flow network built from the joint graph. -/
def buildNetwork (g : List Node) (metaOf : String → MetaInfo) : List Edge :=
  g.foldl (netStep g metaOf (tangentClosure g)) []

/-- The edges of the network crossing from `reachable` to its complement. -/
def cutsetOf (net : List Edge) (reach : List NetV) : List Edge :=
  net.filter (fun e => decide (e.u ∈ reach) && !decide (e.v ∈ reach))

/-- Decoding of one cut edge back to a node name; `none` models the failure
of the assertion that the edge is an "in"→"out" pair of one node. -/
def decodeEdge (e : Edge) : Option String :=
  match e.u, e.v with
  | .vin a, .vout b => if a == b then some a else none
  | _, _ => none

/-- Decoding of the whole cut to the saved-node name set (duplicate-free). -/
def decodeCut (net : List Edge) (reach : List NetV) : Option (List String) :=
  let cs := cutsetOf net reach
  if cs.all (fun e => (decodeEdge e).isSome) then
    some ((cs.filterMap decodeEdge).foldl pushName [])
  else none

/-- The corrective pass over the extracted backward graph: every placeholder
with zero users removes the saved value of the same name (at most one,
`list.remove` semantics). -/
def pruneSaved (bwd : List Node) (saved : List String) : List String :=
  bwd.foldl
    (fun sv n =>
      if n.op == .placeholder && (usersOf bwd n.name).isEmpty then sv.erase n.name
      else sv)
    saved

/-- All intermediate results of `partition_with_recompute_fwd_in_bwd`. -/
structure MCParts where
  primals : List String
  tangents : List String
  fwdOuts : List String
  bwdOuts : List String
  saved : List String
  bwd1 : List Node
  savedPruned : List String
  fwd : List Node
  bwd : List Node
deriving Repr, DecidableEq

/-- `partition_with_recompute_fwd_in_bwd`, with its intermediate state
exposed: flatten the joint outputs and split them at `num_fwd_outputs`,
build the flow network, decode the cut given by the solver's `reachable`
set, extract both sub-graphs, prune saved values whose backward placeholder
has zero users, and re-extract once. -/
def minCutPipeline (g : List Node) (metaOf : String → MetaInfo) (numFwd : Nat)
    (reach : List NetV) : Option MCParts := do
  let o ← findOutput g
  let outNames ← o.args.mapM
    (fun a => match a with | Arg.node s => some s | Arg.const _ => none)
  let fwdOuts := outNames.take numFwd
  let bwdOuts := outNames.drop numFwd
  let primals := (g.filter (fun n => isPrimalPH n)).map Node.name
  let tangents := (g.filter (fun n => isTangentPH n)).map Node.name
  let saved ← decodeCut (buildNetwork g metaOf) reach
  let _fwd1 ← _extract_graph_with_inputs_outputs g primals (fwdOuts ++ saved)
  let bwd1 ← _extract_graph_with_inputs_outputs g (saved ++ tangents) bwdOuts
  let saved2 := pruneSaved bwd1 saved
  let fwd2 ← _extract_graph_with_inputs_outputs g primals (fwdOuts ++ saved2)
  let bwd2 ← _extract_graph_with_inputs_outputs g (saved2 ++ tangents) bwdOuts
  return ⟨primals, tangents, fwdOuts, bwdOuts, saved, bwd1, saved2, fwd2, bwd2⟩

/-- `partition_with_recompute_fwd_in_bwd(joint_module, joint_inputs)`:
the returned pair of sub-graph modules. -/
def partition_with_recompute_fwd_in_bwd (g : List Node)
    (metaOf : String → MetaInfo) (numFwd : Nat) (reach : List NetV) :
    Option (List Node × List Node) :=
  (minCutPipeline g metaOf numFwd reach).map (fun p => (p.fwd, p.bwd))

/-! ### The runtime orchestration (`CompiledFunction`, lines 315-369)

`CompiledFunction.forward` calls the forward module on the flat primal
arguments, saves the forward outputs past `num_outs`
(`ctx.save_for_backward(*fw_outs[num_outs:])`) and returns the first
`num_outs`; `CompiledFunction.backward` calls the backward module on the
saved tensors followed by the incoming tangents
(`compiled_bw(*ctx.saved_tensors, *contiguous_args)`).  A `GraphModule`
call binds its positional arguments to the graph's placeholders in graph
order. -/

/-- Call a graph module on positional arguments. -/
def callModule (S : Sem α) (g : List Node) (vals : List α) : Option (List α) :=
  graphOutputs S ((placeholderNames g).zip vals) g

/-- One forward+backward round trip of `CompiledFunction`: the visible
forward outputs paired with the backward outputs. -/
def compiledRoundTrip (S : Sem α) (fwG bwG : List Node) (numOuts : Nat)
    (primVals tangVals : List α) : Option (List α × List α) := do
  let fwOuts ← callModule S fwG primVals
  let bwOuts ← callModule S bwG (fwOuts.drop numOuts ++ tangVals)
  return (fwOuts.take numOuts, bwOuts)

/-! ### Example graphs (used to instantiate the theorems on concrete inputs) -/

/-- A concrete integer semantics: every operation sums its arguments plus
one, every attribute is zero, constants denote themselves. -/
def exSem : Sem Int :=
  ⟨fun _ vs => vs.foldl (fun a b => a + b) 1, fun _ => 0, fun v => v⟩

/-- A joint graph whose backward output slice returns the primal input
directly: `c = f(primals_1)`, forward output `c`, backward output
`primals_1`. -/
def exC1Joint : List Node :=
  [ ⟨"primals_1", .placeholder, "primals_1", []⟩,
    ⟨"tangents_1", .placeholder, "tangents_1", []⟩,
    ⟨"c", .call_function, "f", [.node "primals_1"]⟩,
    ⟨"output", .output, "output", [.node "c", .node "primals_1"]⟩ ]

/-- The forward graph `default_partition` produces on `exC1Joint`. -/
def exC1Fw : List Node :=
  [mkPlaceholder "primals_1",
   ⟨"c", .call_function, "f", [.node "primals_1"]⟩,
   mkOutput ["c"]]

/-- The backward graph `default_partition` produces on `exC1Joint`: the
copied `primals_1` placeholder is an extra input that the saved values and
tangents never bind. -/
def exC1Bw : List Node :=
  [mkPlaceholder "primals_1", mkPlaceholder "tangents_1",
   mkOutput ["primals_1"]]

/-- The forward graph `default_partition` produces on `exJoint`
(forward slice `u`, then the saved value `u` again). -/
def exDPFw : List Node :=
  [mkPlaceholder "primals_1",
   ⟨"u", .call_function, "f", [.node "primals_1"]⟩,
   mkOutput ["u", "u"]]

/-- The backward graph `default_partition` produces on `exJoint`: one
placeholder for the saved value `u`, then the copied backward nodes. -/
def exDPBw : List Node :=
  [mkPlaceholder "u", mkPlaceholder "tangents_1",
   ⟨"v", .call_function, "g", [.node "tangents_1", .node "u"]⟩,
   ⟨"w", .call_function, "h", [.node "u"]⟩,
   mkOutput ["v"]]

/-- A small joint graph: placeholders `primals_1` and `tangents_1`,
`u = f(primals_1)`, `v = g(tangents_1, u)`, `w = h(u)`, forward output `u`,
backward output `v`. -/
def exJoint : List Node :=
  [ ⟨"primals_1", .placeholder, "primals_1", []⟩,
    ⟨"tangents_1", .placeholder, "tangents_1", []⟩,
    ⟨"u", .call_function, "f", [.node "primals_1"]⟩,
    ⟨"v", .call_function, "g", [.node "tangents_1", .node "u"]⟩,
    ⟨"w", .call_function, "h", [.node "u"]⟩,
    ⟨"output", .output, "output", [.node "u", .node "v"]⟩ ]

/-- The `u = f(primals_1)` node of `exJoint`. -/
def exNodeU : Node := ⟨"u", .call_function, "f", [.node "primals_1"]⟩

/-- A joint graph for the min-cut partitioner: two tangents, the second one
unused; forward output `c = g(primals_1)`, backward output
`mul = f(primals_1, tangents_1)`. -/
def exMCJoint : List Node :=
  [ ⟨"primals_1", .placeholder, "primals_1", []⟩,
    ⟨"tangents_1", .placeholder, "tangents_1", []⟩,
    ⟨"tangents_2", .placeholder, "tangents_2", []⟩,
    ⟨"c", .call_function, "g", [.node "primals_1"]⟩,
    ⟨"mul", .call_function, "f", [.node "primals_1", .node "tangents_1"]⟩,
    ⟨"output", .output, "output", [.node "c", .node "mul"]⟩ ]

/-- A size oracle for `exMCJoint`: every node a 4-byte tensor. -/
def exMCMeta : String → MetaInfo := fun _ => ⟨true, 4⟩

/-- The reachable side of the minimum cut of `exMCJoint`'s flow network
(cut value 4, cutting the `primals_1` "in"→"out" edge). -/
def exMCReach : List NetV := [NetV.source, NetV.vin "primals_1"]

/-- The full intermediate record produced by `minCutPipeline` on `exMCJoint`
with oracle `exMCMeta` and cut `exMCReach` (the equality is checked by a
decidable computation below).  The unused `tangents_2` placeholder survives
into the final backward graph with zero users. -/
def exMCParts : MCParts :=
  ⟨["primals_1"], ["tangents_1", "tangents_2"], ["c"], ["mul"], ["primals_1"],
   [mkPlaceholder "primals_1", mkPlaceholder "tangents_1",
    mkPlaceholder "tangents_2",
    ⟨"mul", .call_function, "f", [.node "primals_1", .node "tangents_1"]⟩,
    mkOutput ["mul"]],
   ["primals_1"],
   [mkPlaceholder "primals_1",
    ⟨"c", .call_function, "g", [.node "primals_1"]⟩,
    mkOutput ["c", "primals_1"]],
   [mkPlaceholder "primals_1", mkPlaceholder "tangents_1",
    mkPlaceholder "tangents_2",
    ⟨"mul", .call_function, "f", [.node "primals_1", .node "tangents_1"]⟩,
    mkOutput ["mul"]]⟩

/-! ## Lemmas about the extraction environment -/

theorem extStep_of_err {ins : List String} {st : ExtSt} (n : Node) (h : st.err = true) :
    extStep ins st n = st := by
  simp [extStep, h]

theorem extStep_valid_mem {ins : List String} {st : ExtSt} {n : Node} {a : String}
    (h : a ∈ st.valid) : a ∈ (extStep ins st n).valid := by
  unfold extStep
  split
  · exact h
  · split
    · exact List.mem_cons_of_mem _ h
    · split <;> first
      | exact h
      | (split <;> first | exact List.mem_cons_of_mem _ h | exact h)

theorem foldl_ext_valid_mem {ins : List String} {a : String} :
    ∀ {l : List Node} {st : ExtSt}, a ∈ st.valid → a ∈ (l.foldl (extStep ins) st).valid
  | [], _, h => h
  | _ :: l, _, h => foldl_ext_valid_mem (l := l) (extStep_valid_mem h)

theorem extStep_valid_src {ins : List String} {st : ExtSt} {n : Node} {a : String}
    (h : a ∈ (extStep ins st n).valid) : a ∈ st.valid ∨ a = n.name := by
  unfold extStep at h
  split at h
  · exact Or.inl h
  · split at h
    · rcases List.mem_cons.1 h with h | h
      · exact Or.inr h
      · exact Or.inl h
    · split at h <;> first
      | exact Or.inl h
      | (split at h <;>
          first
          | (rcases List.mem_cons.1 h with h | h
             · exact Or.inr h
             · exact Or.inl h)
          | exact Or.inl h)

theorem foldl_ext_valid_src {ins : List String} {a : String} :
    ∀ {l : List Node} {st : ExtSt}, a ∈ (l.foldl (extStep ins) st).valid →
      a ∈ st.valid ∨ ∃ n ∈ l, n.name = a
  | [], _, h => Or.inl h
  | m :: l, st, h => by
    rcases foldl_ext_valid_src (l := l) h with h | ⟨n, hn, hna⟩
    · rcases extStep_valid_src h with h | h
      · exact Or.inl h
      · exact Or.inr ⟨m, List.mem_cons_self .., h.symm⟩
    · exact Or.inr ⟨n, List.mem_cons_of_mem _ hn, hna⟩

theorem extStep_body_mem {ins : List String} {st : ExtSt} {n : Node} {x : Node}
    (h : x ∈ st.body) : x ∈ (extStep ins st n).body := by
  unfold extStep
  split
  · exact h
  · split
    · exact h
    · split <;> first
      | exact h
      | (split <;> first | exact List.mem_append_left _ h | exact h)

theorem foldl_ext_body_mem {ins : List String} {x : Node} :
    ∀ {l : List Node} {st : ExtSt}, x ∈ st.body → x ∈ (l.foldl (extStep ins) st).body
  | [], _, h => h
  | _ :: l, _, h => foldl_ext_body_mem (l := l) (extStep_body_mem h)

theorem extStep_body_src {ins : List String} {st : ExtSt} {n : Node} {x : Node}
    (h : x ∈ (extStep ins st n).body) : x ∈ st.body ∨ x = n := by
  unfold extStep at h
  split at h
  · exact Or.inl h
  · split at h
    · exact Or.inl h
    · split at h <;> first
      | exact Or.inl h
      | (split at h <;>
          first
          | (rcases List.mem_append.1 h with h | h
             · exact Or.inl h
             · exact Or.inr (List.mem_singleton.1 h))
          | exact Or.inl h)

theorem foldl_ext_body_src {ins : List String} {x : Node} :
    ∀ {l : List Node} {st : ExtSt}, x ∈ (l.foldl (extStep ins) st).body →
      x ∈ st.body ∨ x ∈ l
  | [], _, h => Or.inl h
  | m :: l, st, h => by
    rcases foldl_ext_body_src (l := l) h with h | h
    · rcases extStep_body_src h with h | h
      · exact Or.inl h
      · exact Or.inr (h ▸ List.mem_cons_self ..)
    · exact Or.inr (List.mem_cons_of_mem _ h)

/-! ## Lemmas about dead-code elimination -/

theorem dceAux_cons (n : Node) (g : List Node) :
    dceAux (n :: g) = dceStep n (dceAux g) := rfl

theorem dce_kept_sublist : ∀ g : List Node, List.Sublist (dceAux g).1 g
  | [] => List.Sublist.refl _
  | n :: g => by
    rw [dceAux_cons, dceStep]
    split
    · exact (dce_kept_sublist g).cons₂ n
    · exact (dce_kept_sublist g).cons n

theorem dce_used_of_kept : ∀ {g : List Node} {x : Node} {a : String},
    x ∈ (dceAux g).1 → a ∈ nodeArgNames x → a ∈ (dceAux g).2
  | [], x, a, hx, _ => by simp [dceAux] at hx
  | n :: g, x, a, hx, ha => by
    rw [dceAux_cons, dceStep] at hx ⊢
    split at hx
    · next hc =>
      simp only [hc, if_true]
      rcases List.mem_cons.1 hx with rfl | hx
      · exact List.mem_append_right _ ha
      · exact List.mem_append_left _ (dce_used_of_kept hx ha)
    · next hc =>
      simp only [hc, if_false]
      exact dce_used_of_kept hx ha

theorem dce_kept_impure : ∀ {g : List Node} {x : Node},
    x ∈ g → isImpure x = true → x ∈ (dceAux g).1
  | [], x, hx, _ => absurd hx (List.not_mem_nil x)
  | n :: g, x, hx, himp => by
    rw [dceAux_cons, dceStep]
    rcases List.mem_cons.1 hx with rfl | hx
    · simp [himp]
    · split
      · exact List.mem_cons_of_mem _ (dce_kept_impure hx himp)
      · exact dce_kept_impure hx himp

theorem dce_used_mono_cons {n : Node} {g : List Node} {a : String}
    (h : a ∈ (dceAux g).2) : a ∈ (dceAux (n :: g)).2 := by
  rw [dceAux_cons, dceStep]
  split
  · exact List.mem_append_left _ h
  · exact h

theorem dce_kept_of_used : ∀ {g : List Node} {seen : List String},
    refsOkAux seen g = true → (seen ++ g.map Node.name).Nodup →
    ∀ {y : Node}, y ∈ g → y.name ∈ (dceAux g).2 → y ∈ (dceAux g).1
  | [], _, _, _, y, hy, _ => absurd hy (List.not_mem_nil y)
  | n :: g, seen, hrefs, hnd, y, hy, hused => by
    rw [refsOkAux] at hrefs
    rw [Bool.and_eq_true] at hrefs
    obtain ⟨hargs, hrest⟩ := hrefs
    have hnd2 : ((seen ++ [n.name]) ++ g.map Node.name).Nodup := by
      simpa [List.append_assoc] using hnd
    rcases List.mem_cons.1 hy with rfl | hy
    · by_cases hc : (isImpure y || decide (y.name ∈ (dceAux g).2)) = true
      · rw [dceAux_cons, dceStep]
        simp only [hc, if_true]
        exact List.mem_cons_self ..
      · exfalso
        rw [dceAux_cons, dceStep] at hused
        simp only [hc, if_false] at hused
        simp only [Bool.or_eq_true, decide_eq_true_eq, not_or] at hc
        exact hc.2 hused
    · rw [dceAux_cons, dceStep] at hused ⊢
      split at hused
      · next hc =>
        simp only [hc, if_true]
        rcases List.mem_append.1 hused with hused | hused
        · exact List.mem_cons_of_mem _ (dce_kept_of_used hrest hnd2 hy hused)
        · exfalso
          have hseen : y.name ∈ seen := by
            have := List.all_eq_true.1 hargs _ hused
            simpa using this
          have hyg : y.name ∈ g.map Node.name := List.mem_map_of_mem _ hy
          rcases List.nodup_append.1 hnd with ⟨_, _, hdisj⟩
          exact hdisj hseen (List.mem_cons_of_mem _ hyg)
      · next hc =>
        simp only [hc, if_false]
        exact dce_kept_of_used hrest hnd2 hy hused

theorem dceAux_ph_front : ∀ (phs rest : List Node),
    (∀ n ∈ phs, n.op = Op.placeholder) →
    dceAux (phs ++ rest) = (phs ++ (dceAux rest).1, (dceAux rest).2 ++ phs.foldr (fun n acc => acc ++ nodeArgNames n) [])
  | [], rest, _ => by simp [dceAux]
  | n :: phs, rest, h => by
    have hop : n.op = Op.placeholder := h n (List.mem_cons_self ..)
    have ih := dceAux_ph_front phs rest (fun m hm => h m (List.mem_cons_of_mem _ hm))
    show dceAux (n :: (phs ++ rest)) = _
    rw [dceAux_cons, ih, dceStep]
    have : isImpure n = true := by simp [isImpure, hop]
    simp [this, List.append_assoc]

theorem dceAux_idem : ∀ g : List Node, dceAux (dceAux g).1 = dceAux g
  | [] => rfl
  | n :: g => by
    rw [dceAux_cons, dceStep]
    split
    · next hc =>
      show dceAux (n :: (dceAux g).1) = _
      rw [dceAux_cons, dceAux_idem g, dceStep]
      simp only [hc, if_true]
    · exact dceAux_idem g

theorem dceAux_mono : ∀ {l₁ l₂ : List Node}, List.Sublist l₁ l₂ →
    (∀ x ∈ (dceAux l₁).1, x ∈ (dceAux l₂).1) ∧ (∀ a ∈ (dceAux l₁).2, a ∈ (dceAux l₂).2)
  | _, _, List.Sublist.slnil => ⟨fun x hx => hx, fun a ha => ha⟩
  | l₁, _, @List.Sublist.cons _ _ l₂ n hs => by
    have ih := dceAux_mono hs
    constructor
    · intro x hx
      rw [dceAux_cons, dceStep]
      split
      · exact List.mem_cons_of_mem _ (ih.1 x hx)
      · exact ih.1 x hx
    · intro a ha
      exact dce_used_mono_cons (ih.2 a ha)
  | _, _, @List.Sublist.cons₂ _ l₁ l₂ n hs => by
    have ih := dceAux_mono hs
    constructor
    · intro x hx
      rw [dceAux_cons, dceStep] at hx ⊢
      split at hx
      · next hc =>
        have hc2 : (isImpure n || decide (n.name ∈ (dceAux l₂).2)) = true := by
          rw [Bool.or_eq_true] at hc
          rcases hc with hc | hc
          · simp [hc]
          · simp only [decide_eq_true_eq] at hc
            simp [ih.2 _ hc]
        simp only [hc2, if_true]
        rcases List.mem_cons.1 hx with rfl | hx
        · exact List.mem_cons_self ..
        · exact List.mem_cons_of_mem _ (ih.1 x hx)
      · split
        · exact List.mem_cons_of_mem _ (ih.1 x hx)
        · exact ih.1 x hx
    · intro a ha
      rw [dceAux_cons, dceStep] at ha ⊢
      split at ha
      · next hc =>
        have hc2 : (isImpure n || decide (n.name ∈ (dceAux l₂).2)) = true := by
          rw [Bool.or_eq_true] at hc
          rcases hc with hc | hc
          · simp [hc]
          · simp only [decide_eq_true_eq] at hc
            simp [ih.2 _ hc]
        simp only [hc2, if_true]
        rcases List.mem_append.1 ha with ha | ha
        · exact List.mem_append_left _ (ih.2 a ha)
        · exact List.mem_append_right _ ha
      · exact dce_used_mono_cons (ih.2 a ha)

/-! ## Structure of extracted graphs -/

theorem extractEnv_decomp (pre post : List Node) (n : Node) (ins : List String) :
    extractEnv (pre ++ n :: post) ins =
      post.foldl (extStep ins) (extStep ins (extractEnv pre ins) n) := by
  unfold extractEnv
  rw [List.foldl_append, List.foldl_cons]

theorem ext_err_mono_foldl {ins : List String} :
    ∀ {l : List Node} {st : ExtSt}, st.err = true → (l.foldl (extStep ins) st).err = true
  | [], _, h => h
  | n :: l, st, h => by
    rw [List.foldl_cons, extStep_of_err n h]
    exact ext_err_mono_foldl h

theorem ext_err_false_pre {ins : List String} {l : List Node} {st : ExtSt}
    (h : (l.foldl (extStep ins) st).err = false) : st.err = false := by
  cases hst : st.err
  · rfl
  · rw [ext_err_mono_foldl hst] at h
    cases h

theorem extStep_body_shape {ins : List String} {st : ExtSt} {n : Node} {x : Node}
    (h : x ∈ (extStep ins st n).body) :
    x ∈ st.body ∨
      (x = n ∧ ¬(n.name ∈ ins) ∧ (n.op = .call_function ∨ n.op = .get_attr) ∧
        (nodeArgNames n).all (fun a => decide (a ∈ st.valid)) = true) := by
  unfold extStep at h
  split at h
  · exact Or.inl h
  · split at h
    · exact Or.inl h
    · next hin =>
      rw [decide_eq_true_eq] at hin
      split at h
      · exact Or.inl h
      · next hop =>
        split at h
        · next hargs =>
          rcases List.mem_append.1 h with h | h
          · exact Or.inl h
          · exact Or.inr ⟨List.mem_singleton.1 h, hin, Or.inl hop, hargs⟩
        · exact Or.inl h
      · next hop =>
        split at h
        · next hargs =>
          rcases List.mem_append.1 h with h | h
          · exact Or.inl h
          · exact Or.inr ⟨List.mem_singleton.1 h, hin, Or.inr hop, hargs⟩
        · exact Or.inl h
      · exact Or.inl h

theorem foldl_ext_body_shape {ins : List String} {x : Node} :
    ∀ {l : List Node} {st : ExtSt}, x ∈ (l.foldl (extStep ins) st).body →
      x ∈ st.body ∨
        (x ∈ l ∧ ¬(x.name ∈ ins) ∧ (x.op = .call_function ∨ x.op = .get_attr))
  | [], _, h => Or.inl h
  | m :: l, st, h => by
    rw [List.foldl_cons] at h
    rcases foldl_ext_body_shape (l := l) h with h | ⟨h1, h2, h3⟩
    · rcases extStep_body_shape h with h | ⟨rfl, h2, h3, _⟩
      · exact Or.inl h
      · exact Or.inr ⟨List.mem_cons_self .., h2, h3⟩
    · exact Or.inr ⟨List.mem_cons_of_mem _ h1, h2, h3⟩

theorem extractEnv_body_shape {src : List Node} {ins : List String} {x : Node}
    (h : x ∈ (extractEnv src ins).body) :
    x ∈ src ∧ ¬(x.name ∈ ins) ∧ (x.op = .call_function ∨ x.op = .get_attr) := by
  rcases foldl_ext_body_shape h with h | h
  · simp at h
  · exact h

theorem extractEnv_valid_shape {src : List Node} {ins : List String} {a : String}
    (h : a ∈ (extractEnv src ins).valid) : ∃ n ∈ src, n.name = a := by
  rcases foldl_ext_valid_src h with h | h
  · simp at h
  · exact h

theorem extract_eq_some {src G : List Node} {ins outs : List String}
    (h : _extract_graph_with_inputs_outputs src ins outs = some G) :
    (extractEnv src ins).err = false ∧
      (∀ a ∈ outs, a ∈ (extractEnv src ins).valid) ∧
      G = (dceAux (ins.map mkPlaceholder ++ (extractEnv src ins).body ++ [mkOutput outs])).1 := by
  simp only [_extract_graph_with_inputs_outputs] at h
  split at h
  · cases h
  · next herr =>
    split at h
    · next hall =>
      refine ⟨by simpa using herr, ?_, ?_⟩
      · intro a ha
        have := List.all_eq_true.1 hall a ha
        simpa using this
      · simpa [eliminate_dead_code] using h.symm
    · cases h

theorem foldr_dce_kept_shape :
    ∀ (l : List Node) (acc : List Node × List String),
      ∃ kb, (l.foldr dceStep acc).1 = kb ++ acc.1 ∧ List.Sublist kb l
  | [], _ => ⟨[], rfl, List.nil_sublist _⟩
  | n :: l, acc => by
    obtain ⟨kb, h1, h2⟩ := foldr_dce_kept_shape l acc
    rw [List.foldr_cons]
    rw [dceStep]
    split
    · exact ⟨n :: kb, by simp [h1], h2.cons₂ n⟩
    · exact ⟨kb, h1, h2.cons n⟩

theorem dceAux_single_out (outs : List String) :
    dceAux [mkOutput outs] = ([mkOutput outs], outs) := by
  have h1 : isImpure (mkOutput outs) = true := by simp [isImpure, mkOutput]
  have h2 : nodeArgNames (mkOutput outs) = outs := by
    simp [nodeArgNames, mkOutput, List.filterMap_map]
    exact List.filterMap_some ..
  simp [dceAux, dceStep, h1, h2]

/-- Every graph returned by the extractor decomposes as: placeholders in
input order, a kept sublist of the replayed body, then the output node. -/
theorem extract_structure {src G : List Node} {ins outs : List String}
    (h : _extract_graph_with_inputs_outputs src ins outs = some G) :
    ∃ kb, G = ins.map mkPlaceholder ++ kb ++ [mkOutput outs] ∧
      List.Sublist kb (extractEnv src ins).body ∧
      kb ++ [mkOutput outs] =
        (dceAux ((extractEnv src ins).body ++ [mkOutput outs])).1 := by
  obtain ⟨_, _, hG⟩ := extract_eq_some h
  have hph : ∀ n ∈ ins.map mkPlaceholder, n.op = Op.placeholder := by
    intro n hn
    rcases List.mem_map.1 hn with ⟨s, _, rfl⟩
    rfl
  rw [List.append_assoc] at hG
  rw [dceAux_ph_front _ _ hph] at hG
  have hsplit : dceAux ((extractEnv src ins).body ++ [mkOutput outs]) =
      (extractEnv src ins).body.foldr dceStep (dceAux [mkOutput outs]) := by
    simp [dceAux, List.foldr_append]
  obtain ⟨kb, hkb1, hkb2⟩ :=
    foldr_dce_kept_shape (extractEnv src ins).body (dceAux [mkOutput outs])
  rw [dceAux_single_out] at hkb1
  refine ⟨kb, ?_, hkb2, ?_⟩
  · rw [hG]
    simp only [hsplit, hkb1, dceAux_single_out, List.append_assoc]
  · rw [hsplit, dceAux_single_out, hkb1]

theorem nodup_middle_facts {pre post : List Node} {n : Node}
    (hnd : ((pre ++ n :: post).map Node.name).Nodup) :
    n.name ∉ pre.map Node.name ∧ n.name ∉ post.map Node.name := by
  rw [List.map_append, List.map_cons] at hnd
  rcases List.nodup_append.1 hnd with ⟨_, h2, hdisj⟩
  refine ⟨fun h => hdisj h (List.mem_cons_self ..), (List.nodup_cons.1 h2).1⟩

theorem ext_name_not_valid_pre {pre post : List Node} {n : Node} {ins : List String}
    (hnd : ((pre ++ n :: post).map Node.name).Nodup) :
    n.name ∉ (extractEnv pre ins).valid := by
  intro h
  obtain ⟨m, hm, hmn⟩ := extractEnv_valid_shape h
  exact (nodup_middle_facts hnd).1 (hmn ▸ List.mem_map_of_mem _ hm)

theorem ext_valid_position {pre post : List Node} {n : Node} {ins : List String}
    (hnd : ((pre ++ n :: post).map Node.name).Nodup) :
    n.name ∈ (extractEnv (pre ++ n :: post) ins).valid ↔
      n.name ∈ (extStep ins (extractEnv pre ins) n).valid := by
  rw [extractEnv_decomp]
  constructor
  · intro h
    rcases foldl_ext_valid_src h with h | ⟨m, hm, hmn⟩
    · exact h
    · exact absurd (hmn ▸ List.mem_map_of_mem _ hm) (nodup_middle_facts hnd).2
  · exact foldl_ext_valid_mem

theorem ext_body_position {pre post : List Node} {n : Node} {ins : List String}
    (hnd : ((pre ++ n :: post).map Node.name).Nodup) :
    n ∈ (extractEnv (pre ++ n :: post) ins).body ↔
      n ∈ (extStep ins (extractEnv pre ins) n).body := by
  rw [extractEnv_decomp]
  constructor
  · intro h
    rcases foldl_ext_body_src h with h | h
    · exact h
    · exact absurd (List.mem_map_of_mem _ h) (nodup_middle_facts hnd).2
  · exact foldl_ext_body_mem

/-- **C5.**  In sub-graph extraction, a source node not listed as an input is
treated as follows: a source placeholder maps to `InvalidNode` (it is never
valid); a `call_function` node maps to `InvalidNode` and is omitted from the
graph being built exactly when at least one of its node-typed arguments
(positional or keyword) maps to `InvalidNode` at that point of the walk, and
otherwise the same operation is replayed against the mapped-argument
proxies, producing a corresponding node of the new graph (same name, target
and argument wiring).  Stated before dead-code elimination, which the
specification describes as a separate later step. -/
theorem claim5_extraction_env {src pre post : List Node} {n : Node} {ins : List String}
    (hsrc : src = pre ++ n :: post)
    (hnd : (src.map Node.name).Nodup)
    (herr : (extractEnv src ins).err = false)
    (hnotin : n.name ∉ ins) :
    (n.op = .placeholder → n.name ∉ (extractEnv src ins).valid) ∧
    (n.op = .call_function →
      ((n.name ∉ (extractEnv src ins).valid ∧ n ∉ (extractEnv src ins).body) ↔
        ∃ a ∈ nodeArgNames n, a ∉ (extractEnv pre ins).valid) ∧
      ((∀ a ∈ nodeArgNames n, a ∈ (extractEnv pre ins).valid) →
        n.name ∈ (extractEnv src ins).valid ∧ n ∈ (extractEnv src ins).body)) := by
  subst hsrc
  have herrpre : (extractEnv pre ins).err = false := by
    rw [extractEnv_decomp] at herr
    have h1 := ext_err_false_pre herr
    cases hpre : (extractEnv pre ins).err
    · rfl
    · rw [extStep_of_err n hpre] at h1
      rw [h1] at hpre
      cases hpre
  have hnpre : n.name ∉ (extractEnv pre ins).valid := ext_name_not_valid_pre hnd
  have hnb : n ∉ (extractEnv pre ins).body := by
    intro h
    obtain ⟨hmem, -, -⟩ := extractEnv_body_shape h
    exact (nodup_middle_facts hnd).1 (List.mem_map_of_mem _ hmem)
  constructor
  · intro hop hval
    rw [ext_valid_position hnd] at hval
    have hstep : extStep ins (extractEnv pre ins) n = extractEnv pre ins := by
      simp [extStep, herrpre, hnotin, hop]
    rw [hstep] at hval
    exact hnpre hval
  · intro hop
    by_cases hargs :
        ((nodeArgNames n).all fun a => decide (a ∈ (extractEnv pre ins).valid)) = true
    · have hstep : extStep ins (extractEnv pre ins) n =
          { extractEnv pre ins with
              valid := n.name :: (extractEnv pre ins).valid,
              body := (extractEnv pre ins).body ++ [n] } := by
        simp [extStep, herrpre, hnotin, hop, hargs]
      have hargs2 : ∀ a ∈ nodeArgNames n, a ∈ (extractEnv pre ins).valid := by
        intro a ha
        simpa using List.all_eq_true.1 hargs a ha
      have hv : n.name ∈ (extractEnv (pre ++ n :: post) ins).valid := by
        rw [ext_valid_position hnd, hstep]
        exact List.mem_cons_self ..
      have hb : n ∈ (extractEnv (pre ++ n :: post) ins).body := by
        rw [ext_body_position hnd, hstep]
        simp
      refine ⟨⟨fun h => absurd hv h.1, fun h => ?_⟩, fun _ => ⟨hv, hb⟩⟩
      obtain ⟨a, ha, hav⟩ := h
      exact absurd (hargs2 a ha) hav
    · have hstep : extStep ins (extractEnv pre ins) n = extractEnv pre ins := by
        simp only [extStep, herrpre, Bool.false_eq_true, if_false,
          decide_eq_true_eq, hnotin, hop, hargs]
      have hargs2 : ∃ a ∈ nodeArgNames n, a ∉ (extractEnv pre ins).valid := by
        by_contra hc
        push_neg at hc
        exact hargs (List.all_eq_true.2 fun a ha => by simpa using hc a ha)
      have hnv : n.name ∉ (extractEnv (pre ++ n :: post) ins).valid := by
        rw [ext_valid_position hnd, hstep]
        exact hnpre
      have hnbf : n ∉ (extractEnv (pre ++ n :: post) ins).body := by
        rw [ext_body_position hnd, hstep]
        exact hnb
      refine ⟨⟨fun _ => hargs2, fun _ => ⟨hnv, hnbf⟩⟩, fun hall => ?_⟩
      obtain ⟨a, ha, hav⟩ := hargs2
      exact absurd (hall a ha) hav

theorem find_skip_none {α : Type} {p : α → Bool} :
    ∀ {l₁ l₂ : List α}, (∀ x ∈ l₁, p x = false) → (l₁ ++ l₂).find? p = l₂.find? p
  | [], _, _ => rfl
  | a :: l₁, l₂, h => by
    rw [List.cons_append, List.find?_cons_of_neg _ (by simp [h a (List.mem_cons_self ..)])]
    exact find_skip_none (fun x hx => h x (List.mem_cons_of_mem _ hx))

/-- **C6.**  Sub-graph extraction fails — returns no graph, surfacing the
error immediately with no retry — exactly when some requested output node
has no valid proxy, i.e. when the requested output set is not computable
from the declared input set; on success, the output node of the new graph
returns exactly the valid proxies of the requested output nodes, in order
(with names preserved, the proxy of a source node is the new-graph node of
the same name). -/
theorem claim6_extraction_failure {src : List Node} {ins outs : List String}
    (herr : (extractEnv src ins).err = false) :
    (_extract_graph_with_inputs_outputs src ins outs = none ↔
      ∃ a ∈ outs, a ∉ (extractEnv src ins).valid) ∧
    (∀ G, _extract_graph_with_inputs_outputs src ins outs = some G →
      findOutput G = some (mkOutput outs) ∧ (mkOutput outs).args = outs.map Arg.node) := by
  constructor
  · simp only [_extract_graph_with_inputs_outputs, herr]
    by_cases hall : (outs.all fun a => decide (a ∈ (extractEnv src ins).valid)) = true
    · simp only [hall, if_true, if_false]
      constructor
      · intro h
        cases h
      · rintro ⟨a, ha, hav⟩
        exact absurd (by simpa using List.all_eq_true.1 hall a ha) hav
    · simp only [hall, Bool.false_eq_true, if_false]
      constructor
      · intro _
        by_contra hc
        push_neg at hc
        exact hall (List.all_eq_true.2 (fun a ha => by simpa using hc a ha))
      · intro _
        simp
  · intro G hG
    obtain ⟨kb, hGeq, hkb, -⟩ := extract_structure hG
    constructor
    · rw [hGeq]
      unfold findOutput
      rw [find_skip_none, List.find?_cons_of_pos _ (by rfl)]
      intro x hx
      rcases List.mem_append.1 hx with hx | hx
      · rcases List.mem_map.1 hx with ⟨s, _, rfl⟩
        rfl
      · have hsh := extractEnv_body_shape (hkb.subset hx)
        rcases hsh.2.2 with h | h <;> simp [h]
    · simp [mkOutput]

/-- **C9.**  For every successful call to sub-graph extraction with
duplicate-free inputs, the resulting graph contains exactly one placeholder
per member of the `inputNodes` list, created in the order of that list (not
topological order), regardless of how many times each member is referenced
in the source graph; and they are retained even with zero users, since
dead-code elimination never removes placeholder nodes (second conjunct,
stated for every graph). -/
theorem claim9_placeholders {src G : List Node} {ins outs : List String}
    (_hins : ins.Nodup)
    (h : _extract_graph_with_inputs_outputs src ins outs = some G) :
    G.filter (fun n => n.op == Op.placeholder) = ins.map mkPlaceholder ∧
    (∀ (g2 : List Node) (n : Node), n ∈ g2 → n.op = .placeholder →
      n ∈ eliminate_dead_code g2) := by
  constructor
  · obtain ⟨kb, hGeq, hkb, -⟩ := extract_structure h
    rw [hGeq, List.filter_append, List.filter_append]
    have h1 : (ins.map mkPlaceholder).filter (fun n => n.op == Op.placeholder) =
        ins.map mkPlaceholder := by
      refine List.filter_eq_self.2 ?_
      intro x hx
      rcases List.mem_map.1 hx with ⟨s, _, rfl⟩
      rfl
    have h2 : kb.filter (fun n => n.op == Op.placeholder) = [] := by
      refine List.filter_eq_nil_iff.2 ?_
      intro x hx
      have hsh := extractEnv_body_shape (hkb.subset hx)
      rcases hsh.2.2 with hop | hop <;> simp [hop]
    have h3 : [mkOutput outs].filter (fun n => n.op == Op.placeholder) = [] := by
      rfl
    rw [h1, h2, h3, List.append_nil, List.append_nil]
  · intro g2 n hn hop
    exact dce_kept_impure hn (by simp [isImpure, hop])

/-- Witness for C5: in `exJoint` with inputs `["primals_1"]`, the node
`u = f(primals_1)` is a `call_function` node whose arguments are all valid,
so it is replayed into the new graph. -/
theorem claim5_witness :
    (exNodeU.op = .placeholder → exNodeU.name ∉ (extractEnv exJoint ["primals_1"]).valid) ∧
    (exNodeU.op = .call_function →
      ((exNodeU.name ∉ (extractEnv exJoint ["primals_1"]).valid ∧
          exNodeU ∉ (extractEnv exJoint ["primals_1"]).body) ↔
        ∃ a ∈ nodeArgNames exNodeU,
          a ∉ (extractEnv [⟨"primals_1", .placeholder, "primals_1", []⟩,
            ⟨"tangents_1", .placeholder, "tangents_1", []⟩] ["primals_1"]).valid) ∧
      ((∀ a ∈ nodeArgNames exNodeU,
          a ∈ (extractEnv [⟨"primals_1", .placeholder, "primals_1", []⟩,
            ⟨"tangents_1", .placeholder, "tangents_1", []⟩] ["primals_1"]).valid) →
        exNodeU.name ∈ (extractEnv exJoint ["primals_1"]).valid ∧
          exNodeU ∈ (extractEnv exJoint ["primals_1"]).body)) :=
  @claim5_extraction_env exJoint
    [⟨"primals_1", .placeholder, "primals_1", []⟩,
     ⟨"tangents_1", .placeholder, "tangents_1", []⟩]
    [⟨"v", .call_function, "g", [.node "tangents_1", .node "u"]⟩,
     ⟨"w", .call_function, "h", [.node "u"]⟩,
     ⟨"output", .output, "output", [.node "u", .node "v"]⟩]
    exNodeU ["primals_1"] (by decide) (by decide) (by decide) (by decide)

/-- Witness for C6: extracting `v` from inputs `["u", "tangents_1"]`
succeeds with output list `[v]`; extracting `v` from `["u"]` alone fails. -/
theorem claim6_witness :
    ((_extract_graph_with_inputs_outputs exJoint ["u", "tangents_1"] ["v"] = none ↔
      ∃ a ∈ ["v"], a ∉ (extractEnv exJoint ["u", "tangents_1"]).valid) ∧
    (∀ G, _extract_graph_with_inputs_outputs exJoint ["u", "tangents_1"] ["v"] = some G →
      findOutput G = some (mkOutput ["v"]) ∧ (mkOutput ["v"]).args = ["v"].map Arg.node)) :=
  claim6_extraction_failure (by decide)

/-- Witness for C9: extraction of the backward graph of `exJoint` keeps
exactly the placeholders `u` and `tangents_1`, in input order. -/
theorem claim9_witness :
    (([mkPlaceholder "u", mkPlaceholder "tangents_1",
       ⟨"v", .call_function, "g", [.node "tangents_1", .node "u"]⟩,
       mkOutput ["v"]] : List Node).filter (fun n => n.op == Op.placeholder) =
        ["u", "tangents_1"].map mkPlaceholder) ∧
    (∀ (g2 : List Node) (n : Node), n ∈ g2 → n.op = .placeholder →
      n ∈ eliminate_dead_code g2) :=
  @claim9_placeholders exJoint
    [mkPlaceholder "u", mkPlaceholder "tangents_1",
     ⟨"v", .call_function, "g", [.node "tangents_1", .node "u"]⟩,
     mkOutput ["v"]]
    ["u", "tangents_1"] ["v"] (by decide) (by decide)

/-! ## The classification of `default_partition` (C2) -/

theorem pushName_mem {c : List String} {x a : String} :
    a ∈ pushName c x ↔ a ∈ c ∨ a = x := by
  unfold pushName
  split
  · next h =>
    constructor
    · exact Or.inl
    · rintro (h2 | rfl)
      · exact h2
      · exact h
  · simp

theorem savedFold_mem {bw1 : List String} :
    ∀ {args sv : List String} {x : String},
      x ∈ args.foldl (fun sv a => if a ∈ bw1 then sv else pushName sv a) sv ↔
        x ∈ sv ∨ (x ∈ args ∧ x ∉ bw1)
  | [], sv, x => by simp
  | a :: args, sv, x => by
    rw [List.foldl_cons, savedFold_mem]
    by_cases hm : a ∈ bw1
    · rw [if_pos hm]
      constructor
      · rintro (h | ⟨h1, h2⟩)
        · exact Or.inl h
        · exact Or.inr ⟨List.mem_cons_of_mem _ h1, h2⟩
      · rintro (h | ⟨h1, h2⟩)
        · exact Or.inl h
        · rcases List.mem_cons.1 h1 with rfl | h1
          · exact absurd hm h2
          · exact Or.inr ⟨h1, h2⟩
    · rw [if_neg hm]
      constructor
      · rintro (h | ⟨h1, h2⟩)
        · rcases pushName_mem.1 h with h | rfl
          · exact Or.inl h
          · exact Or.inr ⟨List.mem_cons_self .., hm⟩
        · exact Or.inr ⟨List.mem_cons_of_mem _ h1, h2⟩
      · rintro (h | ⟨h1, h2⟩)
        · exact Or.inl (pushName_mem.2 (Or.inl h))
        · rcases List.mem_cons.1 h1 with rfl | h1
          · exact Or.inl (pushName_mem.2 (Or.inr rfl))
          · exact Or.inr ⟨h1, h2⟩

theorem dpStep_bw_mono {st : DPSt} {n : Node} {a : String}
    (h : a ∈ st.bw) : a ∈ (dpStep st n).bw := by
  unfold dpStep
  split
  · exact pushName_mem.2 (Or.inl h)
  · split
    · exact h
    · split
      · exact pushName_mem.2 (Or.inl h)
      · exact h

theorem dpStep_saved_mono {st : DPSt} {n : Node} {a : String}
    (h : a ∈ st.saved) : a ∈ (dpStep st n).saved := by
  unfold dpStep
  split
  · exact h
  · split
    · exact h
    · split
      · exact savedFold_mem.2 (Or.inl h)
      · exact h

theorem foldl_dp_bw_mono {a : String} :
    ∀ {l : List Node} {st : DPSt}, a ∈ st.bw → a ∈ (l.foldl dpStep st).bw
  | [], _, h => h
  | _ :: l, _, h => foldl_dp_bw_mono (l := l) (dpStep_bw_mono h)

theorem foldl_dp_saved_mono {a : String} :
    ∀ {l : List Node} {st : DPSt}, a ∈ st.saved → a ∈ (l.foldl dpStep st).saved
  | [], _, h => h
  | _ :: l, _, h => foldl_dp_saved_mono (l := l) (dpStep_saved_mono h)

theorem dpStep_bw_src {st : DPSt} {n : Node} {a : String}
    (h : a ∈ (dpStep st n).bw) : a ∈ st.bw ∨ a = n.name := by
  unfold dpStep at h
  split at h
  · exact pushName_mem.1 h
  · split at h
    · exact Or.inl h
    · split at h
      · exact pushName_mem.1 h
      · exact Or.inl h

theorem foldl_dp_bw_src {a : String} :
    ∀ {l : List Node} {st : DPSt}, a ∈ (l.foldl dpStep st).bw →
      a ∈ st.bw ∨ ∃ m ∈ l, m.name = a
  | [], _, h => Or.inl h
  | m :: l, st, h => by
    rcases foldl_dp_bw_src (l := l) h with h | ⟨m2, hm2, hm2a⟩
    · rcases dpStep_bw_src h with h | rfl
      · exact Or.inl h
      · exact Or.inr ⟨m, List.mem_cons_self .., rfl⟩
    · exact Or.inr ⟨m2, List.mem_cons_of_mem _ hm2, hm2a⟩

theorem classify_decomp (pre post : List Node) (n : Node) :
    classifyDefault (pre ++ n :: post) =
      post.foldl dpStep (dpStep (classifyDefault pre) n) := by
  unfold classifyDefault
  rw [List.foldl_append, List.foldl_cons]

theorem dp_bw_position {pre post : List Node} {n : Node}
    (hnd : (((pre ++ n :: post)).map Node.name).Nodup) :
    n.name ∈ (classifyDefault (pre ++ n :: post)).bw ↔
      n.name ∈ (dpStep (classifyDefault pre) n).bw := by
  rw [classify_decomp]
  constructor
  · intro h
    rcases foldl_dp_bw_src h with h | ⟨m, hm, hmn⟩
    · exact h
    · exact absurd (hmn ▸ List.mem_map_of_mem _ hm) (nodup_middle_facts hnd).2
  · exact foldl_dp_bw_mono

theorem dp_name_not_bw_pre {pre post : List Node} {n : Node}
    (hnd : (((pre ++ n :: post)).map Node.name).Nodup) :
    n.name ∉ (classifyDefault pre).bw := by
  intro h
  rcases foldl_dp_bw_src h with h | ⟨m, hm, hmn⟩
  · simp at h
  · exact (nodup_middle_facts hnd).1 (hmn ▸ List.mem_map_of_mem _ hm)

/-- **C2 counterexample.**  In `exJoint`, the node `w = h(u)` is classified
backward-reachable although it is not a tangent placeholder and none of its
arguments is ever classified backward-reachable (`u` is only in the
saved-value set): the claimed "if and only if" fails in its "only if"
direction. -/
theorem claim2_counterexample :
    (⟨"w", .call_function, "h", [.node "u"]⟩ : Node).name ∈ (classifyDefault exJoint).bw ∧
    isTangentPH ⟨"w", .call_function, "h", [.node "u"]⟩ = false ∧
    ∀ a ∈ nodeArgNames ⟨"w", .call_function, "h", [.node "u"]⟩,
      a ∉ (classifyDefault exJoint).bw := by
  decide

/-- **C2 (amended).**  In the simple/default partitioner, a non-output node
is classified backward-reachable if and only if it is a tangent placeholder
or at least one of its arguments (positional or keyword) is already
classified backward-reachable **or is already in the saved-value set**; and
every argument of a backward-reachable node that is not itself
backward-reachable is added to the saved-value set. -/
theorem claim2_classification_amended {g pre post : List Node} {n : Node}
    (hg : g = pre ++ n :: post)
    (hnd : (g.map Node.name).Nodup)
    (hph : ∀ m ∈ g, m.op = .placeholder → nodeArgNames m = [])
    (hop : n.op ≠ .output) :
    (n.name ∈ (classifyDefault g).bw ↔
      (isTangentPH n = true ∨
        ∃ a ∈ nodeArgNames n,
          a ∈ (classifyDefault pre).bw ∨ a ∈ (classifyDefault pre).saved)) ∧
    (n.name ∈ (classifyDefault g).bw →
      ∀ a ∈ nodeArgNames n, a ∉ (classifyDefault g).bw → a ∈ (classifyDefault g).saved) := by
  subst hg
  have hops : (n.op == Op.output) = false := by
    cases hop2 : n.op <;> simp_all
  by_cases htan : isTangentPH n = true
  · have hstep : (dpStep (classifyDefault pre) n).bw =
        pushName (classifyDefault pre).bw n.name := by
      unfold dpStep
      rw [if_pos htan]
    have hargs : nodeArgNames n = [] := by
      refine hph n (by simp) ?_
      have h2 := htan
      unfold isTangentPH at h2
      rw [Bool.and_eq_true] at h2
      simpa using h2.1
    constructor
    · rw [dp_bw_position hnd, hstep]
      simp [htan, pushName_mem]
    · intro _ a ha
      rw [hargs] at ha
      cases ha
  · by_cases hcol :
        ((nodeArgNames n).any fun a =>
          decide (a ∈ (classifyDefault pre).bw) || decide (a ∈ (classifyDefault pre).saved)) = true
    · have hstep : dpStep (classifyDefault pre) n =
          { bw := pushName (classifyDefault pre).bw n.name,
            saved := (nodeArgNames n).foldl
              (fun sv a => if a ∈ pushName (classifyDefault pre).bw n.name then sv
                else pushName sv a) (classifyDefault pre).saved } := by
        unfold dpStep
        rw [if_neg (by simp [htan]), if_neg (by simp [hops]), if_pos hcol]
      have hbwfin : n.name ∈ (classifyDefault (pre ++ n :: post)).bw := by
        rw [dp_bw_position hnd, hstep]
        exact pushName_mem.2 (Or.inr rfl)
      have hex : ∃ a ∈ nodeArgNames n,
          a ∈ (classifyDefault pre).bw ∨ a ∈ (classifyDefault pre).saved := by
        rcases List.any_eq_true.1 hcol with ⟨a, ha, hcond⟩
        refine ⟨a, ha, ?_⟩
        rw [Bool.or_eq_true] at hcond
        rcases hcond with h | h
        · exact Or.inl (by simpa using h)
        · exact Or.inr (by simpa using h)
      refine ⟨⟨fun _ => Or.inr hex, fun _ => hbwfin⟩, ?_⟩
      intro _ a ha hanot
      have hanotbw1 : a ∉ pushName (classifyDefault pre).bw n.name := by
        intro hmem
        rcases pushName_mem.1 hmem with hmem | rfl
        · refine hanot ?_
          rw [classify_decomp]
          exact foldl_dp_bw_mono (dpStep_bw_mono hmem)
        · exact hanot hbwfin
      have hsvstep : a ∈ (dpStep (classifyDefault pre) n).saved := by
        rw [hstep]
        exact savedFold_mem.2 (Or.inr ⟨ha, hanotbw1⟩)
      rw [classify_decomp]
      exact foldl_dp_saved_mono hsvstep
    · have hstep : dpStep (classifyDefault pre) n = classifyDefault pre := by
        unfold dpStep
        rw [if_neg (by simp [htan]), if_neg (by simp [hops]), if_neg hcol]
      have hnot : n.name ∉ (classifyDefault (pre ++ n :: post)).bw := by
        rw [dp_bw_position hnd, hstep]
        exact dp_name_not_bw_pre hnd
      constructor
      · refine ⟨fun h => absurd h hnot, ?_⟩
        rintro (h | ⟨a, ha, hcond⟩)
        · exact absurd h htan
        · exfalso
          refine hcol (List.any_eq_true.2 ⟨a, ha, ?_⟩)
          rcases hcond with h | h <;> simp [h]
      · intro h
        exact absurd h hnot

/-- Witness for the amended C2: the node `w = h(u)` of `exJoint` is colored
through the saved-value membership of its argument `u`. -/
theorem claim2_witness :
    ((⟨"w", .call_function, "h", [.node "u"]⟩ : Node).name ∈ (classifyDefault exJoint).bw ↔
      (isTangentPH ⟨"w", .call_function, "h", [.node "u"]⟩ = true ∨
        ∃ a ∈ nodeArgNames ⟨"w", .call_function, "h", [.node "u"]⟩,
          a ∈ (classifyDefault [⟨"primals_1", .placeholder, "primals_1", []⟩,
              ⟨"tangents_1", .placeholder, "tangents_1", []⟩,
              ⟨"u", .call_function, "f", [.node "primals_1"]⟩,
              ⟨"v", .call_function, "g", [.node "tangents_1", .node "u"]⟩]).bw ∨
            a ∈ (classifyDefault [⟨"primals_1", .placeholder, "primals_1", []⟩,
              ⟨"tangents_1", .placeholder, "tangents_1", []⟩,
              ⟨"u", .call_function, "f", [.node "primals_1"]⟩,
              ⟨"v", .call_function, "g", [.node "tangents_1", .node "u"]⟩]).saved)) ∧
    ((⟨"w", .call_function, "h", [.node "u"]⟩ : Node).name ∈ (classifyDefault exJoint).bw →
      ∀ a ∈ nodeArgNames ⟨"w", .call_function, "h", [.node "u"]⟩,
        a ∉ (classifyDefault exJoint).bw → a ∈ (classifyDefault exJoint).saved) :=
  @claim2_classification_amended exJoint
    [⟨"primals_1", .placeholder, "primals_1", []⟩,
     ⟨"tangents_1", .placeholder, "tangents_1", []⟩,
     ⟨"u", .call_function, "f", [.node "primals_1"]⟩,
     ⟨"v", .call_function, "g", [.node "tangents_1", .node "u"]⟩]
    [⟨"output", .output, "output", [.node "u", .node "v"]⟩]
    ⟨"w", .call_function, "h", [.node "u"]⟩
    (by decide) (by decide) (by decide) (by decide)

/-! ## The flow network (C3, C10) -/

theorem netStep_append (g : List Node) (metaOf : String → MetaInfo)
    (closure : List String) (acc : List Edge) (n : Node) :
    netStep g metaOf closure acc n = acc ++ netStep g metaOf closure [] n := by
  unfold netStep
  split
  · rfl
  · split <;> split <;> simp [List.append_assoc]

theorem foldl_net_mem (g : List Node) (metaOf : String → MetaInfo)
    (closure : List String) {e : Edge} :
    ∀ {l : List Node} {acc : List Edge},
      e ∈ l.foldl (netStep g metaOf closure) acc ↔
        e ∈ acc ∨ ∃ n ∈ l, e ∈ netStep g metaOf closure [] n
  | [], acc => by simp
  | m :: l, acc => by
    rw [List.foldl_cons, foldl_net_mem g metaOf closure, netStep_append]
    constructor
    · rintro (h | h)
      · rcases List.mem_append.1 h with h | h
        · exact Or.inl h
        · exact Or.inr ⟨m, List.mem_cons_self .., h⟩
      · obtain ⟨n, hn, hne⟩ := h
        exact Or.inr ⟨n, List.mem_cons_of_mem _ hn, hne⟩
    · rintro (h | ⟨n, hn, hne⟩)
      · exact Or.inl (List.mem_append_left _ h)
      · rcases List.mem_cons.1 hn with rfl | hn
        · exact Or.inl (List.mem_append_right _ hne)
        · exact Or.inr ⟨n, hn, hne⟩

theorem buildNetwork_mem {g : List Node} {metaOf : String → MetaInfo} {e : Edge} :
    e ∈ buildNetwork g metaOf ↔
      ∃ n ∈ g, e ∈ netStep g metaOf (tangentClosure g) [] n := by
  unfold buildNetwork
  rw [foldl_net_mem]
  simp

theorem netStep_closure_edges {g : List Node} {metaOf : String → MetaInfo}
    {closure : List String} {n : Node} (h : n.name ∈ closure) :
    netStep g metaOf closure [] n = [⟨.vin n.name, .sink, .inf⟩] := by
  unfold netStep
  rw [if_pos h]
  rfl

theorem netStep_nonclosure_edges {g : List Node} {metaOf : String → MetaInfo}
    {closure : List String} {n : Node} (h : n.name ∉ closure) :
    netStep g metaOf closure [] n =
      (if n.op == .placeholder && strContains n.target "primals" then
        ([⟨.source, .vin n.name, .inf⟩] : List Edge) else [])
      ++ (if n.target ∈ notRecomputableOps then
        ([⟨.source, .vin n.name, .inf⟩] : List Edge) else [])
      ++ [⟨.vin n.name, .vout n.name, nodeWeight metaOf n⟩]
      ++ (usersOf g n.name).map (fun u => ⟨.vout n.name, .vin u.name, .inf⟩) := by
  unfold netStep
  rw [if_neg h]
  split <;> split <;> simp

/-- An "in"→"out" edge occurs in the network exactly for the non-closure
nodes, with the `nodeWeight` capacity. -/
theorem inout_edge_iff {g : List Node} {metaOf : String → MetaInfo}
    {a : String} {c : Cap} :
    (⟨.vin a, .vout a, c⟩ : Edge) ∈ buildNetwork g metaOf ↔
      ∃ n ∈ g, n.name = a ∧ a ∉ tangentClosure g ∧ c = nodeWeight metaOf n := by
  rw [buildNetwork_mem]
  constructor
  · rintro ⟨n, hn, hne⟩
    by_cases hcl : n.name ∈ tangentClosure g
    · rw [netStep_closure_edges hcl] at hne
      simp at hne
    · rw [netStep_nonclosure_edges hcl] at hne
      rcases List.mem_append.1 hne with hne | hne
      · rcases List.mem_append.1 hne with hne | hne
        · rcases List.mem_append.1 hne with hne | hne
          · split at hne <;> simp_all
          · split at hne <;> simp_all
        · simp only [List.mem_singleton, Edge.mk.injEq] at hne
          obtain ⟨h1, _, h3⟩ := hne
          have ha : n.name = a := by
            cases h1
            rfl
          exact ⟨n, hn, ha, ha ▸ hcl, h3⟩
      · rcases List.mem_map.1 hne with ⟨u, _, hu⟩
        cases hu
    -- (unreachable fallthrough handled above)
  · rintro ⟨n, hn, rfl, hcl, rfl⟩
    refine ⟨n, hn, ?_⟩
    rw [netStep_nonclosure_edges hcl]
    refine List.mem_append_left _ (List.mem_append_right _ ?_)
    simp

theorem foldl_pushName_mem :
    ∀ {l acc : List String} {x : String},
      x ∈ l.foldl pushName acc ↔ x ∈ acc ∨ x ∈ l
  | [], acc, x => by simp
  | a :: l, acc, x => by
    rw [List.foldl_cons, foldl_pushName_mem]
    rw [pushName_mem]
    constructor
    · rintro ((h | rfl) | h)
      · exact Or.inl h
      · exact Or.inr (List.mem_cons_self ..)
      · exact Or.inr (List.mem_cons_of_mem _ h)
    · rintro (h | h)
      · exact Or.inl (Or.inl h)
      · rcases List.mem_cons.1 h with rfl | h
        · exact Or.inl (Or.inr rfl)
        · exact Or.inr h

theorem decodeEdge_some {e : Edge} {s : String} (h : decodeEdge e = some s) :
    e.u = .vin s ∧ e.v = .vout s := by
  unfold decodeEdge at h
  rcases e with ⟨u, v, c⟩
  cases u <;> cases v <;> simp_all

theorem decodeCut_mem {net : List Edge} {reach : List NetV} {saved : List String}
    (h : decodeCut net reach = some saved) :
    ∀ s ∈ saved, ∃ c, (⟨.vin s, .vout s, c⟩ : Edge) ∈ net := by
  intro s hs
  simp only [decodeCut] at h
  split at h
  · next hall =>
    have hmem : s ∈ (cutsetOf net reach).filterMap decodeEdge := by
      have h3 := Option.some.inj h
      rw [← h3] at hs
      rcases foldl_pushName_mem.1 hs with h2 | h2
      · cases h2
      · exact h2
    rcases List.mem_filterMap.1 hmem with ⟨e, he, hde⟩
    obtain ⟨hu, hv⟩ := decodeEdge_some hde
    refine ⟨e.c, ?_⟩
    have : e ∈ net := List.mem_of_mem_filter he
    rcases e with ⟨u, v, c⟩
    cases hu
    cases hv
    exact this
  · cases h

/-- **C3 counterexample.**  In `exMCJoint` with a 4-byte size oracle, the
`call_function` tensor node `c` is outside the tangent closure, yet its
"in"→"out" edge has capacity 8 = 2·nbytes, not the claimed nbytes = 4. -/
theorem claim3_counterexample :
    (⟨NetV.vin "c", NetV.vout "c", Cap.fin 8⟩ : Edge) ∈ buildNetwork exMCJoint exMCMeta ∧
    (⟨NetV.vin "c", NetV.vout "c", Cap.fin 4⟩ : Edge) ∉ buildNetwork exMCJoint exMCMeta ∧
    (exMCMeta "c").tensorType = true ∧
    (exMCMeta "c").nbytes = 4 ∧
    ¬ "c" ∈ tangentClosure exMCJoint := by
  decide

/-- **C3 (amended).**  In the flow network of the min-cut partitioner, for
every dataflow node outside the tangent closure, the capacity of its
"in"→"out" edge is infinite when the node's declared type is not
tensor-like; otherwise it equals the byte size reported by the size oracle
for placeholder nodes, and twice that byte size for all other nodes (in
particular, a tensor node of zero byte size still gets capacity 0). -/
theorem claim3_capacity_amended {g : List Node} {metaOf : String → MetaInfo}
    {n : Node} (hnd : (g.map Node.name).Nodup) (hn : n ∈ g)
    (hcl : n.name ∉ tangentClosure g) :
    (⟨.vin n.name, .vout n.name,
        if !(metaOf n.name).tensorType then Cap.inf
        else if n.op == .placeholder then Cap.fin (metaOf n.name).nbytes
        else Cap.fin ((metaOf n.name).nbytes * 2)⟩ : Edge) ∈ buildNetwork g metaOf ∧
    (∀ c : Cap, (⟨.vin n.name, .vout n.name, c⟩ : Edge) ∈ buildNetwork g metaOf →
      c = if !(metaOf n.name).tensorType then Cap.inf
        else if n.op == .placeholder then Cap.fin (metaOf n.name).nbytes
        else Cap.fin ((metaOf n.name).nbytes * 2)) := by
  have hw : (if !(metaOf n.name).tensorType then Cap.inf
      else if n.op == .placeholder then Cap.fin (metaOf n.name).nbytes
      else Cap.fin ((metaOf n.name).nbytes * 2)) = nodeWeight metaOf n := rfl
  rw [hw]
  constructor
  · exact inout_edge_iff.2 ⟨n, hn, rfl, hcl, rfl⟩
  · intro c hc
    obtain ⟨m, hm, hma, -, rfl⟩ := inout_edge_iff.1 hc
    have : m = n := List.inj_on_of_nodup_map hnd hm hn hma
    rw [this]

/-- Witness for the amended C3: the node `c` of `exMCJoint`. -/
theorem claim3_witness :
    (⟨NetV.vin "c", NetV.vout "c",
        if !(exMCMeta "c").tensorType then Cap.inf
        else if (⟨"c", .call_function, "g", [.node "primals_1"]⟩ : Node).op == .placeholder
          then Cap.fin (exMCMeta "c").nbytes
        else Cap.fin ((exMCMeta "c").nbytes * 2)⟩ : Edge) ∈ buildNetwork exMCJoint exMCMeta ∧
    (∀ c : Cap, (⟨NetV.vin "c", NetV.vout "c", c⟩ : Edge) ∈ buildNetwork exMCJoint exMCMeta →
      c = if !(exMCMeta "c").tensorType then Cap.inf
        else if (⟨"c", .call_function, "g", [.node "primals_1"]⟩ : Node).op == .placeholder
          then Cap.fin (exMCMeta "c").nbytes
        else Cap.fin ((exMCMeta "c").nbytes * 2)) :=
  @claim3_capacity_amended exMCJoint exMCMeta
    ⟨"c", .call_function, "g", [.node "primals_1"]⟩
    (by decide) (by decide) (by decide)

/-- **C10.**  In the min-cut partitioner, every node of the tangent closure
receives an infinite-capacity edge to the sink and no "in"→"out" edge at
all (its network-construction iteration adds nothing else), so for any
solver-returned reachable set, every decoded saved value lies outside the
tangent closure: the decoded saved-value set is disjoint from the closure. -/
theorem claim10_closure_disjoint {g : List Node} {metaOf : String → MetaInfo} :
    (∀ n ∈ g, n.name ∈ tangentClosure g →
      (⟨.vin n.name, .sink, .inf⟩ : Edge) ∈ buildNetwork g metaOf ∧
      netStep g metaOf (tangentClosure g) [] n = [⟨.vin n.name, .sink, .inf⟩] ∧
      ∀ c : Cap, (⟨.vin n.name, .vout n.name, c⟩ : Edge) ∉ buildNetwork g metaOf) ∧
    (∀ (reach : List NetV) (saved : List String),
      decodeCut (buildNetwork g metaOf) reach = some saved →
      ∀ s ∈ saved, s ∉ tangentClosure g) := by
  constructor
  · intro n hn hcl
    refine ⟨?_, netStep_closure_edges hcl, ?_⟩
    · refine buildNetwork_mem.2 ⟨n, hn, ?_⟩
      rw [netStep_closure_edges hcl]
      simp
    · intro c hc
      obtain ⟨m, hm, hma, hmcl, -⟩ := inout_edge_iff.1 hc
      exact hmcl (hma ▸ hcl)
  · intro reach saved hdec s hs
    intro hscl
    obtain ⟨c, hc⟩ := decodeCut_mem hdec s hs
    obtain ⟨m, hm, hma, hmcl, -⟩ := inout_edge_iff.1 hc
    exact hmcl (hma ▸ hscl)

/-- Witness for C10: the closure node `mul` of `exMCJoint` and the concrete
cut decoded from `exMCReach`. -/
theorem claim10_witness :
    ((⟨NetV.vin "mul", NetV.sink, Cap.inf⟩ : Edge) ∈ buildNetwork exMCJoint exMCMeta ∧
      netStep exMCJoint exMCMeta (tangentClosure exMCJoint) []
          ⟨"mul", .call_function, "f", [.node "primals_1", .node "tangents_1"]⟩ =
        [⟨NetV.vin "mul", NetV.sink, Cap.inf⟩] ∧
      ∀ c : Cap, (⟨NetV.vin "mul", NetV.vout "mul", c⟩ : Edge) ∉
        buildNetwork exMCJoint exMCMeta) ∧
    (∀ s ∈ ["primals_1"], s ∉ tangentClosure exMCJoint) :=
  ⟨(@claim10_closure_disjoint exMCJoint exMCMeta).1
      ⟨"mul", .call_function, "f", [.node "primals_1", .node "tangents_1"]⟩
      (by decide) (by decide),
   (@claim10_closure_disjoint exMCJoint exMCMeta).2 exMCReach ["primals_1"] (by decide)⟩

/-! ## The default-partitioner pipeline (C7) -/

theorem mapM_remapArg_eq {dom : List String} :
    ∀ {args : List Arg} {res : List String},
      args.mapM (remapArg dom) = some res →
        args = res.map Arg.node ∧ ∀ s ∈ res, s ∈ dom
  | [], res, h => by
    rw [List.mapM_nil] at h
    simp only [Option.pure_def, Option.some.injEq] at h
    subst h
    exact ⟨rfl, by simp⟩
  | a :: args, res, h => by
    rw [List.mapM_cons] at h
    cases ha : remapArg dom a with
    | none => rw [ha] at h; simp at h
    | some s =>
      rw [ha] at h
      cases hr : args.mapM (remapArg dom) with
      | none => rw [hr] at h; simp at h
      | some rs =>
        rw [hr] at h
        simp only [Option.pure_def, Option.bind_eq_bind, Option.some_bind,
          Option.some.injEq] at h
        subst h
        obtain ⟨h1, h2⟩ := mapM_remapArg_eq hr
        have ha2 : a = Arg.node s ∧ s ∈ dom := by
          cases a with
          | node s0 =>
            simp only [remapArg] at ha
            by_cases hmem : s0 ∈ dom
            · rw [if_pos hmem] at ha
              obtain rfl := Option.some.inj ha
              exact ⟨rfl, hmem⟩
            · rw [if_neg hmem] at ha
              cases ha
          | const v =>
            simp only [remapArg] at ha
            cases ha
        refine ⟨?_, ?_⟩
        · rw [List.map_cons, ← h1, ha2.1]
        · intro x hx
          rcases List.mem_cons.1 hx with rfl | hx
          · exact ha2.2
          · exact h2 x hx

theorem mapM_guard_eq {dom : List String} :
    ∀ {names res : List String},
      names.mapM (fun s => if s ∈ dom then some s else none) = some res →
        res = names ∧ ∀ s ∈ names, s ∈ dom
  | [], res, h => by
    rw [List.mapM_nil] at h
    simp only [Option.pure_def, Option.some.injEq] at h
    subst h
    exact ⟨rfl, by simp⟩
  | a :: names, res, h => by
    rw [List.mapM_cons] at h
    by_cases ha : a ∈ dom
    · rw [if_pos ha] at h
      cases hr : names.mapM (fun s => if s ∈ dom then some s else none) with
      | none => rw [hr] at h; simp at h
      | some rs =>
        rw [hr] at h
        simp only [Option.pure_def, Option.bind_eq_bind, Option.some_bind,
          Option.some.injEq] at h
        subst h
        obtain ⟨h1, h2⟩ := mapM_guard_eq hr
        refine ⟨by rw [h1], ?_⟩
        intro x hx
        rcases List.mem_cons.1 hx with rfl | hx
        · exact ha
        · exact h2 x hx
    · rw [if_neg ha] at h
      simp at h

theorem foldl_copy_body_src {keep : Node → Bool} {x : Node} :
    ∀ {l : List Node} {st : CopySt},
      x ∈ (l.foldl (nodeCopyStep keep) st).body →
        x ∈ st.body ∨ (x ∈ l ∧ keep x = true)
  | [], _, h => Or.inl h
  | m :: l, st, h => by
    rw [List.foldl_cons] at h
    rcases foldl_copy_body_src (l := l) h with h | ⟨h1, h2⟩
    · unfold nodeCopyStep at h
      split at h
      · exact Or.inl h
      · split at h
        · next hkeep =>
          split at h
          · rcases List.mem_append.1 h with h | h
            · exact Or.inl h
            · have hx := List.mem_singleton.1 h
              subst hx
              exact Or.inr ⟨List.mem_cons_self .., hkeep⟩
          · exact Or.inl h
        · exact Or.inl h
    · exact Or.inr ⟨List.mem_cons_of_mem _ h1, h2⟩

/-- Unfolding of a successful `default_partition` run into its pieces. -/
theorem default_partition_some {g fw bw : List Node} {kF kB : Nat}
    (h : default_partition g kF kB = some (fw, bw)) :
    ∃ (o : Node) (bwdOuts fwSlice savedOuts : List String),
      findOutput g = some o ∧
      (bwCopy g (classifyDefault g) (bwOutNamesOf o kF)).err = false ∧
      (o.args.drop kF).mapM
        (remapArg (bwCopy g (classifyDefault g) (bwOutNamesOf o kF)).dom) = some bwdOuts ∧
      kF + kB = o.args.length ∧
      bw = (classifyDefault g).saved.map mkPlaceholder ++
        (bwCopy g (classifyDefault g) (bwOutNamesOf o kF)).body ++ [mkOutput bwdOuts] ∧
      (fwCopy g (classifyDefault g)).err = false ∧
      (o.args.take kF).mapM (remapArg (fwCopy g (classifyDefault g)).dom) = some fwSlice ∧
      (classifyDefault g).saved.mapM
        (fun s => if s ∈ (fwCopy g (classifyDefault g)).dom then some s else none) =
          some savedOuts ∧
      fw = (fwCopy g (classifyDefault g)).body ++ [mkOutput (fwSlice ++ savedOuts)] := by
  unfold default_partition at h
  cases hfo : findOutput g with
  | none =>
    rw [hfo] at h
    cases h
  | some o =>
    rw [hfo] at h
    simp only [Option.bind_eq_bind, Option.some_bind] at h
    split at h
    · cases h
    · next herr =>
      cases hbo : (o.args.drop kF).mapM
          (remapArg (bwCopy g (classifyDefault g) (bwOutNamesOf o kF)).dom) with
      | none =>
        rw [hbo] at h
        cases h
      | some bwdOuts =>
        rw [hbo] at h
        simp only [Option.some_bind] at h
        split at h
        · cases h
        · next harity =>
          split at h
          · cases h
          · next herr2 =>
            cases hfs : (o.args.take kF).mapM
                (remapArg (fwCopy g (classifyDefault g)).dom) with
            | none =>
              rw [hfs] at h
              cases h
            | some fwSlice =>
              rw [hfs] at h
              simp only [Option.some_bind] at h
              cases hso : (classifyDefault g).saved.mapM
                  (fun s => if s ∈ (fwCopy g (classifyDefault g)).dom
                    then some s else none) with
              | none =>
                rw [hso] at h
                cases h
              | some savedOuts =>
                rw [hso] at h
                simp only [Option.some_bind, Option.pure_def, Option.some.injEq,
                  Prod.mk.injEq] at h
                obtain ⟨h1, h2⟩ := h
                exact ⟨o, bwdOuts, fwSlice, savedOuts, rfl, by simpa using herr, hbo,
                  not_not.1 harity, h2.symm, by simpa using herr2, hfs, rfl, h1.symm⟩

/-- **C7.**  For every joint graph on which the simple/default partitioner
succeeds, the forward graph outputs exactly
`numForwardOutputs + |savedValues|` values: the forward slice of the joint
graph's output list first, followed by the saved values in the
classification iteration order (modelled as first-insertion order, the one
stable order fixed within a call); the same saved-value order is the
backward graph's placeholder order, so the orchestrator can thread them
positionally. -/
theorem claim7_forward_outputs {g fw bw : List Node} {kF kB : Nat}
    (h : default_partition g kF kB = some (fw, bw)) :
    ∃ (o : Node) (fwNames : List String),
      findOutput g = some o ∧
      o.args.take kF = fwNames.map Arg.node ∧
      fwNames.length = kF ∧
      findOutput fw = some (mkOutput (fwNames ++ (classifyDefault g).saved)) ∧
      (mkOutput (fwNames ++ (classifyDefault g).saved)).args.length =
        kF + (classifyDefault g).saved.length ∧
      (∃ bwRest, bw = (classifyDefault g).saved.map mkPlaceholder ++ bwRest) := by
  obtain ⟨o, bwdOuts, fwSlice, savedOuts, hfo, herr, hbo, harity, hbw, herr2, hfs, hso, hfw⟩ :=
    default_partition_some h
  obtain ⟨hargs, -⟩ := mapM_remapArg_eq hfs
  obtain ⟨hsv, -⟩ := mapM_guard_eq hso
  subst hsv
  have hlen : fwSlice.length = kF := by
    have h1 : (o.args.take kF).length = kF := by
      rw [List.length_take, ← harity]
      exact Nat.min_eq_left (Nat.le_add_right _ _)
    rw [hargs, List.length_map] at h1
    exact h1
  refine ⟨o, fwSlice, hfo, hargs, hlen, ?_, ?_, ?_⟩
  · rw [hfw]
    unfold findOutput
    rw [find_skip_none, List.find?_cons_of_pos _ (by rfl)]
    intro x hx
    rcases foldl_copy_body_src hx with hx | ⟨-, hkeep⟩
    · cases hx
    · rw [Bool.and_eq_true] at hkeep
      have h2 := hkeep.2
      cases hop : x.op <;> simp_all
  · simp [mkOutput, hlen]
  · exact ⟨_, by rw [hbw, List.append_assoc]⟩

/-- Witness for C7: `default_partition` on `exJoint` with one forward and
one backward output. -/
theorem claim7_witness :
    ∃ (o : Node) (fwNames : List String),
      findOutput exJoint = some o ∧
      o.args.take 1 = fwNames.map Arg.node ∧
      fwNames.length = 1 ∧
      findOutput [⟨"primals_1", .placeholder, "primals_1", []⟩, exNodeU,
          mkOutput ["u", "u"]] =
        some (mkOutput (fwNames ++ (classifyDefault exJoint).saved)) ∧
      (mkOutput (fwNames ++ (classifyDefault exJoint).saved)).args.length =
        1 + (classifyDefault exJoint).saved.length ∧
      (∃ bwRest,
        [mkPlaceholder "u", mkPlaceholder "tangents_1",
         ⟨"v", .call_function, "g", [.node "tangents_1", .node "u"]⟩,
         ⟨"w", .call_function, "h", [.node "u"]⟩,
         mkOutput ["v"]] =
          (classifyDefault exJoint).saved.map mkPlaceholder ++ bwRest) :=
  @claim7_forward_outputs exJoint
    [⟨"primals_1", .placeholder, "primals_1", []⟩, exNodeU, mkOutput ["u", "u"]]
    [mkPlaceholder "u", mkPlaceholder "tangents_1",
     ⟨"v", .call_function, "g", [.node "tangents_1", .node "u"]⟩,
     ⟨"w", .call_function, "h", [.node "u"]⟩,
     mkOutput ["v"]]
    1 1 (by decide)

/-! ## Reference discipline (`refsOkAux`) and idempotence of extraction (C8) -/

theorem refsOkAux_mono : ∀ {l : List Node} {s1 s2 : List String},
    (∀ a ∈ s1, a ∈ s2) → refsOkAux s1 l = true → refsOkAux s2 l = true
  | [], _, _, _, _ => rfl
  | n :: l, s1, s2, hsub, h => by
    rw [refsOkAux, Bool.and_eq_true] at h ⊢
    obtain ⟨h1, h2⟩ := h
    constructor
    · refine List.all_eq_true.2 ?_
      intro a ha
      have := List.all_eq_true.1 h1 a ha
      simp only [decide_eq_true_eq] at this ⊢
      exact hsub a this
    · refine refsOkAux_mono ?_ h2
      intro a ha
      rcases List.mem_append.1 ha with ha | ha
      · exact List.mem_append_left _ (hsub a ha)
      · exact List.mem_append_right _ ha

theorem refsOk_snoc {seen : List String} :
    ∀ {l : List Node} {x : Node},
      refsOkAux seen (l ++ [x]) = true ↔
        (refsOkAux seen l = true ∧ ∀ a ∈ nodeArgNames x, a ∈ seen ++ l.map Node.name)
  | [], x => by
    rw [List.nil_append, refsOkAux, refsOkAux, refsOkAux, Bool.and_eq_true]
    simp
  | n :: l, x => by
    rw [List.cons_append, refsOkAux, refsOkAux, Bool.and_eq_true, Bool.and_eq_true,
      refsOk_snoc]
    constructor
    · rintro ⟨h1, h2, h3⟩
      refine ⟨⟨h1, h2⟩, ?_⟩
      intro a ha
      have := h3 a ha
      simpa [List.append_assoc] using this
    · rintro ⟨⟨h1, h2⟩, h3⟩
      refine ⟨h1, h2, ?_⟩
      intro a ha
      have := h3 a ha
      simpa [List.append_assoc] using this

theorem refsOk_ph_front : ∀ (ins0 : List String) {seen : List String} {rest : List Node},
    refsOkAux seen (ins0.map mkPlaceholder ++ rest) = refsOkAux (seen ++ ins0) rest
  | [], seen, rest => by simp
  | s :: ins0, seen, rest => by
    rw [List.map_cons, List.cons_append, refsOkAux]
    have h1 : (nodeArgNames (mkPlaceholder s)).all (fun a => decide (a ∈ seen)) = true := rfl
    rw [h1, Bool.true_and]
    rw [refsOk_ph_front ins0]
    simp [List.append_assoc, mkPlaceholder]

theorem refsOk_drop {b : String} : ∀ {l : List Node} {seen : List String},
    refsOkAux (seen ++ [b]) l = true → (∀ x ∈ l, b ∉ nodeArgNames x) →
    refsOkAux seen l = true
  | [], _, _, _ => rfl
  | n :: l, seen, h, hb => by
    rw [refsOkAux, Bool.and_eq_true] at h ⊢
    obtain ⟨h1, h2⟩ := h
    constructor
    · refine List.all_eq_true.2 ?_
      intro a ha
      have h3 := List.all_eq_true.1 h1 a ha
      simp only [decide_eq_true_eq] at h3 ⊢
      rcases List.mem_append.1 h3 with h3 | h3
      · exact h3
      · exfalso
        have : a = b := List.mem_singleton.1 h3
        exact hb n (List.mem_cons_self ..) (this ▸ ha)
    · have h4 : refsOkAux ((seen ++ [n.name]) ++ [b]) l = true := by
        refine refsOkAux_mono ?_ h2
        intro a ha
        simp only [List.mem_append, List.mem_singleton] at ha ⊢
        tauto
      exact refsOk_drop h4 (fun x hx => hb x (List.mem_cons_of_mem _ hx))

theorem dce_refsOk : ∀ {g : List Node} {seen : List String},
    refsOkAux seen g = true → refsOkAux seen (dceAux g).1 = true
  | [], _, _ => rfl
  | n :: g, seen, h => by
    rw [refsOkAux, Bool.and_eq_true] at h
    obtain ⟨h1, h2⟩ := h
    rw [dceAux_cons, dceStep]
    split
    · rw [refsOkAux, Bool.and_eq_true]
      exact ⟨h1, dce_refsOk h2⟩
    · next hdrop =>
      have h4 : refsOkAux (seen ++ [n.name]) (dceAux g).1 = true := dce_refsOk h2
      refine refsOk_drop h4 ?_
      intro x hx hmem
      refine hdrop ?_
      simp only [Bool.or_eq_true, decide_eq_true_eq]
      exact Or.inr (dce_used_of_kept hx hmem)

theorem ext_body_refsOk {ins : List String} :
    ∀ {l : List Node} {st : ExtSt},
      refsOkAux ins st.body = true →
      (∀ a ∈ st.valid, a ∈ ins ++ st.body.map Node.name) →
      refsOkAux ins (l.foldl (extStep ins) st).body = true ∧
        ∀ a ∈ (l.foldl (extStep ins) st).valid,
          a ∈ ins ++ ((l.foldl (extStep ins) st).body.map Node.name)
  | [], _, h1, h2 => ⟨h1, h2⟩
  | n :: l, st, h1, h2 => by
    rw [List.foldl_cons]
    have hcase : refsOkAux ins (extStep ins st n).body = true ∧
        ∀ a ∈ (extStep ins st n).valid,
          a ∈ ins ++ ((extStep ins st n).body.map Node.name) := by
      unfold extStep
      split
      · exact ⟨h1, h2⟩
      · split
        · next hin =>
          rw [decide_eq_true_eq] at hin
          refine ⟨h1, ?_⟩
          intro a ha
          rcases List.mem_cons.1 ha with rfl | ha
          · exact List.mem_append_left _ hin
          · exact h2 a ha
        · split
          · exact ⟨h1, h2⟩
          · split
            · next hargs =>
              refine ⟨?_, ?_⟩
              · rw [refsOk_snoc]
                refine ⟨h1, ?_⟩
                intro a ha
                have h3 := List.all_eq_true.1 hargs a ha
                simp only [decide_eq_true_eq] at h3
                exact h2 a h3
              · intro a ha
                rcases List.mem_cons.1 ha with rfl | ha
                · refine List.mem_append_right _ ?_
                  simp
                · have h4 := h2 a ha
                  simp only [List.mem_append] at h4 ⊢
                  rcases h4 with h4 | h4
                  · exact Or.inl h4
                  · exact Or.inr (by simp [h4])
            · exact ⟨h1, h2⟩
          · split
            · next hargs =>
              refine ⟨?_, ?_⟩
              · rw [refsOk_snoc]
                refine ⟨h1, ?_⟩
                intro a ha
                have h3 := List.all_eq_true.1 hargs a ha
                simp only [decide_eq_true_eq] at h3
                exact h2 a h3
              · intro a ha
                rcases List.mem_cons.1 ha with rfl | ha
                · refine List.mem_append_right _ ?_
                  simp
                · have h4 := h2 a ha
                  simp only [List.mem_append] at h4 ⊢
                  rcases h4 with h4 | h4
                  · exact Or.inl h4
                  · exact Or.inr (by simp [h4])
            · exact ⟨h1, h2⟩
          · exact ⟨h1, h2⟩
    exact ext_body_refsOk hcase.1 hcase.2

/-- The replayed body of a successful extraction respects reference
discipline with the input names in scope, and every valid name is an input
or a body-node name. -/
theorem pre_refsOk {src : List Node} {ins outs : List String}
    (hvalid : ∀ a ∈ outs, a ∈ (extractEnv src ins).valid) :
    refsOkAux []
      (ins.map mkPlaceholder ++ ((extractEnv src ins).body ++ [mkOutput outs])) = true := by
  obtain ⟨h1, h2⟩ := @ext_body_refsOk ins src ⟨[], [], false⟩
    rfl (by intro a ha; cases ha)
  rw [refsOk_ph_front ins, List.nil_append, refsOk_snoc]
  refine ⟨h1, ?_⟩
  intro a ha
  have ha2 : a ∈ outs := by
    have h3 : nodeArgNames (mkOutput outs) = outs := by
      simp only [nodeArgNames, mkOutput, List.filterMap_map]
      exact List.filterMap_some ..
    rw [h3] at ha
    exact ha
  exact h2 a (hvalid a ha2)

/-- Processing the placeholder prefix of a self-extraction. -/
theorem ext_ph_run {ins : List String} :
    ∀ {l : List String} {st : ExtSt}, st.err = false → (∀ s ∈ l, s ∈ ins) →
      (l.map mkPlaceholder).foldl (extStep ins) st =
        ⟨l.reverse ++ st.valid, st.body, false⟩
  | [], st, h1, _ => by
    cases st
    simp_all
  | s :: l, st, h1, h2 => by
    rw [List.map_cons, List.foldl_cons]
    have hstep : extStep ins st (mkPlaceholder s) = ⟨s :: st.valid, st.body, false⟩ := by
      unfold extStep
      rw [if_neg (by simp [h1]),
        if_pos (by simpa [mkPlaceholder] using h2 s (List.mem_cons_self ..))]
      cases st
      simp_all [mkPlaceholder]
    rw [hstep, ext_ph_run rfl (fun x hx => h2 x (List.mem_cons_of_mem _ hx))]
    simp

/-- Processing a self-contained body: every node is replayed. -/
theorem ext_body_run {ins : List String} :
    ∀ {B : List Node} {seen : List String} {st : ExtSt},
      st.err = false →
      refsOkAux seen B = true →
      (∀ a ∈ seen, a ∈ st.valid) →
      (∀ x ∈ B, (x.op = .call_function ∨ x.op = .get_attr) ∧ x.name ∉ ins) →
      ∃ v, B.foldl (extStep ins) st = ⟨v, st.body ++ B, false⟩ ∧
        ∀ a ∈ seen ++ B.map Node.name, a ∈ v
  | [], seen, st, h1, _, h3, _ => by
    refine ⟨st.valid, ?_, by simpa using h3⟩
    cases st
    simp_all
  | x :: B, seen, st, h1, h2, h3, h4 => by
    rw [refsOkAux, Bool.and_eq_true] at h2
    obtain ⟨h2a, h2b⟩ := h2
    obtain ⟨hop, hnin⟩ := h4 x (List.mem_cons_self ..)
    have hargs : (nodeArgNames x).all (fun a => decide (a ∈ st.valid)) = true := by
      refine List.all_eq_true.2 ?_
      intro a ha
      have h5 := List.all_eq_true.1 h2a a ha
      simp only [decide_eq_true_eq] at h5 ⊢
      exact h3 a h5
    have hstep : extStep ins st x =
        ⟨x.name :: st.valid, st.body ++ [x], false⟩ := by
      unfold extStep
      rw [if_neg (by simp [h1]), if_neg (by simpa using hnin)]
      rcases hop with hop | hop <;>
        · rw [hop]
          rw [if_pos hargs]
          cases st
          simp_all
    rw [List.foldl_cons, hstep]
    obtain ⟨v, hv1, hv2⟩ := @ext_body_run ins B (seen ++ [x.name])
      ⟨x.name :: st.valid, st.body ++ [x], false⟩
      rfl h2b
      (by
        intro a ha
        rcases List.mem_append.1 ha with ha | ha
        · exact List.mem_cons_of_mem _ (h3 a ha)
        · rw [List.mem_singleton.1 ha]
          exact List.mem_cons_self ..)
      (fun y hy => h4 y (List.mem_cons_of_mem _ hy))
    refine ⟨v, by rw [hv1]; simp, ?_⟩
    intro a ha
    refine hv2 a ?_
    simp only [List.map_cons, List.mem_append, List.mem_cons, List.mem_singleton] at ha ⊢
    tauto

/-- The final `output` node leaves the environment unchanged. -/
theorem ext_out_step {ins : List String} {st : ExtSt} (h1 : st.err = false)
    (h2 : "output" ∉ ins) (outs : List String) :
    extStep ins st (mkOutput outs) = st := by
  unfold extStep
  rw [if_neg (by simp [h1]), if_neg (by simpa [mkOutput] using h2)]
  rfl

/-- On success, the extracted graph's output node is `mkOutput outs`. -/
theorem extract_findOutput {src G : List Node} {ins outs : List String}
    (h : _extract_graph_with_inputs_outputs src ins outs = some G) :
    findOutput G = some (mkOutput outs) := by
  obtain ⟨kb, hGeq, hkb, -⟩ := extract_structure h
  rw [hGeq]
  unfold findOutput
  rw [find_skip_none, List.find?_cons_of_pos _ (by rfl)]
  intro x hx
  rcases List.mem_append.1 hx with hx | hx
  · rcases List.mem_map.1 hx with ⟨s, _, rfl⟩
    rfl
  · have hsh := extractEnv_body_shape (hkb.subset hx)
    rcases hsh.2.2 with h2 | h2 <;> simp [h2]

/-- On success, the extracted graph's placeholders are the inputs in order. -/
theorem extract_placeholders {src G : List Node} {ins outs : List String}
    (h : _extract_graph_with_inputs_outputs src ins outs = some G) :
    G.filter (fun n => n.op == Op.placeholder) = ins.map mkPlaceholder := by
  obtain ⟨kb, hGeq, hkb, -⟩ := extract_structure h
  rw [hGeq, List.filter_append, List.filter_append]
  have h1 : (ins.map mkPlaceholder).filter (fun n => n.op == Op.placeholder) =
      ins.map mkPlaceholder := by
    refine List.filter_eq_self.2 ?_
    intro x hx
    rcases List.mem_map.1 hx with ⟨s, _, rfl⟩
    rfl
  have h2 : kb.filter (fun n => n.op == Op.placeholder) = [] := by
    refine List.filter_eq_nil_iff.2 ?_
    intro x hx
    have hsh := extractEnv_body_shape (hkb.subset hx)
    rcases hsh.2.2 with hop | hop <;> simp [hop]
  rw [h1, h2]
  simp [mkOutput]

/-- **C8.**  Sub-graph extraction is idempotent: re-extracting a graph the
extractor produced, using its own placeholder list as inputs and its own
output list as outputs, returns the very same graph (which is in particular
isomorphic: same node count, same operations, same argument wiring; in this
embedding replayed nodes keep their source names, so the isomorphism is an
equality). -/
theorem claim8_idempotent {src G : List Node} {ins outs : List String}
    (hnout : "output" ∉ ins)
    (h : _extract_graph_with_inputs_outputs src ins outs = some G) :
    placeholderNames G = ins ∧
    outputNamesOf G = outs ∧
    _extract_graph_with_inputs_outputs G (placeholderNames G) (outputNamesOf G) = some G := by
  obtain ⟨herr, hvalid, hGdce⟩ := extract_eq_some h
  obtain ⟨kb, hGeq, hkb, -⟩ := extract_structure h
  have hph : placeholderNames G = ins := by
    unfold placeholderNames
    rw [extract_placeholders h, List.map_map]
    have h2 : Node.name ∘ mkPlaceholder = id := rfl
    rw [h2, List.map_id]
  have hout : outputNamesOf G = outs := by
    unfold outputNamesOf
    rw [extract_findOutput h]
    simp only [mkOutput, List.filterMap_map]
    exact List.filterMap_some ..
  refine ⟨hph, hout, ?_⟩
  rw [hph, hout]
  -- the pre-DCE graph of the original extraction
  have hpre : G = (dceAux (ins.map mkPlaceholder ++
      ((extractEnv src ins).body ++ [mkOutput outs]))).1 := by
    rw [hGdce, List.append_assoc]
  -- reference discipline of G
  have hrefs : refsOkAux [] G = true := by
    rw [hpre]
    exact dce_refsOk (pre_refsOk hvalid)
  -- shape facts about the kept body
  have hkbshape : ∀ x ∈ kb, (x.op = .call_function ∨ x.op = .get_attr) ∧ x.name ∉ ins := by
    intro x hx
    have hsh := extractEnv_body_shape (hkb.subset hx)
    exact ⟨hsh.2.2, hsh.2.1⟩
  -- the walk over G replays it exactly
  have hrefs2 : refsOkAux ins (kb ++ [mkOutput outs]) = true := by
    have := hrefs
    rw [hGeq, List.append_assoc, refsOk_ph_front ins, List.nil_append] at this
    exact this
  have hrefskb : refsOkAux ins kb = true := (refsOk_snoc.1 hrefs2).1
  have houtargs : ∀ a ∈ nodeArgNames (mkOutput outs), a ∈ ins ++ kb.map Node.name :=
    (refsOk_snoc.1 hrefs2).2
  have hphrun := @ext_ph_run ins ins ⟨[], [], false⟩ rfl
    (fun s hs => hs)
  obtain ⟨v, hbodyrun, hvmem⟩ := @ext_body_run ins kb ins
    ⟨ins.reverse ++ [], [], false⟩ rfl hrefskb
    (by
      intro a ha
      simp only [List.append_nil, List.mem_reverse]
      exact ha)
    hkbshape
  have henv : extractEnv G ins = ⟨v, kb, false⟩ := by
    unfold extractEnv
    rw [hGeq, List.append_assoc, List.foldl_append, hphrun, List.foldl_append, hbodyrun]
    rw [List.foldl_cons, List.foldl_nil]
    rw [ext_out_step rfl hnout]
    simp
  have houts : ∀ a ∈ outs, a ∈ v := by
    intro a ha
    refine hvmem a ?_
    refine houtargs a ?_
    have h3 : nodeArgNames (mkOutput outs) = outs := by
      simp only [nodeArgNames, mkOutput, List.filterMap_map]
      exact List.filterMap_some ..
    rw [h3]
    exact ha
  simp only [_extract_graph_with_inputs_outputs]
  rw [henv]
  dsimp only
  rw [if_pos (List.all_eq_true.2 (fun a ha => by simpa using houts a ha))]
  refine congrArg some ?_
  rw [← hGeq]
  unfold eliminate_dead_code
  rw [hpre, dceAux_idem]

/-- Witness for C8: re-extracting the backward graph extracted from
`exJoint`, with its own placeholder and output lists, returns it
unchanged. -/
theorem claim8_witness :
    placeholderNames [mkPlaceholder "u", mkPlaceholder "tangents_1",
        ⟨"v", .call_function, "g", [.node "tangents_1", .node "u"]⟩, mkOutput ["v"]] =
      ["u", "tangents_1"] ∧
    outputNamesOf [mkPlaceholder "u", mkPlaceholder "tangents_1",
        ⟨"v", .call_function, "g", [.node "tangents_1", .node "u"]⟩, mkOutput ["v"]] =
      ["v"] ∧
    _extract_graph_with_inputs_outputs
        [mkPlaceholder "u", mkPlaceholder "tangents_1",
         ⟨"v", .call_function, "g", [.node "tangents_1", .node "u"]⟩, mkOutput ["v"]]
        (placeholderNames [mkPlaceholder "u", mkPlaceholder "tangents_1",
          ⟨"v", .call_function, "g", [.node "tangents_1", .node "u"]⟩, mkOutput ["v"]])
        (outputNamesOf [mkPlaceholder "u", mkPlaceholder "tangents_1",
          ⟨"v", .call_function, "g", [.node "tangents_1", .node "u"]⟩, mkOutput ["v"]]) =
      some [mkPlaceholder "u", mkPlaceholder "tangents_1",
        ⟨"v", .call_function, "g", [.node "tangents_1", .node "u"]⟩, mkOutput ["v"]] :=
  @claim8_idempotent exJoint
    [mkPlaceholder "u", mkPlaceholder "tangents_1",
     ⟨"v", .call_function, "g", [.node "tangents_1", .node "u"]⟩, mkOutput ["v"]]
    ["u", "tangents_1"] ["v"] (by decide) (by decide)

/-! ## The min-cut pipeline and the pruning pass (C4) -/

/-- Unfolding of a successful `minCutPipeline` run. -/
theorem minCutPipeline_some {g : List Node} {metaOf : String → MetaInfo}
    {numFwd : Nat} {reach : List NetV} {p : MCParts}
    (h : minCutPipeline g metaOf numFwd reach = some p) :
    ∃ (o : Node) (outNames : List String),
      findOutput g = some o ∧
      o.args.mapM (fun a => match a with
        | Arg.node s => some s | Arg.const _ => none) = some outNames ∧
      p.fwdOuts = outNames.take numFwd ∧
      p.bwdOuts = outNames.drop numFwd ∧
      p.primals = (g.filter (fun n => isPrimalPH n)).map Node.name ∧
      p.tangents = (g.filter (fun n => isTangentPH n)).map Node.name ∧
      decodeCut (buildNetwork g metaOf) reach = some p.saved ∧
      (∃ f1, _extract_graph_with_inputs_outputs g p.primals
        (p.fwdOuts ++ p.saved) = some f1) ∧
      _extract_graph_with_inputs_outputs g (p.saved ++ p.tangents) p.bwdOuts =
        some p.bwd1 ∧
      p.savedPruned = pruneSaved p.bwd1 p.saved ∧
      _extract_graph_with_inputs_outputs g p.primals
        (p.fwdOuts ++ p.savedPruned) = some p.fwd ∧
      _extract_graph_with_inputs_outputs g (p.savedPruned ++ p.tangents) p.bwdOuts =
        some p.bwd := by
  unfold minCutPipeline at h
  cases hfo : findOutput g with
  | none => rw [hfo] at h; cases h
  | some o =>
    rw [hfo] at h
    simp only [Option.bind_eq_bind, Option.some_bind] at h
    cases hon : o.args.mapM (fun a => match a with
        | Arg.node s => some s | Arg.const _ => none) with
    | none => rw [hon] at h; cases h
    | some outNames =>
      rw [hon] at h
      simp only [Option.some_bind] at h
      cases hdc : decodeCut (buildNetwork g metaOf) reach with
      | none => rw [hdc] at h; cases h
      | some saved =>
        rw [hdc] at h
        simp only [Option.some_bind] at h
        cases hf1 : _extract_graph_with_inputs_outputs g
            ((g.filter (fun n => isPrimalPH n)).map Node.name)
            (outNames.take numFwd ++ saved) with
        | none => rw [hf1] at h; cases h
        | some f1 =>
          rw [hf1] at h
          simp only [Option.some_bind] at h
          cases hb1 : _extract_graph_with_inputs_outputs g
              (saved ++ (g.filter (fun n => isTangentPH n)).map Node.name)
              (outNames.drop numFwd) with
          | none => rw [hb1] at h; cases h
          | some bwd1 =>
            rw [hb1] at h
            simp only [Option.some_bind] at h
            cases hf2 : _extract_graph_with_inputs_outputs g
                ((g.filter (fun n => isPrimalPH n)).map Node.name)
                (outNames.take numFwd ++ pruneSaved bwd1 saved) with
            | none => rw [hf2] at h; cases h
            | some fwd2 =>
              rw [hf2] at h
              simp only [Option.some_bind] at h
              cases hb2 : _extract_graph_with_inputs_outputs g
                  (pruneSaved bwd1 saved ++
                    (g.filter (fun n => isTangentPH n)).map Node.name)
                  (outNames.drop numFwd) with
              | none => rw [hb2] at h; cases h
              | some bwd2 =>
                rw [hb2] at h
                simp only [Option.some_bind, Option.pure_def, Option.some.injEq] at h
                subst h
                exact ⟨o, outNames, rfl, hon, rfl, rfl, rfl, rfl, rfl, ⟨f1, hf1⟩,
                  hb1, rfl, hf2, hb2⟩

theorem ext_body_sublist {ins : List String} :
    ∀ {l : List Node} {st : ExtSt},
      ∃ t, (l.foldl (extStep ins) st).body = st.body ++ t ∧ List.Sublist t l
  | [], st => ⟨[], by simp, List.nil_sublist _⟩
  | n :: l, st => by
    rw [List.foldl_cons]
    obtain ⟨t, ht1, ht2⟩ := @ext_body_sublist ins l (extStep ins st n)
    have hstep : (extStep ins st n).body = st.body ∨
        (extStep ins st n).body = st.body ++ [n] := by
      unfold extStep
      split
      · exact Or.inl rfl
      · split
        · exact Or.inl rfl
        · split
          · exact Or.inl rfl
          · split
            · exact Or.inr rfl
            · exact Or.inl rfl
          · split
            · exact Or.inr rfl
            · exact Or.inl rfl
          · exact Or.inl rfl
    rcases hstep with hstep | hstep
    · exact ⟨t, by rw [ht1, hstep], ht2.cons n⟩
    · refine ⟨n :: t, ?_, ht2.cons₂ n⟩
      rw [ht1, hstep]
      simp

theorem sublist_of_subset_nodup :
    ∀ {s l1 l2 : List Node}, s.Nodup → List.Sublist l1 s → List.Sublist l2 s →
      (∀ x ∈ l1, x ∈ l2) → List.Sublist l1 l2
  | [], l1, l2, _, h1, _, _ => by
    rw [List.sublist_nil.1 h1]
    exact List.nil_sublist _
  | a :: s, l1, l2, hnd, h1, h2, hsub => by
    rcases List.sublist_cons_iff.1 h1 with h1 | ⟨r1, rfl, hr1⟩
    · rcases List.sublist_cons_iff.1 h2 with h2 | ⟨r2, rfl, hr2⟩
      · exact sublist_of_subset_nodup (List.nodup_cons.1 hnd).2 h1 h2 hsub
      · have hl1 : ∀ x ∈ l1, x ∈ r2 := by
          intro x hx
          rcases List.mem_cons.1 (hsub x hx) with heq | hx2
          · exfalso
            rw [heq] at hx
            exact (List.nodup_cons.1 hnd).1 (h1.subset hx)
          · exact hx2
        exact (sublist_of_subset_nodup (List.nodup_cons.1 hnd).2 h1 hr2 hl1).cons a
    · rcases List.sublist_cons_iff.1 h2 with h2 | ⟨r2, rfl, hr2⟩
      · exfalso
        have : a ∈ s := (h2.subset (hsub a (List.mem_cons_self ..)))
        exact (List.nodup_cons.1 hnd).1 this
      · have hr : ∀ x ∈ r1, x ∈ r2 := by
          intro x hx
          rcases List.mem_cons.1 (hsub x (List.mem_cons_of_mem _ hx)) with rfl | hx2
          · exfalso
            exact (List.nodup_cons.1 hnd).1 (hr1.subset hx)
          · exact hx2
        exact (sublist_of_subset_nodup (List.nodup_cons.1 hnd).2 hr1 hr2 hr).cons₂ a

theorem prune_fold_mem (bwd : List Node) :
    ∀ (l : List Node) (sv : List String) (s : String), sv.Nodup →
      (s ∈ l.foldl (fun sv n =>
          if n.op == .placeholder && (usersOf bwd n.name).isEmpty then sv.erase n.name
          else sv) sv ↔
        s ∈ sv ∧ ∀ n ∈ l, ¬(n.op = .placeholder ∧ usersOf bwd n.name = [] ∧ n.name = s))
  | [], sv, s, _ => by simp
  | n :: l, sv, s, hnd => by
    rw [List.foldl_cons]
    by_cases hcond : (n.op == Op.placeholder && (usersOf bwd n.name).isEmpty) = true
    · rw [if_pos hcond]
      rw [prune_fold_mem bwd l _ s (hnd.erase _)]
      rw [hnd.mem_erase_iff]
      rw [Bool.and_eq_true, beq_iff_eq, List.isEmpty_iff] at hcond
      constructor
      · rintro ⟨⟨hne, hs⟩, hrest⟩
        refine ⟨hs, ?_⟩
        intro m hm
        rcases List.mem_cons.1 hm with rfl | hm
        · rintro ⟨-, -, hname⟩
          exact hne hname.symm
        · exact hrest m hm
      · rintro ⟨hs, hall⟩
        refine ⟨⟨?_, hs⟩, fun m hm => hall m (List.mem_cons_of_mem _ hm)⟩
        intro heq
        exact hall n (List.mem_cons_self ..) ⟨hcond.1, hcond.2, heq.symm⟩
    · rw [if_neg hcond]
      rw [prune_fold_mem bwd l sv s hnd]
      rw [Bool.and_eq_true, beq_iff_eq, List.isEmpty_iff] at hcond
      constructor
      · rintro ⟨hs, hrest⟩
        refine ⟨hs, ?_⟩
        intro m hm
        rcases List.mem_cons.1 hm with rfl | hm
        · rintro ⟨h1, h2, -⟩
          exact hcond ⟨h1, h2⟩
        · exact hrest m hm
      · rintro ⟨hs, hall⟩
        exact ⟨hs, fun m hm => hall m (List.mem_cons_of_mem _ hm)⟩

/-- Membership in the pruned saved-value list. -/
theorem pruneSaved_mem {bwd : List Node} {sv : List String} {s : String}
    (hnd : sv.Nodup) :
    s ∈ pruneSaved bwd sv ↔
      s ∈ sv ∧ ∀ n ∈ bwd, ¬(n.op = .placeholder ∧ usersOf bwd n.name = [] ∧ n.name = s) :=
  prune_fold_mem bwd bwd sv s hnd

theorem refsOk_args_mem {seen : List String} :
    ∀ {l : List Node} {x : Node} {a : String},
      refsOkAux seen l = true → x ∈ l → a ∈ nodeArgNames x →
      a ∈ seen ∨ a ∈ l.map Node.name
  | [], x, _, _, hx, _ => absurd hx (List.not_mem_nil x)
  | n :: l, x, a, h, hx, ha => by
    rw [refsOkAux, Bool.and_eq_true] at h
    obtain ⟨h1, h2⟩ := h
    rcases List.mem_cons.1 hx with rfl | hx
    · have h3 := List.all_eq_true.1 h1 a ha
      simp only [decide_eq_true_eq] at h3
      exact Or.inl h3
    · rcases refsOk_args_mem h2 hx ha with h3 | h3
      · rcases List.mem_append.1 h3 with h3 | h3
        · exact Or.inl h3
        · refine Or.inr ?_
          rw [List.map_cons]
          exact List.mem_cons.2 (Or.inl (List.mem_singleton.1 h3))
      · refine Or.inr ?_
        rw [List.map_cons]
        exact List.mem_cons_of_mem _ h3

theorem name_inj {g : List Node} (hnd : (g.map Node.name).Nodup) {m n : Node}
    (hm : m ∈ g) (hn : n ∈ g) (h : m.name = n.name) : m = n :=
  List.inj_on_of_nodup_map hnd hm hn h

theorem extractEnv_err_front {pre post : List Node} {ins : List String}
    (h : (extractEnv (pre ++ post) ins).err = false) :
    (extractEnv pre ins).err = false := by
  unfold extractEnv at h ⊢
  rw [List.foldl_append] at h
  exact ext_err_false_pre h

/-- Names of the pre-DCE extraction graph are distinct. -/
theorem pre_names_nodup {src : List Node} {ins outs : List String}
    (hnd : (src.map Node.name).Nodup)
    (hnout : ∀ m ∈ src, m.op ≠ .output → m.name ≠ "output")
    (hins : ins.Nodup)
    (hinsout : ¬("output" ∈ ins)) :
    ((ins.map mkPlaceholder ++
      ((extractEnv src ins).body ++ [mkOutput outs])).map Node.name).Nodup := by
  obtain ⟨t, ht1, ht2⟩ := @ext_body_sublist ins src ⟨[], [], false⟩
  have hbody : (extractEnv src ins).body = t := by
    unfold extractEnv
    rw [ht1]
    rfl
  have hbodyn : ((extractEnv src ins).body.map Node.name).Nodup := by
    rw [hbody]
    exact hnd.sublist (ht2.map Node.name)
  have hphn : (ins.map mkPlaceholder).map Node.name = ins := by
    rw [List.map_map]
    have h2 : Node.name ∘ mkPlaceholder = id := rfl
    rw [h2, List.map_id]
  rw [List.map_append, List.map_append, hphn]
  rw [List.nodup_append]
  refine ⟨hins, ?_, ?_⟩
  · rw [List.nodup_append]
    refine ⟨hbodyn, List.nodup_singleton _, ?_⟩
    intro a ha hout
    rcases List.mem_map.1 ha with ⟨x, hx, rfl⟩
    obtain ⟨hxs, -, hxop⟩ := extractEnv_body_shape hx
    have hne : x.name ≠ "output" := by
      refine hnout x hxs ?_
      rcases hxop with hxop | hxop <;> simp [hxop]
    exact hne (List.mem_singleton.1 hout)
  · intro a ha hmem
    rcases List.mem_append.1 hmem with hmem | hmem
    · rcases List.mem_map.1 hmem with ⟨x, hx, rfl⟩
      exact (extractEnv_body_shape hx).2.1 ha
    · rw [List.mem_singleton.1 hmem] at ha
      exact hinsout ha

/-- Valid-set stability: shrinking the input list to `ins2 ⊆ ins1` preserves
validity of every name in the protected set `K`, provided `K` is closed
under arguments (off-input) and its input-names survive the shrink. -/
theorem ext_valid_stable {ins1 ins2 K : List String}
    (hsub : ∀ a ∈ ins2, a ∈ ins1) :
    ∀ {l : List Node} {st1 st2 : ExtSt},
      (∀ n ∈ l, n.name ∈ K → ¬(n.name ∈ ins1) → ∀ a ∈ nodeArgNames n, a ∈ K) →
      (∀ a ∈ K, a ∈ ins1 → a ∈ ins2) →
      (l.foldl (extStep ins2) st2).err = false →
      (∀ a ∈ K, a ∈ st1.valid → a ∈ st2.valid) →
      ∀ a ∈ K, a ∈ (l.foldl (extStep ins1) st1).valid →
        a ∈ (l.foldl (extStep ins2) st2).valid
  | [], _, _, _, _, _, hinv => hinv
  | n :: l, st1, st2, hk, hins, herr2, hinv => by
    rw [List.foldl_cons] at herr2 ⊢
    rw [List.foldl_cons]
    have herr2s : (extStep ins2 st2 n).err = false := by
      cases hc : (extStep ins2 st2 n).err
      · rfl
      · rw [ext_err_mono_foldl hc] at herr2
        cases herr2
    have herr2st : st2.err = false := by
      cases hc : st2.err
      · rfl
      · rw [extStep_of_err n hc] at herr2s
        rw [herr2s] at hc
        cases hc
    refine ext_valid_stable hsub (fun m hm => hk m (List.mem_cons_of_mem _ hm)) hins
      herr2 ?_
    intro b hb hbv
    rcases extStep_valid_src hbv with hbv2 | rfl
    · exact extStep_valid_mem (hinv b hb hbv2)
    · by_cases hins1 : n.name ∈ ins1
      · have hins2 : n.name ∈ ins2 := hins _ hb hins1
        unfold extStep
        rw [if_neg (by simp [herr2st]), if_pos (by simpa using hins2)]
        exact List.mem_cons_self ..
      · by_cases hb1 : n.name ∈ st1.valid
        · exact extStep_valid_mem (hinv _ hb hb1)
        · have hargsK := hk n (List.mem_cons_self ..) hb hins1
          have hnin2 : ¬(n.name ∈ ins2) := fun hc => hins1 (hsub _ hc)
          unfold extStep at hbv
          by_cases he1 : st1.err = true
          · rw [if_pos he1] at hbv
            exact absurd hbv hb1
          · rw [if_neg he1, if_neg (by simpa using hins1)] at hbv
            cases hop : n.op with
            | placeholder =>
              simp only [hop] at hbv
              exact absurd hbv hb1
            | output =>
              simp only [hop] at hbv
              exact absurd hbv hb1
            | call_function =>
              simp only [hop] at hbv
              by_cases hargs :
                  ((nodeArgNames n).all fun a => decide (a ∈ st1.valid)) = true
              · have hargs2 : ∀ a ∈ nodeArgNames n, a ∈ st2.valid := by
                  intro a ha2
                  have h5 := List.all_eq_true.1 hargs a ha2
                  simp only [decide_eq_true_eq] at h5
                  exact hinv a (hargsK a ha2) h5
                unfold extStep
                rw [if_neg (by simp [herr2st]), if_neg (by simpa using hnin2)]
                simp only [hop]
                rw [if_pos (List.all_eq_true.2 (fun a ha2 => by simpa using hargs2 a ha2))]
                exact List.mem_cons_self ..
              · rw [if_neg hargs] at hbv
                exact absurd hbv hb1
            | get_attr =>
              simp only [hop] at hbv
              by_cases hargs :
                  ((nodeArgNames n).all fun a => decide (a ∈ st1.valid)) = true
              · have hargs2 : ∀ a ∈ nodeArgNames n, a ∈ st2.valid := by
                  intro a ha2
                  have h5 := List.all_eq_true.1 hargs a ha2
                  simp only [decide_eq_true_eq] at h5
                  exact hinv a (hargsK a ha2) h5
                unfold extStep
                rw [if_neg (by simp [herr2st]), if_neg (by simpa using hnin2)]
                simp only [hop]
                rw [if_pos (List.all_eq_true.2 (fun a ha2 => by simpa using hargs2 a ha2))]
                exact List.mem_cons_self ..
              · rw [if_neg hargs] at hbv
                exact absurd hbv hb1

/-- A node of the replayed body had all its arguments valid when it was
processed. -/
theorem ext_body_step_args {pre post : List Node} {x : Node} {ins : List String}
    (hnd : ((pre ++ x :: post).map Node.name).Nodup)
    (hbody : x ∈ (extractEnv (pre ++ x :: post) ins).body) :
    ∀ a ∈ nodeArgNames x, a ∈ (extractEnv pre ins).valid := by
  have hpos := (ext_body_position hnd).1 hbody
  have hnb : x ∉ (extractEnv pre ins).body := by
    intro hc
    obtain ⟨hmem, -, -⟩ := extractEnv_body_shape hc
    exact (nodup_middle_facts hnd).1 (List.mem_map_of_mem _ hmem)
  intro a ha
  unfold extStep at hpos
  split at hpos
  · exact absurd hpos hnb
  · split at hpos
    · exact absurd hpos hnb
    · split at hpos
      · exact absurd hpos hnb
      · split at hpos
        · next hargs =>
          have h5 := List.all_eq_true.1 hargs a ha
          simpa using h5
        · exact absurd hpos hnb
      · split at hpos
        · next hargs =>
          have h5 := List.all_eq_true.1 hargs a ha
          simpa using h5
        · exact absurd hpos hnb
      · exact absurd hpos hnb

/-- Conversely, a replayable node with valid arguments enters the body. -/
theorem ext_body_step_mem {pre post : List Node} {x : Node} {ins : List String}
    (hnd : ((pre ++ x :: post).map Node.name).Nodup)
    (herrpre : (extractEnv pre ins).err = false)
    (hargs : ∀ a ∈ nodeArgNames x, a ∈ (extractEnv pre ins).valid)
    (hnin : ¬(x.name ∈ ins))
    (hop : x.op = .call_function ∨ x.op = .get_attr) :
    x ∈ (extractEnv (pre ++ x :: post) ins).body := by
  refine (ext_body_position hnd).2 ?_
  unfold extStep
  rw [if_neg (by simp [herrpre]), if_neg (by simpa using hnin)]
  rcases hop with hop | hop <;>
    · simp only [hop]
      rw [if_pos (List.all_eq_true.2 (fun a ha => by simpa using hargs a ha))]
      simp

/-- **C4 (amended).**  In the min-cut partitioner, after the single pruning
pass and the single re-extraction, no placeholder of the resulting backward
graph that corresponds to a remaining saved value has zero users; a
zero-user placeholder can only be a tangent input (which the pruning loop
never removes, since it only deletes matching saved values). -/
theorem claim4_prune_amended {g : List Node} {metaOf : String → MetaInfo}
    {numFwd : Nat} {reach : List NetV} {p : MCParts}
    (hnd : (g.map Node.name).Nodup)
    (hnout : ∀ m ∈ g, m.op ≠ .output → m.name ≠ "output")
    (h : minCutPipeline g metaOf numFwd reach = some p)
    (hsv : (p.saved ++ p.tangents).Nodup)
    (hso : ¬("output" ∈ p.saved ++ p.tangents)) :
    (∀ s ∈ p.savedPruned, usersOf p.bwd s ≠ []) ∧
    (∀ n ∈ p.bwd, n.op = .placeholder → usersOf p.bwd n.name = [] →
      n.name ∈ p.tangents) := by
  obtain ⟨o, outNames, -, -, -, -, -, -, -, -, hb1, hsp, -, hb2⟩ := minCutPipeline_some h
  obtain ⟨herr1, hvalid1, -⟩ := extract_eq_some hb1
  obtain ⟨kb1, hG1, hkb1, hkbeq1⟩ := extract_structure hb1
  obtain ⟨herr2, -, -⟩ := extract_eq_some hb2
  obtain ⟨kb2, hG2, hkb2, hkbeq2⟩ := extract_structure hb2
  have hndS : p.saved.Nodup := (List.nodup_append.1 hsv).1
  have hSP : ∀ a ∈ p.savedPruned, a ∈ p.saved := by
    intro a ha
    rw [hsp] at ha
    exact ((pruneSaved_mem hndS).1 ha).1
  have hphmem : ∀ s ∈ p.saved ++ p.tangents, mkPlaceholder s ∈ p.bwd1 := by
    intro s hs
    rw [hG1]
    exact List.mem_append_left _ (List.mem_append_left _ (List.mem_map_of_mem _ hs))
  have hP1 : ∀ s, s ∈ p.savedPruned ↔ s ∈ p.saved ∧ usersOf p.bwd1 s ≠ [] := by
    intro s
    rw [hsp, pruneSaved_mem hndS]
    constructor
    · rintro ⟨hs, hall⟩
      refine ⟨hs, ?_⟩
      intro hu
      exact hall (mkPlaceholder s) (hphmem s (List.mem_append_left _ hs))
        ⟨rfl, by simpa [mkPlaceholder] using hu, rfl⟩
    · rintro ⟨hs, hu⟩
      refine ⟨hs, ?_⟩
      rintro n hn ⟨-, hzero, hname⟩
      exact hu (hname ▸ hzero)
  have hbodysub :
      List.Sublist (extractEnv g (p.saved ++ p.tangents)).body g := by
    obtain ⟨t, ht1, ht2⟩ := @ext_body_sublist (p.saved ++ p.tangents) g ⟨[], [], false⟩
    have heq : (extractEnv g (p.saved ++ p.tangents)).body = t := by
      unfold extractEnv
      rw [ht1]
      rfl
    rw [heq]
    exact ht2
  have hkb1g : List.Sublist kb1 g := hkb1.trans hbodysub
  have hdce1 : p.bwd1 = (dceAux ((p.saved ++ p.tangents).map mkPlaceholder ++
      ((extractEnv g (p.saved ++ p.tangents)).body ++ [mkOutput p.bwdOuts]))).1 := by
    obtain ⟨-, -, h3⟩ := extract_eq_some hb1
    rw [h3, List.append_assoc]
  have hpre1refs := pre_refsOk hvalid1
  have hpre1nd := @pre_names_nodup g (p.saved ++ p.tangents) p.bwdOuts hnd hnout hsv hso
  have hkb1bwd : ∀ y ∈ kb1, y ∈ p.bwd1 := by
    intro y hy
    rw [hG1]
    exact List.mem_append_left _ (List.mem_append_right _ hy)
  have hbodyrefs : refsOkAux (p.saved ++ p.tangents)
      (extractEnv g (p.saved ++ p.tangents)).body = true :=
    (@ext_body_refsOk (p.saved ++ p.tangents) g ⟨[], [], false⟩ rfl
      (by intro a ha; cases ha)).1
  have hargsK : ∀ y ∈ kb1, ∀ a ∈ nodeArgNames y,
      a ∈ (p.savedPruned ++ p.tangents) ++ kb1.map Node.name := by
    intro y hy a ha
    have hybody : y ∈ (extractEnv g (p.saved ++ p.tangents)).body := hkb1.subset hy
    rcases refsOk_args_mem hbodyrefs hybody ha with hmem | hmem
    · rcases List.mem_append.1 hmem with hmem | hmem
      · have huser : y ∈ usersOf p.bwd1 a :=
          List.mem_filter_of_mem (hkb1bwd y hy) (by simpa using ha)
        have hne : usersOf p.bwd1 a ≠ [] := List.ne_nil_of_mem huser
        exact List.mem_append_left _ (List.mem_append_left _ ((hP1 a).2 ⟨hmem, hne⟩))
      · exact List.mem_append_left _ (List.mem_append_right _ hmem)
    · rcases List.mem_map.1 hmem with ⟨z, hz, rfl⟩
      have hyG : y ∈ (dceAux ((p.saved ++ p.tangents).map mkPlaceholder ++
          ((extractEnv g (p.saved ++ p.tangents)).body ++ [mkOutput p.bwdOuts]))).1 := by
        rw [← hdce1]
        exact hkb1bwd y hy
      have hused := dce_used_of_kept hyG ha
      have hzpre : z ∈ (p.saved ++ p.tangents).map mkPlaceholder ++
          ((extractEnv g (p.saved ++ p.tangents)).body ++ [mkOutput p.bwdOuts]) :=
        List.mem_append_right _ (List.mem_append_left _ hz)
      have hzkept := dce_kept_of_used hpre1refs (by simpa using hpre1nd) hzpre hused
      have hzbwd : z ∈ p.bwd1 := by
        rw [hdce1]
        exact hzkept
      rw [hG1] at hzbwd
      rcases List.mem_append.1 hzbwd with hzz | hzz
      · rcases List.mem_append.1 hzz with hzz | hzz
        · exfalso
          rcases List.mem_map.1 hzz with ⟨t0, -, heq0⟩
          obtain ⟨-, -, hops⟩ := extractEnv_body_shape hz
          rw [← heq0] at hops
          rcases hops with hops | hops <;> simp [mkPlaceholder] at hops
        · exact List.mem_append_right _ (List.mem_map_of_mem _ hzz)
      · exfalso
        obtain ⟨-, -, hops⟩ := extractEnv_body_shape hz
        rw [List.mem_singleton.1 hzz] at hops
        rcases hops with hops | hops <;> simp [mkOutput] at hops
  have hsub12 : ∀ a ∈ p.savedPruned ++ p.tangents, a ∈ p.saved ++ p.tangents := by
    intro a ha
    rcases List.mem_append.1 ha with ha | ha
    · exact List.mem_append_left _ (hSP _ ha)
    · exact List.mem_append_right _ ha
  have hkglobal : ∀ n ∈ g,
      n.name ∈ (p.savedPruned ++ p.tangents) ++ kb1.map Node.name →
      ¬(n.name ∈ p.saved ++ p.tangents) →
      ∀ a ∈ nodeArgNames n, a ∈ (p.savedPruned ++ p.tangents) ++ kb1.map Node.name := by
    intro n hn hnK hnin a ha
    rcases List.mem_append.1 hnK with hmem | hmem
    · exact absurd (hsub12 _ hmem) hnin
    · rcases List.mem_map.1 hmem with ⟨y, hy, hyn⟩
      have hyg : y ∈ g := hkb1g.subset hy
      have heq : y = n := name_inj hnd hyg hn hyn
      subst heq
      exact hargsK y hy a ha
  have hinsK : ∀ a ∈ (p.savedPruned ++ p.tangents) ++ kb1.map Node.name,
      a ∈ p.saved ++ p.tangents → a ∈ p.savedPruned ++ p.tangents := by
    intro a haK hain
    rcases List.mem_append.1 haK with hmem | hmem
    · exact hmem
    · exfalso
      rcases List.mem_map.1 hmem with ⟨y, hy, rfl⟩
      exact (extractEnv_body_shape (hkb1.subset hy)).2.1 hain
  have hkb1body2 : ∀ x ∈ kb1,
      x ∈ (extractEnv g (p.savedPruned ++ p.tangents)).body := by
    intro x hx
    have hxg : x ∈ g := hkb1g.subset hx
    obtain ⟨pre, post, hgsplit⟩ := List.append_of_mem hxg
    have hx1 : x ∈ (extractEnv g (p.saved ++ p.tangents)).body := hkb1.subset hx
    have hnd2 : ((pre ++ x :: post).map Node.name).Nodup := by
      rw [← hgsplit]
      exact hnd
    have hargs1 : ∀ a ∈ nodeArgNames x,
        a ∈ (extractEnv pre (p.saved ++ p.tangents)).valid := by
      refine ext_body_step_args hnd2 ?_
      rw [← hgsplit]
      exact hx1
    have herr2pre : (extractEnv pre (p.savedPruned ++ p.tangents)).err = false := by
      refine @extractEnv_err_front pre (x :: post) (p.savedPruned ++ p.tangents) ?_
      rw [← hgsplit]
      exact herr2
    have hargs2 : ∀ a ∈ nodeArgNames x,
        a ∈ (extractEnv pre (p.savedPruned ++ p.tangents)).valid := by
      intro a ha
      refine @ext_valid_stable (p.saved ++ p.tangents) (p.savedPruned ++ p.tangents)
        ((p.savedPruned ++ p.tangents) ++ kb1.map Node.name) hsub12 pre
        ⟨[], [], false⟩ ⟨[], [], false⟩
        (fun n hn => hkglobal n (by rw [hgsplit]; exact List.mem_append_left _ hn))
        hinsK herr2pre (fun b _ hbv => absurd hbv (List.not_mem_nil b))
        a (hargsK x hx a ha) (hargs1 a ha)
    have hbs := extractEnv_body_shape hx1
    have hnin2 : ¬(x.name ∈ p.savedPruned ++ p.tangents) := fun hc => hbs.2.1 (hsub12 _ hc)
    have hres := ext_body_step_mem hnd2 herr2pre hargs2 hnin2 hbs.2.2
    rw [← hgsplit] at hres
    exact hres
  have hkb1kb2 : ∀ x ∈ kb1, x ∈ kb2 := by
    have hgnodup : g.Nodup := List.Nodup.of_map _ hnd
    have hbody2sub :
        List.Sublist (extractEnv g (p.savedPruned ++ p.tangents)).body g := by
      obtain ⟨t, ht1, ht2⟩ :=
        @ext_body_sublist (p.savedPruned ++ p.tangents) g ⟨[], [], false⟩
      have heq : (extractEnv g (p.savedPruned ++ p.tangents)).body = t := by
        unfold extractEnv
        rw [ht1]
        rfl
      rw [heq]
      exact ht2
    have hkb1slb2 : List.Sublist kb1 (extractEnv g (p.savedPruned ++ p.tangents)).body :=
      sublist_of_subset_nodup hgnodup hkb1g hbody2sub hkb1body2
    have hidem : (dceAux (kb1 ++ [mkOutput p.bwdOuts])).1 = kb1 ++ [mkOutput p.bwdOuts] := by
      rw [hkbeq1, dceAux_idem]
    have hmono := dceAux_mono (hkb1slb2.append (List.Sublist.refl [mkOutput p.bwdOuts]))
    intro x hx
    have hxin : x ∈ (dceAux ((extractEnv g (p.savedPruned ++ p.tangents)).body ++
        [mkOutput p.bwdOuts])).1 := by
      refine hmono.1 x ?_
      rw [hidem]
      exact List.mem_append_left _ hx
    rw [← hkbeq2] at hxin
    rcases List.mem_append.1 hxin with hxin | hxin
    · exact hxin
    · exfalso
      obtain ⟨-, -, hops⟩ := extractEnv_body_shape (hkb1.subset hx)
      rw [List.mem_singleton.1 hxin] at hops
      rcases hops with hops | hops <;> simp [mkOutput] at hops
  have hpart1 : ∀ s ∈ p.savedPruned, usersOf p.bwd s ≠ [] := by
    intro s hs
    have hu1 : usersOf p.bwd1 s ≠ [] := ((hP1 s).1 hs).2
    obtain ⟨x, hxu⟩ := List.exists_mem_of_ne_nil _ hu1
    have hxmem : x ∈ p.bwd1 := List.mem_of_mem_filter hxu
    have hxargs : s ∈ nodeArgNames x := by
      have h5 := List.of_mem_filter hxu
      simpa using h5
    have hxbwd2 : x ∈ p.bwd := by
      rw [hG1] at hxmem
      rcases List.mem_append.1 hxmem with hxm | hxm
      · rcases List.mem_append.1 hxm with hxm | hxm
        · exfalso
          rcases List.mem_map.1 hxm with ⟨t0, -, heq0⟩
          rw [← heq0] at hxargs
          simp [nodeArgNames, mkPlaceholder] at hxargs
        · rw [hG2]
          exact List.mem_append_left _ (List.mem_append_right _ (hkb1kb2 x hxm))
      · rw [hG2, List.mem_singleton.1 hxm]
        exact List.mem_append_right _ (List.mem_singleton.2 rfl)
    intro hnil
    have hx2 : x ∈ usersOf p.bwd s :=
      List.mem_filter_of_mem hxbwd2 (by simpa using hxargs)
    rw [hnil] at hx2
    cases hx2
  refine ⟨hpart1, ?_⟩
  intro n hn hop hzero
  rw [hG2] at hn
  rcases List.mem_append.1 hn with hn | hn
  · rcases List.mem_append.1 hn with hn | hn
    · rcases List.mem_map.1 hn with ⟨t0, ht0, heq0⟩
      have hname : n.name = t0 := by
        rw [← heq0]
        rfl
      rcases List.mem_append.1 ht0 with ht0 | ht0
      · exfalso
        refine hpart1 t0 ht0 ?_
        rw [← hname]
        exact hzero
      · rw [hname]
        exact ht0
    · exfalso
      obtain ⟨-, -, hops⟩ := extractEnv_body_shape (hkb2.subset hn)
      rw [hop] at hops
      rcases hops with hops | hops <;> cases hops
  · exfalso
    rw [List.mem_singleton.1 hn] at hop
    cases hop

/-- **C4, counterexample.**  On the joint graph `exMCJoint` the min-cut
partitioner succeeds, yet the resulting backward graph contains the
placeholder `tangents_2` with zero users: the pruning pass only removes
matching saved values, so an unused tangent placeholder survives, refuting
"no placeholder of the resulting backward graph has zero users". -/
theorem claim4_counterexample :
    partition_with_recompute_fwd_in_bwd exMCJoint exMCMeta 1 exMCReach =
      some (exMCParts.fwd, exMCParts.bwd) ∧
    mkPlaceholder "tangents_2" ∈ exMCParts.bwd ∧
    (mkPlaceholder "tangents_2").op = Op.placeholder ∧
    usersOf exMCParts.bwd "tangents_2" = [] := by decide

theorem claim4_witness :
    ((exMCJoint.map Node.name).Nodup ∧
     minCutPipeline exMCJoint exMCMeta 1 exMCReach = some exMCParts) ∧
    (∀ s ∈ exMCParts.savedPruned, usersOf exMCParts.bwd s ≠ []) ∧
    (∀ n ∈ exMCParts.bwd, n.op = .placeholder →
      usersOf exMCParts.bwd n.name = [] → n.name ∈ exMCParts.tangents) :=
  ⟨⟨by decide, by decide⟩,
   @claim4_prune_amended exMCJoint exMCMeta 1 exMCReach exMCParts
     (by decide) (by decide) (by decide) (by decide) (by decide)⟩

/-! ## Execution lemmas: association-list lookup -/

theorem lookup_cons_self {k : String} {v : α} {es : List (String × α)} :
    ((k, v) :: es).lookup k = some v := by
  simp [List.lookup]

theorem lookup_cons_ne {k a : String} {v : α} {es : List (String × α)}
    (h : a ≠ k) : ((k, v) :: es).lookup a = es.lookup a := by
  have hk : (a == k) = false := beq_eq_false_iff_ne.2 h
  simp [List.lookup, hk]

theorem lookup_none_of_not_fst {a : String} :
    ∀ {E : List (String × α)}, ¬(a ∈ E.map Prod.fst) → E.lookup a = none
  | [], _ => rfl
  | (k, _) :: es, h => by
    have hak : a ≠ k := fun hh => h (by simp [hh])
    rw [lookup_cons_ne hak]
    exact lookup_none_of_not_fst (fun hh => h (List.mem_cons_of_mem _ hh))

theorem lookup_some_mem_fst {a : String} {v : α} {E : List (String × α)}
    (h : E.lookup a = some v) : a ∈ E.map Prod.fst := by
  by_contra hc
  rw [lookup_none_of_not_fst hc] at h
  cases h

theorem mem_fst_lookup_some {a : String} :
    ∀ {E : List (String × α)}, a ∈ E.map Prod.fst → ∃ v, E.lookup a = some v
  | [], h => absurd h (List.not_mem_nil a)
  | (k, v) :: es, h => by
    by_cases hak : a = k
    · subst hak
      exact ⟨v, lookup_cons_self⟩
    · rw [lookup_cons_ne hak]
      refine mem_fst_lookup_some ?_
      rcases List.mem_cons.1 h with h | h
      · exact absurd h hak
      · exact h

theorem lookup_append_left {a : String} {v : α} :
    ∀ {E : List (String × α)} (F : List (String × α)),
      E.lookup a = some v → (E ++ F).lookup a = some v
  | [], _, h => by cases h
  | (k, w) :: es, F, h => by
    by_cases hak : a = k
    · subst hak
      rw [lookup_cons_self] at h
      rw [List.cons_append, lookup_cons_self]
      exact h
    · rw [lookup_cons_ne hak] at h
      rw [List.cons_append, lookup_cons_ne hak]
      exact lookup_append_left F h

theorem lookup_append_right {a : String} {E F : List (String × α)}
    (h : ¬(a ∈ E.map Prod.fst)) : (E ++ F).lookup a = F.lookup a := by
  induction E with
  | nil => rfl
  | cons p es ih =>
    obtain ⟨k, w⟩ := p
    have hak : a ≠ k := fun hh => h (by simp [hh])
    rw [List.cons_append, lookup_cons_ne hak]
    exact ih (fun hh => h (List.mem_cons_of_mem _ hh))

/-! ## Execution lemmas: `Forall₂` and `mapM` -/

theorem forall2_imp_mem {β γ : Type} {R Q : β → γ → Prop} :
    ∀ {l1 : List β} {l2 : List γ}, List.Forall₂ R l1 l2 →
      (∀ a ∈ l1, ∀ b, R a b → Q a b) → List.Forall₂ Q l1 l2 := by
  intro l1 l2 hF
  induction hF with
  | nil => intro _; exact List.Forall₂.nil
  | cons h hF ih =>
    intro himp
    refine List.Forall₂.cons (himp _ (List.mem_cons_self ..) _ h) ?_
    exact ih (fun a ha b hb => himp a (List.mem_cons_of_mem _ ha) b hb)

theorem forall2_append {β γ : Type} {R : β → γ → Prop} :
    ∀ {l1 : List β} {l2 : List γ} {l3 : List β} {l4 : List γ},
      List.Forall₂ R l1 l2 → List.Forall₂ R l3 l4 →
      List.Forall₂ R (l1 ++ l3) (l2 ++ l4) := by
  intro l1 l2 l3 l4 hF
  induction hF with
  | nil => intro h; exact h
  | cons h _ ih =>
    intro h34
    exact List.Forall₂.cons h (ih h34)

theorem forall2_mem_left {β γ : Type} {R : β → γ → Prop} :
    ∀ {l1 : List β} {l2 : List γ}, List.Forall₂ R l1 l2 →
      ∀ a ∈ l1, ∃ b ∈ l2, R a b := by
  intro l1 l2 hF
  induction hF with
  | nil => intro a ha; exact absurd ha (List.not_mem_nil a)
  | cons h _ ih =>
    intro a ha
    rcases List.mem_cons.1 ha with rfl | ha
    · exact ⟨_, List.mem_cons_self .., h⟩
    · obtain ⟨b, hb, hr⟩ := ih a ha
      exact ⟨b, List.mem_cons_of_mem _ hb, hr⟩

theorem forall2_conj {β γ : Type} {R Q : β → γ → Prop} :
    ∀ {l1 : List β} {l2 : List γ}, List.Forall₂ R l1 l2 → List.Forall₂ Q l1 l2 →
      List.Forall₂ (fun a b => R a b ∧ Q a b) l1 l2 := by
  intro l1 l2 hR
  induction hR with
  | nil => intro _; exact List.Forall₂.nil
  | cons h1 _ ih =>
    intro hQ
    cases hQ with
    | cons h2 hQ => exact List.Forall₂.cons ⟨h1, h2⟩ (ih hQ)

/-- In a zipped environment over duplicate-free names, each name looks up
its own paired value. -/
theorem zip_lookup_forall2 :
    ∀ {names : List String} {vals : List α}, names.Nodup →
      names.length = vals.length →
      List.Forall₂ (fun s v => (names.zip vals).lookup s = some v) names vals
  | [], [], _, _ => List.Forall₂.nil
  | [], _ :: _, _, hl => by cases hl
  | _ :: _, [], _, hl => by cases hl
  | s0 :: ns, v0 :: vs, hnd, hl => by
    rw [List.zip_cons_cons]
    refine List.Forall₂.cons lookup_cons_self ?_
    have htail := zip_lookup_forall2 (List.Nodup.of_cons hnd) (by simpa using hl)
    refine forall2_imp_mem htail ?_
    intro a ha b hb
    have hane : a ≠ s0 := by
      intro hh
      subst hh
      exact (List.nodup_cons.1 hnd).1 ha
    rw [lookup_cons_ne hane]
    exact hb

theorem zip_env_lookup {ρ : List (String × α)} :
    ∀ {names : List String} {vals : List α}, names.Nodup →
      List.Forall₂ (fun s v => ρ.lookup s = some v) names vals →
      ∀ s ∈ names, ∃ v, (names.zip vals).lookup s = some v ∧ ρ.lookup s = some v := by
  intro names vals hnd hF s hs
  have hlen := List.Forall₂.length_eq hF
  have hz := zip_lookup_forall2 hnd hlen
  have hboth := forall2_mem_left (forall2_conj hz hF) s hs
  obtain ⟨v, -, h1, h2⟩ := hboth
  exact ⟨v, h1, h2⟩

theorem mapM_some_forall2 {β γ : Type} {f : β → Option γ} :
    ∀ {l : List β} {out : List γ}, l.mapM f = some out →
      List.Forall₂ (fun b c => f b = some c) l out
  | [], out, h => by
    rw [List.mapM_nil] at h
    simp only [Option.pure_def, Option.some.injEq] at h
    subst h
    exact List.Forall₂.nil
  | b :: l, out, h => by
    rw [List.mapM_cons] at h
    cases hb : f b with
    | none => rw [hb] at h; simp at h
    | some c =>
      rw [hb] at h
      cases hl : l.mapM f with
      | none => rw [hl] at h; simp at h
      | some cs =>
        rw [hl] at h
        simp only [Option.pure_def, Option.bind_eq_bind, Option.some_bind,
          Option.some.injEq] at h
        subst h
        exact List.Forall₂.cons hb (mapM_some_forall2 hl)

theorem forall2_mapM_some {β γ : Type} {f : β → Option γ} :
    ∀ {l : List β} {out : List γ},
      List.Forall₂ (fun b c => f b = some c) l out → l.mapM f = some out := by
  intro l out hF
  induction hF with
  | nil => rfl
  | cons h _ ih =>
    rw [List.mapM_cons, h, ih]
    rfl

theorem mapM_congr_mem {β γ : Type} {f g : β → Option γ} :
    ∀ {l : List β}, (∀ x ∈ l, f x = g x) → l.mapM f = l.mapM g
  | [], _ => rfl
  | b :: l, h => by
    rw [List.mapM_cons, List.mapM_cons, h b (List.mem_cons_self ..),
      mapM_congr_mem (fun x hx => h x (List.mem_cons_of_mem _ hx))]

theorem mapM_length {β γ : Type} {f : β → Option γ} {l : List β} {out : List γ}
    (h : l.mapM f = some out) : out.length = l.length :=
  (List.Forall₂.length_eq (mapM_some_forall2 h)).symm

theorem mapM_append_split {β γ : Type} {f : β → Option γ} {l1 l2 : List β}
    {out : List γ} (h : (l1 ++ l2).mapM f = some out) :
    ∃ o1 o2, l1.mapM f = some o1 ∧ l2.mapM f = some o2 ∧ out = o1 ++ o2 ∧
      o1.length = l1.length := by
  induction l1 generalizing out with
  | nil => exact ⟨[], out, rfl, h, rfl, rfl⟩
  | cons b l ih =>
    rw [List.cons_append, List.mapM_cons] at h
    cases hb : f b with
    | none => rw [hb] at h; simp at h
    | some c =>
      rw [hb] at h
      cases hl : (l ++ l2).mapM f with
      | none => rw [hl] at h; simp at h
      | some cs =>
        rw [hl] at h
        simp only [Option.pure_def, Option.bind_eq_bind, Option.some_bind,
          Option.some.injEq] at h
        subst h
        obtain ⟨o1, o2, h1, h2, h3, h4⟩ := ih hl
        refine ⟨c :: o1, o2, ?_, h2, by rw [h3]; rfl, by simp [h4]⟩
        rw [List.mapM_cons, hb, h1]
        rfl

theorem mapM_node_lookup {S : Sem α} {E : List (String × α)} :
    ∀ {names : List String},
      (names.map Arg.node).mapM (evalArg S E) = names.mapM (fun s => E.lookup s)
  | [] => rfl
  | s :: names => by
    rw [List.map_cons, List.mapM_cons, List.mapM_cons]
    have ih : (names.map Arg.node).mapM (evalArg S E) =
        names.mapM (fun s => E.lookup s) := mapM_node_lookup
    rw [ih]
    rfl

/-! ## Execution lemmas: `runNodes` -/

theorem runNodes_append {S : Sem α} {env₀ : List (String × α)} :
    ∀ (l1 l2 : List Node) (env : List (String × α)),
      runNodes S env₀ (l1 ++ l2) env =
        (runNodes S env₀ l1 env).bind (fun e => runNodes S env₀ l2 e)
  | [], l2, env => rfl
  | n :: l1, l2, env => by
    rw [List.cons_append, runNodes, runNodes]
    cases n.op <;> dsimp only
    · cases env₀.lookup n.name <;> dsimp only
      · rfl
      · exact runNodes_append l1 l2 _
    · cases n.args.mapM (evalArg S env) <;> dsimp only
      · rfl
      · exact runNodes_append l1 l2 _
    · exact runNodes_append l1 l2 _
    · exact runNodes_append l1 l2 _

theorem runNodes_extends {S : Sem α} {env₀ : List (String × α)} :
    ∀ {h : List Node} {env ρ : List (String × α)},
      runNodes S env₀ h env = some ρ →
      ∃ Δ, ρ = Δ ++ env ∧ ∀ s ∈ Δ.map Prod.fst, s ∈ h.map Node.name := by
  intro h
  induction h with
  | nil =>
    intro env ρ hr
    obtain rfl : env = ρ := by simpa [runNodes] using hr
    exact ⟨[], rfl, by simp⟩
  | cons n rest ih =>
    intro env ρ hr
    rw [runNodes] at hr
    have hlift : ∀ (v : α), runNodes S env₀ rest ((n.name, v) :: env) = some ρ →
        ∃ Δ, ρ = Δ ++ env ∧ ∀ s ∈ Δ.map Prod.fst, s ∈ (n :: rest).map Node.name := by
      intro v hrun
      obtain ⟨Δ, h1, h2⟩ := ih hrun
      refine ⟨Δ ++ [(n.name, v)], by simp [h1], ?_⟩
      intro s hs
      rw [List.map_append, List.mem_append] at hs
      rcases hs with hs | hs
      · exact List.mem_cons_of_mem _ (h2 s hs)
      · simp only [List.map_cons, List.map_nil, List.mem_singleton] at hs
        subst hs
        exact List.mem_cons_self ..
    split at hr
    · cases hlook : env₀.lookup n.name with
      | none => rw [hlook] at hr; cases hr
      | some v =>
        rw [hlook] at hr
        exact hlift v hr
    · cases hargs : n.args.mapM (evalArg S env) with
      | none => rw [hargs] at hr; cases hr
      | some vs =>
        rw [hargs] at hr
        exact hlift _ hr
    · exact hlift _ hr
    · obtain ⟨Δ, h1, h2⟩ := ih hr
      exact ⟨Δ, h1, fun s hs => List.mem_cons_of_mem _ (h2 s hs)⟩

/-- The final environment of a successful output-free run satisfies every
processed node's defining equation, read back through the final
environment. -/
theorem run_consistent {S : Sem α} {env₀ : List (String × α)} :
    ∀ {h : List Node} {env ρ : List (String × α)},
      runNodes S env₀ h env = some ρ →
      (∀ n ∈ h, n.op ≠ Op.output) →
      refsOkAux (env.map Prod.fst) h = true →
      ((env.map Prod.fst) ++ h.map Node.name).Nodup →
      ∀ n ∈ h,
        (n.op = Op.placeholder →
          ∃ v, env₀.lookup n.name = some v ∧ ρ.lookup n.name = some v) ∧
        (n.op = Op.call_function →
          ∃ vs, n.args.mapM (evalArg S ρ) = some vs ∧
            ρ.lookup n.name = some (S.interp n.target vs)) ∧
        (n.op = Op.get_attr → ρ.lookup n.name = some (S.attrs n.target)) := by
  intro h
  induction h with
  | nil => intro env ρ _ _ _ _ n hn; exact absurd hn (List.not_mem_nil n)
  | cons m rest ih =>
    intro env ρ hrun hnop hrefs hnd
    rw [refsOkAux, Bool.and_eq_true] at hrefs
    obtain ⟨hargsseen, hrefsrest⟩ := hrefs
    have hmid : (m.name :: (env.map Prod.fst ++ rest.map Node.name)).Nodup :=
      List.nodup_middle.1 (by simpa using hnd)
    have hmnotin : ¬(m.name ∈ env.map Prod.fst ++ rest.map Node.name) :=
      (List.nodup_cons.1 hmid).1
    have hnd' : (((m.name, (0 : Nat)).1 :: env.map Prod.fst) ++
        rest.map Node.name).Nodup := by
      rw [List.cons_append]
      exact hmid
    have hcore : ∀ (v : α), runNodes S env₀ rest ((m.name, v) :: env) = some ρ →
        ρ.lookup m.name = some v ∧
        (∀ a ∈ nodeArgNames m, ∃ w, env.lookup a = some w ∧ ρ.lookup a = some w) ∧
        (∀ n ∈ rest,
          (n.op = Op.placeholder →
            ∃ w, env₀.lookup n.name = some w ∧ ρ.lookup n.name = some w) ∧
          (n.op = Op.call_function →
            ∃ vs, n.args.mapM (evalArg S ρ) = some vs ∧
              ρ.lookup n.name = some (S.interp n.target vs)) ∧
          (n.op = Op.get_attr → ρ.lookup n.name = some (S.attrs n.target))) := by
      intro v hrun'
      have hpres : ∀ s w, (((m.name, v) :: env).lookup s = some w →
          ρ.lookup s = some w) := by
        intro s w hs
        obtain ⟨Δ, hρ, hΔ⟩ := runNodes_extends hrun'
        have hsfst : s ∈ ((m.name, v) :: env).map Prod.fst := lookup_some_mem_fst hs
        have hsrest : ¬(s ∈ rest.map Node.name) := by
          intro hc
          have hdisj := (List.nodup_append.1 hnd').2.2
          exact hdisj (by simpa using hsfst) hc
        have hsΔ : ¬(s ∈ Δ.map Prod.fst) := fun hc => hsrest (hΔ s hc)
        rw [hρ, lookup_append_right hsΔ]
        exact hs
      refine ⟨hpres m.name v lookup_cons_self, ?_, ?_⟩
      · intro a ha
        have haseen : a ∈ env.map Prod.fst := by
          have := List.all_eq_true.1 hargsseen a ha
          simpa using this
        obtain ⟨w, hw⟩ := mem_fst_lookup_some haseen
        have hane : a ≠ m.name := by
          intro hh
          subst hh
          exact hmnotin (List.mem_append_left _ haseen)
        exact ⟨w, hw, hpres a w (by rw [lookup_cons_ne hane]; exact hw)⟩
      · refine ih hrun' (fun n hn => hnop n (List.mem_cons_of_mem _ hn)) ?_ ?_
        · refine refsOkAux_mono ?_ hrefsrest
          intro a ha
          rcases List.mem_append.1 ha with ha | ha
          · exact List.mem_cons_of_mem _ ha
          · rw [List.mem_singleton.1 ha]
            exact List.mem_cons_self ..
        · exact hnd'
    rw [runNodes] at hrun
    split at hrun
    · next heq =>
      cases hlook : env₀.lookup m.name with
      | none => rw [hlook] at hrun; cases hrun
      | some v =>
        rw [hlook] at hrun
        obtain ⟨h1, -, h3⟩ := hcore v hrun
        intro n hn
        rcases List.mem_cons.1 hn with rfl | hn
        · refine ⟨fun _ => ⟨v, hlook, h1⟩, fun hcf => ?_, fun hga => ?_⟩
          · rw [heq] at hcf; cases hcf
          · rw [heq] at hga; cases hga
        · exact h3 n hn
    · next heq =>
      cases hargs : m.args.mapM (evalArg S env) with
      | none => rw [hargs] at hrun; cases hrun
      | some vs =>
        rw [hargs] at hrun
        obtain ⟨h1, h2, h3⟩ := hcore _ hrun
        intro n hn
        rcases List.mem_cons.1 hn with rfl | hn
        · refine ⟨fun hph => ?_, fun _ => ⟨vs, ?_, h1⟩, fun hga => ?_⟩
          · rw [heq] at hph; cases hph
          · rw [← hargs]
            refine mapM_congr_mem ?_
            intro x hx
            cases x with
            | node a =>
              have haarg : a ∈ nodeArgNames n := by
                simp only [nodeArgNames, List.mem_filterMap]
                exact ⟨Arg.node a, hx, rfl⟩
              obtain ⟨w, hw1, hw2⟩ := h2 a haarg
              show ρ.lookup a = env.lookup a
              rw [hw1, hw2]
            | const c => rfl
          · rw [heq] at hga; cases hga
        · exact h3 n hn
    · next heq =>
      obtain ⟨h1, -, h3⟩ := hcore _ hrun
      intro n hn
      rcases List.mem_cons.1 hn with rfl | hn
      · refine ⟨fun hph => ?_, fun hcf => ?_, fun _ => h1⟩
        · rw [heq] at hph; cases hph
        · rw [heq] at hcf; cases hcf
      · exact h3 n hn
    · next heq =>
      exact absurd heq (hnop m (List.mem_cons_self ..))

/-- Replaying an output-free node list whose nodes all satisfy their joint
defining equations, starting from an environment that agrees with the joint
environment, succeeds and yields an environment that still agrees with the
joint environment and covers every processed name. -/
theorem runAgree {S : Sem α} {env₀ ρ : List (String × α)} :
    ∀ {h : List Node} {env : List (String × α)} {seen : List String},
      (∀ n ∈ h, n.op ≠ Op.output) →
      refsOkAux seen h = true →
      (∀ n ∈ h,
        (n.op = Op.placeholder →
          ∃ v, env₀.lookup n.name = some v ∧ ρ.lookup n.name = some v) ∧
        (n.op = Op.call_function →
          ∃ vs, n.args.mapM (evalArg S ρ) = some vs ∧
            ρ.lookup n.name = some (S.interp n.target vs)) ∧
        (n.op = Op.get_attr → ρ.lookup n.name = some (S.attrs n.target))) →
      (∀ s v, env.lookup s = some v → ρ.lookup s = some v) →
      (∀ s ∈ seen, ∃ v, env.lookup s = some v) →
      ∃ env', runNodes S env₀ h env = some env' ∧
        (∀ s v, env'.lookup s = some v → ρ.lookup s = some v) ∧
        (∀ s, s ∈ seen ++ h.map Node.name → ∃ v, env'.lookup s = some v) := by
  intro h
  induction h with
  | nil =>
    intro env seen _ _ _ hsub hdom
    exact ⟨env, rfl, hsub, by simpa using hdom⟩
  | cons m rest ih =>
    intro env seen hnop hrefs hnodes hsub hdom
    rw [refsOkAux, Bool.and_eq_true] at hrefs
    obtain ⟨hargsseen, hrefsrest⟩ := hrefs
    obtain ⟨hph, hcf, hga⟩ := hnodes m (List.mem_cons_self ..)
    have hnodes' := fun n hn => hnodes n (List.mem_cons_of_mem _ hn)
    have hnop' := fun n hn => hnop n (List.mem_cons_of_mem _ hn)
    have hstep : ∀ (v : α), ρ.lookup m.name = some v →
        (∀ s w, (((m.name, v) :: env).lookup s = some w → ρ.lookup s = some w)) ∧
        (∀ s ∈ seen ++ [m.name], ∃ w, ((m.name, v) :: env).lookup s = some w) := by
      intro v hρv
      constructor
      · intro s w hs
        by_cases hsm : s = m.name
        · subst hsm
          rw [lookup_cons_self] at hs
          obtain rfl := Option.some.inj hs
          exact hρv
        · rw [lookup_cons_ne hsm] at hs
          exact hsub s w hs
      · intro s hs
        by_cases hsm : s = m.name
        · subst hsm
          exact ⟨v, lookup_cons_self⟩
        · rw [lookup_cons_ne hsm]
          rcases List.mem_append.1 hs with hs | hs
          · exact hdom s hs
          · exact absurd (List.mem_singleton.1 hs) hsm
    have hfinish : ∀ (v : α), ρ.lookup m.name = some v →
        ∃ env', runNodes S env₀ rest ((m.name, v) :: env) = some env' ∧
          (∀ s w, env'.lookup s = some w → ρ.lookup s = some w) ∧
          (∀ s, s ∈ seen ++ (m :: rest).map Node.name →
            ∃ w, env'.lookup s = some w) := by
      intro v hρv
      obtain ⟨hsub', hdom'⟩ := hstep v hρv
      obtain ⟨env', h1, h2, h3⟩ := ih hnop' hrefsrest hnodes' hsub' hdom'
      refine ⟨env', h1, h2, ?_⟩
      intro s hs
      refine h3 s ?_
      simp only [List.map_cons, List.mem_append, List.mem_cons,
        List.mem_singleton] at hs ⊢
      tauto
    rw [runNodes]
    cases hop : m.op with
    | placeholder =>
      obtain ⟨v, hv0, hvρ⟩ := hph hop
      rw [hv0]
      exact hfinish v hvρ
    | call_function =>
      obtain ⟨vs, hvsρ, hvρ⟩ := hcf hop
      have hvs : m.args.mapM (evalArg S env) = some vs := by
        rw [← hvsρ]
        refine mapM_congr_mem ?_
        intro x hx
        cases x with
        | node a =>
          have haarg : a ∈ nodeArgNames m := by
            simp only [nodeArgNames, List.mem_filterMap]
            exact ⟨Arg.node a, hx, rfl⟩
          have haseen : a ∈ seen := by
            have := List.all_eq_true.1 hargsseen a haarg
            simpa using this
          obtain ⟨w, hw⟩ := hdom a haseen
          show env.lookup a = ρ.lookup a
          rw [hw, hsub a w hw]
        | const c => rfl
      rw [hvs]
      exact hfinish _ hvρ
    | get_attr =>
      exact hfinish _ (hga hop)
    | output =>
      exact absurd hop (hnop m (List.mem_cons_self ..))

/-! ## Structural facts about well-formed graphs and the joint run -/

theorem wf_parts {g : List Node} (h : wfGraph g = true) :
    (g.map Node.name).Nodup ∧ refsOkAux [] g = true ∧
    (∀ n ∈ g, n.op = Op.placeholder → nodeArgNames n = []) ∧
    (∀ n ∈ g, n.op ≠ Op.output → n.name ≠ "output") ∧
    ∃ gb o, g = gb ++ [o] ∧ o.op = Op.output ∧ (∀ n ∈ gb, n.op ≠ Op.output) ∧
      findOutput g = some o ∧ (∀ n ∈ g, n.op = Op.output → n = o) := by
  unfold wfGraph at h
  rw [Bool.and_eq_true, Bool.and_eq_true, Bool.and_eq_true, Bool.and_eq_true,
    Bool.and_eq_true] at h
  obtain ⟨⟨⟨⟨⟨hnd, hrefs⟩, hargs⟩, hnm⟩, hlast⟩, hone⟩ := h
  have hnd' : (g.map Node.name).Nodup := by simpa using hnd
  have hne : g ≠ [] := by
    intro hc
    rw [hc] at hlast
    simp [List.getLast?] at hlast
  have hsplit : g.dropLast ++ [g.getLast hne] = g := List.dropLast_append_getLast hne
  set o := g.getLast hne with ho
  have hoop : o.op = Op.output := by
    rw [List.getLast?_eq_getLast g hne, ← ho] at hlast
    simpa using hlast
  have homem : o ∈ g := List.getLast_mem hne
  have hfilter : ∃ u, g.filter (fun n => n.op == Op.output) = [u] := by
    refine List.length_eq_one.1 ?_
    simpa using hone
  obtain ⟨u, hu⟩ := hfilter
  have houniq : ∀ n ∈ g, n.op = Op.output → n = o := by
    have hof : o ∈ g.filter (fun n => n.op == Op.output) :=
      List.mem_filter.2 ⟨homem, by simp [hoop]⟩
    rw [hu] at hof
    intro n hn hnop
    have hnf : n ∈ g.filter (fun n => n.op == Op.output) :=
      List.mem_filter.2 ⟨hn, by simp [hnop]⟩
    rw [hu] at hnf
    rw [List.mem_singleton.1 hnf, ← List.mem_singleton.1 hof]
  have hgbnop : ∀ n ∈ g.dropLast, n.op ≠ Op.output := by
    intro n hn hnop
    have hng : n ∈ g := by
      rw [← hsplit]
      exact List.mem_append_left _ hn
    have hno : n = o := houniq n hng hnop
    subst hno
    have hnames : ¬(g.map Node.name).Nodup := by
      rw [← hsplit, List.map_append]
      simp only [List.map_cons, List.map_nil]
      intro hc
      exact (List.nodup_append.1 hc).2.2 (List.mem_map_of_mem _ hn)
        (List.mem_singleton.2 rfl)
    exact hnames hnd'
  refine ⟨hnd', hrefs, ?_, ?_, g.dropLast, o, hsplit.symm, hoop, hgbnop, ?_, houniq⟩
  · intro n hn hph
    have := List.all_eq_true.1 hargs n hn
    rw [hph] at this
    simpa [List.isEmpty_iff] using this
  · intro n hn hnop
    have := List.all_eq_true.1 hnm n hn
    rw [Bool.or_eq_true] at this
    rcases this with h1 | h1
    · exact absurd (by simpa using h1) hnop
    · simpa using h1
  · unfold findOutput
    rw [← hsplit, find_skip_none (fun x hx => by simp [hgbnop x hx]),
      List.find?_cons_of_pos _ (by simp [hoop])]

theorem runNodes_output_skip {S : Sem α} {env₀ env : List (String × α)} {n : Node}
    {rest : List Node} (hop : n.op = Op.output) :
    runNodes S env₀ (n :: rest) env = runNodes S env₀ rest env := by
  rw [runNodes, hop]

/-- Unfolding of a successful `graphOutputs` through the well-formedness
decomposition: the run environment comes from the output-free prefix and
every node satisfies its defining equation in it. -/
theorem joint_facts {S : Sem α} {g : List Node} {env₀ : List (String × α)}
    {vs : List α} (hwf : wfGraph g = true)
    (hjoint : graphOutputs S env₀ g = some vs) :
    ∃ (ρ : List (String × α)) (o : Node),
      runNodes S env₀ g [] = some ρ ∧ findOutput g = some o ∧
      o.args.mapM (evalArg S ρ) = some vs ∧
      ∀ n ∈ g, n.op ≠ Op.output →
        (n.op = Op.placeholder →
          ∃ v, env₀.lookup n.name = some v ∧ ρ.lookup n.name = some v) ∧
        (n.op = Op.call_function →
          ∃ ws, n.args.mapM (evalArg S ρ) = some ws ∧
            ρ.lookup n.name = some (S.interp n.target ws)) ∧
        (n.op = Op.get_attr → ρ.lookup n.name = some (S.attrs n.target)) := by
  obtain ⟨hnd, hrefs, -, -, gb, o, hgsplit, hoop, hgbnop, hfo, -⟩ := wf_parts hwf
  unfold graphOutputs at hjoint
  cases hrun : runNodes S env₀ g [] with
  | none => rw [hrun] at hjoint; cases hjoint
  | some ρ =>
    rw [hrun, hfo] at hjoint
    simp only [Option.bind_eq_bind, Option.some_bind] at hjoint
    have hrun2 : runNodes S env₀ gb [] = some ρ := by
      rw [hgsplit, runNodes_append] at hrun
      cases hrun1 : runNodes S env₀ gb [] with
      | none => rw [hrun1] at hrun; cases hrun
      | some ρ1 =>
        rw [hrun1] at hrun
        simp only [Option.some_bind] at hrun
        rw [runNodes_output_skip hoop] at hrun
        obtain rfl : ρ1 = ρ := by simpa [runNodes] using hrun
        rfl
    have hrefsgb : refsOkAux [] gb = true := by
      rw [hgsplit] at hrefs
      exact (refsOk_snoc.1 hrefs).1
    have hndgb : (([] : List String) ++ gb.map Node.name).Nodup := by
      rw [List.nil_append]
      rw [hgsplit, List.map_append] at hnd
      exact (List.nodup_append.1 hnd).1
    have hcons := run_consistent hrun2 hgbnop (by simpa using hrefsgb) hndgb
    refine ⟨ρ, o, rfl, hfo, hjoint, ?_⟩
    intro n hn hnop
    rw [hgsplit] at hn
    rcases List.mem_append.1 hn with hn | hn
    · exact hcons n hn
    · rw [List.mem_singleton.1 hn] at hnop
      exact absurd hoop hnop

/-! ## Structural facts about the `node_copy` loops -/

theorem copy_fold_err {keep : Node → Bool} :
    ∀ {l : List Node} {st : CopySt}, st.err = true →
      (l.foldl (nodeCopyStep keep) st).err = true
  | [], _, h => h
  | n :: l, st, h => by
    rw [List.foldl_cons]
    have hstep : nodeCopyStep keep st n = st := by
      unfold nodeCopyStep
      rw [if_pos h]
    rw [hstep]
    exact copy_fold_err h

theorem copy_body_filter {keep : Node → Bool} :
    ∀ {l : List Node} {st : CopySt},
      (l.foldl (nodeCopyStep keep) st).err = false →
      (l.foldl (nodeCopyStep keep) st).body = st.body ++ l.filter keep ∧
      (∀ s, s ∈ (l.foldl (nodeCopyStep keep) st).dom ↔
        s ∈ st.dom ∨ s ∈ (l.filter keep).map Node.name) ∧
      st.err = false
  | [], st, h => ⟨by simp, by simp, h⟩
  | n :: l, st, h => by
    rw [List.foldl_cons] at h ⊢
    have hsterr : st.err = false := by
      by_contra hc
      have h1 : st.err = true := by
        cases hst : st.err
        · exact absurd hst hc
        · rfl
      have h2 : (nodeCopyStep keep st n).err = true := by
        unfold nodeCopyStep
        rw [if_pos h1]
        exact h1
      rw [copy_fold_err h2] at h
      cases h
    by_cases hk : keep n = true
    · by_cases hargs : (nodeArgNames n).all (fun a => decide (a ∈ st.dom)) = true
      · have hstep : nodeCopyStep keep st n =
            { st with dom := n.name :: st.dom, body := st.body ++ [n] } := by
          unfold nodeCopyStep
          rw [if_neg (by simp [hsterr]), if_pos hk, if_pos hargs]
        rw [hstep] at h ⊢
        obtain ⟨h1, h2, -⟩ := copy_body_filter h
        refine ⟨?_, ?_, hsterr⟩
        · rw [h1, List.filter_cons_of_pos hk]
          simp
        · intro s
          rw [h2, List.filter_cons_of_pos hk]
          simp only [List.mem_cons, List.map_cons]
          tauto
      · exfalso
        have hstep : (nodeCopyStep keep st n).err = true := by
          unfold nodeCopyStep
          rw [if_neg (by simp [hsterr]), if_pos hk, if_neg hargs]
        rw [copy_fold_err hstep] at h
        cases h
    · have hstep : nodeCopyStep keep st n = st := by
        unfold nodeCopyStep
        rw [if_neg (by simp [hsterr]), if_neg hk]
      rw [hstep] at h ⊢
      obtain ⟨h1, h2, -⟩ := copy_body_filter h
      rw [List.filter_cons_of_neg (by simpa using hk)]
      exact ⟨h1, h2, hsterr⟩

theorem copy_refsOk {keep : Node → Bool} {dom₀ : List String} :
    ∀ {l : List Node} {st : CopySt},
      (l.foldl (nodeCopyStep keep) st).err = false →
      refsOkAux dom₀ st.body = true →
      (∀ s ∈ st.dom, s ∈ dom₀ ++ st.body.map Node.name) →
      refsOkAux dom₀ (l.foldl (nodeCopyStep keep) st).body = true ∧
      ∀ s ∈ (l.foldl (nodeCopyStep keep) st).dom,
        s ∈ dom₀ ++ (l.foldl (nodeCopyStep keep) st).body.map Node.name
  | [], _, _, hrefs, hinv => ⟨hrefs, hinv⟩
  | n :: l, st, h, hrefs, hinv => by
    rw [List.foldl_cons] at h ⊢
    have hsterr : st.err = false := (copy_body_filter (l := n :: l) (by
      rw [List.foldl_cons]; exact h)).2.2
    by_cases hk : keep n = true
    · by_cases hargs : (nodeArgNames n).all (fun a => decide (a ∈ st.dom)) = true
      · have hstep : nodeCopyStep keep st n =
            { st with dom := n.name :: st.dom, body := st.body ++ [n] } := by
          unfold nodeCopyStep
          rw [if_neg (by simp [hsterr]), if_pos hk, if_pos hargs]
        rw [hstep] at h ⊢
        refine copy_refsOk h ?_ ?_
        · rw [refsOk_snoc]
          refine ⟨hrefs, ?_⟩
          intro a ha
          have h2 := List.all_eq_true.1 hargs a ha
          simp only [decide_eq_true_eq] at h2
          exact hinv a h2
        · intro s hs
          rcases List.mem_cons.1 hs with rfl | hs
          · refine List.mem_append_right _ ?_
            rw [List.map_append]
            exact List.mem_append_right _ (by simp)
          · have h3 := hinv s hs
            rw [List.map_append]
            rcases List.mem_append.1 h3 with h3 | h3
            · exact List.mem_append_left _ h3
            · exact List.mem_append_right _ (List.mem_append_left _ h3)
      · exfalso
        have hstep : (nodeCopyStep keep st n).err = true := by
          unfold nodeCopyStep
          rw [if_neg (by simp [hsterr]), if_pos hk, if_neg hargs]
        rw [copy_fold_err hstep] at h
        cases h
    · have hstep : nodeCopyStep keep st n = st := by
        unfold nodeCopyStep
        rw [if_neg (by simp [hsterr]), if_neg hk]
      rw [hstep] at h ⊢
      exact copy_refsOk h hrefs hinv

/-! ## Classification facts used by the recomposition proof -/

theorem dp_tangent_in_bw {g : List Node} {n : Node} (hn : n ∈ g)
    (ht : isTangentPH n = true) : n.name ∈ (classifyDefault g).bw := by
  obtain ⟨pre, post, rfl⟩ := List.append_of_mem hn
  rw [classify_decomp]
  refine foldl_dp_bw_mono ?_
  unfold dpStep
  rw [if_pos ht]
  exact pushName_mem.2 (Or.inr rfl)

theorem dp_noarg_not_bw {g : List Node} {n : Node}
    (hnd : (g.map Node.name).Nodup) (hn : n ∈ g)
    (ht : isTangentPH n = false) (hargs : nodeArgNames n = []) :
    ¬(n.name ∈ (classifyDefault g).bw) := by
  obtain ⟨pre, post, rfl⟩ := List.append_of_mem hn
  intro hc
  have h1 := (dp_bw_position hnd).1 hc
  unfold dpStep at h1
  rw [if_neg (by simp [ht])] at h1
  by_cases hop : (n.op == Op.output) = true
  · rw [if_pos hop] at h1
    exact dp_name_not_bw_pre hnd h1
  · rw [if_neg hop, if_neg (by rw [hargs]; simp)] at h1
    exact dp_name_not_bw_pre hnd h1

theorem dp_output_not_bw {g : List Node} {n : Node}
    (hnd : (g.map Node.name).Nodup) (hn : n ∈ g) (hop : n.op = Op.output) :
    ¬(n.name ∈ (classifyDefault g).bw) := by
  obtain ⟨pre, post, rfl⟩ := List.append_of_mem hn
  intro hc
  have h1 := (dp_bw_position hnd).1 hc
  unfold dpStep at h1
  rw [if_neg (by simp [isTangentPH, hop]), if_pos (by simp [hop])] at h1
  exact dp_name_not_bw_pre hnd h1

/-! ## Placeholder-list decompositions -/

theorem placeholderNames_append (A B : List Node) :
    placeholderNames (A ++ B) = placeholderNames A ++ placeholderNames B := by
  simp [placeholderNames, List.filter_append]

theorem placeholderNames_phs (l : List String) :
    placeholderNames (l.map mkPlaceholder) = l := by
  unfold placeholderNames
  rw [List.filter_eq_self.2 (by
    intro x hx
    rcases List.mem_map.1 hx with ⟨s, -, rfl⟩
    rfl)]
  rw [List.map_map]
  induction l with
  | nil => rfl
  | cons s l ih =>
    rw [List.map_cons, ih]
    rfl

theorem placeholderNames_out (outs : List String) :
    placeholderNames [mkOutput outs] = [] := by
  simp [placeholderNames, mkOutput]

theorem mapM_some_of_forall {β γ : Type} {f : β → Option γ} :
    ∀ {l : List β}, (∀ x ∈ l, ∃ y, f x = some y) → ∃ out, l.mapM f = some out
  | [], _ => ⟨[], rfl⟩
  | b :: l, h => by
    obtain ⟨y, hy⟩ := h b (List.mem_cons_self ..)
    obtain ⟨out, hout⟩ := mapM_some_of_forall (fun x hx => h x (List.mem_cons_of_mem _ hx))
    refine ⟨y :: out, ?_⟩
    rw [List.mapM_cons, hy, hout]
    rfl

theorem map_name_phs (l : List String) :
    (l.map mkPlaceholder).map Node.name = l := by
  rw [List.map_map]
  induction l with
  | nil => rfl
  | cons s l ih =>
    rw [List.map_cons, ih]
    rfl

/-- Executing a graph of the shape `body ++ [output]`, when every body node
satisfies its joint defining equation and every requested output is a body
name, produces exactly the joint values of the output names. -/
theorem graph_run_outputs {S : Sem α} {env₀' ρ : List (String × α)} {B : List Node}
    {outs : List String}
    (hnop : ∀ n ∈ B, n.op ≠ Op.output)
    (hrefs : refsOkAux [] B = true)
    (hnodes : ∀ n ∈ B,
      (n.op = Op.placeholder →
        ∃ v, env₀'.lookup n.name = some v ∧ ρ.lookup n.name = some v) ∧
      (n.op = Op.call_function →
        ∃ vs, n.args.mapM (evalArg S ρ) = some vs ∧
          ρ.lookup n.name = some (S.interp n.target vs)) ∧
      (n.op = Op.get_attr → ρ.lookup n.name = some (S.attrs n.target)))
    (houts : ∀ s ∈ outs, s ∈ B.map Node.name) :
    ∃ out, graphOutputs S env₀' (B ++ [mkOutput outs]) = some out ∧
      outs.mapM (fun s => ρ.lookup s) = some out := by
  obtain ⟨envB, hrun, hagree, hcover⟩ :=
    @runAgree α S env₀' ρ B [] [] hnop hrefs hnodes
      (fun s v hv => by simp [List.lookup] at hv)
      (fun s hs => absurd hs (List.not_mem_nil s))
  have hcov' : ∀ s ∈ outs, ∃ v, envB.lookup s = some v := by
    intro s hs
    refine hcover s ?_
    rw [List.nil_append]
    exact houts s hs
  obtain ⟨out, hout⟩ := mapM_some_of_forall hcov'
  have hfind : findOutput (B ++ [mkOutput outs]) = some (mkOutput outs) := by
    unfold findOutput
    rw [find_skip_none (fun x hx => by simp [hnop x hx]),
      List.find?_cons_of_pos _ (by rfl)]
  refine ⟨out, ?_, ?_⟩
  · unfold graphOutputs
    rw [runNodes_append, hrun]
    simp only [Option.bind_eq_bind, Option.some_bind]
    rw [runNodes_output_skip rfl]
    show (runNodes S env₀' [] envB).bind _ = some out
    simp only [runNodes, Option.some_bind]
    rw [hfind]
    simp only [Option.some_bind]
    show (outs.map Arg.node).mapM (evalArg S envB) = some out
    rw [mapM_node_lookup]
    exact hout
  · rw [← hout]
    refine mapM_congr_mem ?_
    intro s hs
    obtain ⟨v, hv⟩ := hcov' s hs
    rw [hv, hagree s v hv]

/-- Recomposition correctness for the simple/default partitioner: provided
the backward graph's placeholder list is exactly the saved values followed
by the tangent inputs, the forward-then-backward round trip reproduces the
joint graph's output slices. -/
theorem default_roundtrip {S : Sem α} {g fw bw : List Node} {kF kB : Nat}
    {primVals tangVals vs : List α}
    (hwf : wfGraph g = true)
    (hdp : default_partition g kF kB = some (fw, bw))
    (hph : placeholderNames g =
      (g.filter (fun n => isPrimalPH n)).map Node.name ++
      (g.filter (fun n => isTangentPH n)).map Node.name)
    (hlenP : primVals.length =
      ((g.filter (fun n => isPrimalPH n)).map Node.name).length)
    (hlenT : tangVals.length =
      ((g.filter (fun n => isTangentPH n)).map Node.name).length)
    (hjoint : callModule S g (primVals ++ tangVals) = some vs)
    (hbwph : placeholderNames bw = (classifyDefault g).saved ++
      (g.filter (fun n => isTangentPH n)).map Node.name)
    (hsvT : ((classifyDefault g).saved ++
      (g.filter (fun n => isTangentPH n)).map Node.name).Nodup) :
    compiledRoundTrip S fw bw kF primVals tangVals =
      some (vs.take kF, vs.drop kF) := by
  set P := (g.filter (fun n => isPrimalPH n)).map Node.name with hPdef
  set T := (g.filter (fun n => isTangentPH n)).map Node.name with hTdef
  set sv := (classifyDefault g).saved with hsvdef
  obtain ⟨o, bwdOuts, fwSlice, savedOuts, hfo, herrB, hbo, harity, hbwG, herrF,
    hfs, hsoG, hfwG⟩ := default_partition_some hdp
  obtain ⟨hsoEq, hsoDom⟩ := mapM_guard_eq hsoG
  rw [hsoEq] at hfwG
  obtain ⟨hnd, hrefs, hphargs, hnoutn, gb, oW, hgsplit, hoopW, hgbnop, hfoW, houniqW⟩ :=
    wf_parts hwf
  rw [hfo] at hfoW
  obtain rfl : o = oW := Option.some.inj hfoW
  unfold callModule at hjoint
  obtain ⟨ρ, o2, hrun, hfo2, hvs, hcons⟩ := joint_facts hwf hjoint
  rw [hfo] at hfo2
  obtain rfl : o = o2 := Option.some.inj hfo2
  have homem : o ∈ g := by
    rw [hgsplit]
    exact List.mem_append_right _ (List.mem_singleton.2 rfl)
  -- name lists
  have hndPH : (placeholderNames g).Nodup :=
    ((List.filter_sublist g).map Node.name).nodup hnd
  have hPT : (P ++ T).Nodup := by rw [← hph]; exact hndPH
  have hPnd : P.Nodup := (List.nodup_append.1 hPT).1
  have hTnd : T.Nodup := (List.nodup_append.1 hPT).2.1
  have hPTdisj := (List.nodup_append.1 hPT).2.2
  have henv : (placeholderNames g).zip (primVals ++ tangVals) =
      P.zip primVals ++ T.zip tangVals := by
    rw [hph]
    exact List.zip_append hlenP.symm
  rw [henv] at hcons
  -- joint values of the primal and tangent inputs
  have hmemP : ∀ s ∈ P, ∃ n, n ∈ g ∧ n.name = s ∧ n.op = Op.placeholder ∧
      strContains n.target "tangents" = false := by
    intro s hs
    rcases List.mem_map.1 hs with ⟨n, hn, rfl⟩
    have h2 := List.of_mem_filter hn
    rw [isPrimalPH, Bool.and_eq_true] at h2
    refine ⟨n, List.mem_of_mem_filter hn, rfl, by simpa using h2.1, ?_⟩
    have h3 := h2.2
    simp only [Bool.not_eq_true'] at h3
    exact h3
  have hmemT : ∀ s ∈ T, ∃ n, n ∈ g ∧ n.name = s ∧ n.op = Op.placeholder := by
    intro s hs
    rcases List.mem_map.1 hs with ⟨n, hn, rfl⟩
    have h2 := List.of_mem_filter hn
    rw [isTangentPH, Bool.and_eq_true] at h2
    exact ⟨n, List.mem_of_mem_filter hn, rfl, by simpa using h2.1⟩
  have hzPfst : (P.zip primVals).map Prod.fst = P :=
    List.map_fst_zip _ _ hlenP.ge
  have hEP : List.Forall₂ (fun s v => ρ.lookup s = some v) P primVals := by
    refine forall2_imp_mem (zip_lookup_forall2 hPnd hlenP.symm) ?_
    intro s hs v hv
    obtain ⟨n, hn, rfl, hop, -⟩ := hmemP s hs
    obtain ⟨w, hw1, hw2⟩ := (hcons n hn (by simp [hop])).1 hop
    have hv2 := lookup_append_left (T.zip tangVals) hv
    rw [hw1] at hv2
    obtain rfl : w = v := Option.some.inj hv2
    exact hw2
  have hET : List.Forall₂ (fun s v => ρ.lookup s = some v) T tangVals := by
    refine forall2_imp_mem (zip_lookup_forall2 hTnd hlenT.symm) ?_
    intro s hs v hv
    obtain ⟨n, hn, rfl, hop⟩ := hmemT s hs
    obtain ⟨w, hw1, hw2⟩ := (hcons n hn (by simp [hop])).1 hop
    have hnmem : ¬(n.name ∈ (P.zip primVals).map Prod.fst) := by
      rw [hzPfst]
      intro hc
      exact hPTdisj hc hs
    rw [lookup_append_right hnmem] at hw1
    rw [hw1] at hv
    obtain rfl : w = v := Option.some.inj hv
    exact hw2
  -- output arity facts
  have hkFle : kF ≤ o.args.length := Nat.le.intro harity
  have htakelen : (o.args.take kF).length = kF := by
    rw [List.length_take]
    exact Nat.min_eq_left hkFle
  rw [← List.take_append_drop kF o.args] at hvs
  obtain ⟨vs1, vs2, hvs1, hvs2, hvseq, hvs1len⟩ := mapM_append_split hvs
  have hvs1len' : vs1.length = kF := by rw [hvs1len, htakelen]
  obtain ⟨hfsEq, hfsDom⟩ := mapM_remapArg_eq hfs
  rw [hfsEq, mapM_node_lookup] at hvs1
  obtain ⟨hboEq, hboDom⟩ := mapM_remapArg_eq hbo
  rw [hboEq, mapM_node_lookup] at hvs2
  -- ===== forward side =====
  unfold fwCopy at herrF hfs hsoDom hfwG hfsDom
  obtain ⟨hFbody, hFdom, -⟩ := copy_body_filter herrF
  rw [List.nil_append] at hFbody
  obtain ⟨hFrefs, -⟩ :=
    copy_refsOk herrF (by rfl) (fun s hs => absurd hs (List.not_mem_nil s))
  rw [hFbody] at hFrefs
  have hkeepFtrue : ∀ n ∈ (g.filter
      (fun n => !decide (n.name ∈ (classifyDefault g).bw) && n.op != Op.output)),
      ¬(n.name ∈ (classifyDefault g).bw) ∧ n.op ≠ Op.output := by
    intro n hn
    have hkn := List.of_mem_filter hn
    simp only [Bool.and_eq_true, Bool.not_eq_true', decide_eq_false_iff_not,
      bne_iff_ne, ne_eq] at hkn
    exact hkn
  have hnopF : ∀ n ∈ (g.filter
      (fun n => !decide (n.name ∈ (classifyDefault g).bw) && n.op != Op.output)),
      n.op ≠ Op.output := fun n hn => (hkeepFtrue n hn).2
  have hnodesF : ∀ n ∈ (g.filter
      (fun n => !decide (n.name ∈ (classifyDefault g).bw) && n.op != Op.output)),
      (n.op = Op.placeholder →
        ∃ v, (P.zip primVals).lookup n.name = some v ∧ ρ.lookup n.name = some v) ∧
      (n.op = Op.call_function →
        ∃ ws, n.args.mapM (evalArg S ρ) = some ws ∧
          ρ.lookup n.name = some (S.interp n.target ws)) ∧
      (n.op = Op.get_attr → ρ.lookup n.name = some (S.attrs n.target)) := by
    intro n hn
    have hng := List.mem_of_mem_filter hn
    obtain ⟨hnbw, hnout⟩ := hkeepFtrue n hn
    refine ⟨?_, (hcons n hng hnout).2.1, (hcons n hng hnout).2.2⟩
    intro hop
    have hprim : isPrimalPH n = true := by
      by_cases hstr : strContains n.target "tangents" = true
      · exact absurd (dp_tangent_in_bw hng (by simp [isTangentPH, hop, hstr])) hnbw
      · simp [isPrimalPH, hop, Bool.not_eq_true' .. ]
        simp only [Bool.not_eq_true] at hstr
        exact hstr
    have hsP : n.name ∈ P := by
      rw [hPdef]
      exact List.mem_map_of_mem _ (List.mem_filter.2 ⟨hng, hprim⟩)
    exact zip_env_lookup hPnd hEP n.name hsP
  have houtsF : ∀ s ∈ fwSlice ++ sv, s ∈ ((g.filter
      (fun n => !decide (n.name ∈ (classifyDefault g).bw) && n.op != Op.output)).map
        Node.name) := by
    intro s hs
    have hdom2 : s ∈ (g.foldl (nodeCopyStep
        (fun n => !decide (n.name ∈ (classifyDefault g).bw) && n.op != Op.output))
        ⟨[], [], false⟩).dom := by
      rcases List.mem_append.1 hs with hs | hs
      · exact hfsDom s hs
      · exact hsoDom s hs
    have h3 := (hFdom s).1 hdom2
    rcases h3 with h3 | h3
    · exact absurd h3 (List.not_mem_nil s)
    · exact h3
  obtain ⟨fwOut, hfwRun, hfwVal⟩ := graph_run_outputs hnopF hFrefs hnodesF houtsF
  obtain ⟨w1, w2, hw1, hw2, hweq, hw1len⟩ := mapM_append_split hfwVal
  rw [hvs1] at hw1
  obtain rfl : vs1 = w1 := Option.some.inj hw1
  -- placeholders of the forward graph
  have hpoint : ∀ n ∈ g,
      ((n.op == Op.placeholder) &&
        (!decide (n.name ∈ (classifyDefault g).bw) && n.op != Op.output)) =
        isPrimalPH n := by
    intro n hn
    by_cases hop : n.op = Op.placeholder
    · by_cases hstr : strContains n.target "tangents" = true
      · have hbwmem := dp_tangent_in_bw hn (by simp [isTangentPH, hop, hstr])
        simp [isPrimalPH, hop, hstr, hbwmem]
      · simp only [Bool.not_eq_true] at hstr
        have hnb := dp_noarg_not_bw hnd hn (by simp [isTangentPH, hstr]) (hphargs n hn hop)
        simp [isPrimalPH, hop, hstr, hnb]
    · have hop2 : (n.op == Op.placeholder) = false := by
        simpa using hop
      rw [hop2]
      simp [isPrimalPH, hop2]
  have hphfw : placeholderNames fw = P := by
    rw [hfwG, placeholderNames_append, placeholderNames_out, List.append_nil,
      hFbody]
    unfold placeholderNames
    rw [List.filter_filter, hPdef]
    exact congrArg (List.map Node.name) (List.filter_congr hpoint)
  -- the forward module call
  have hcallF : callModule S fw primVals = some (vs1 ++ w2) := by
    unfold callModule
    rw [hphfw, hfwG, hFbody, ← hweq]
    exact hfwRun
  -- ===== backward side =====
  unfold bwCopy at herrB hbo hbwG hboDom
  obtain ⟨hBbody, hBdom, -⟩ := copy_body_filter herrB
  rw [List.nil_append] at hBbody
  obtain ⟨hBrefs, -⟩ :=
    @copy_refsOk (fun n => decide (n.name ∈ (classifyDefault g).bw) ||
        decide (n.name ∈ bwOutNamesOf o kF)) ((classifyDefault g).saved) g
      ⟨(classifyDefault g).saved, [], false⟩ herrB (by rfl)
      (fun s hs => by
        refine List.mem_append_left _ ?_
        simpa using hs)
  rw [hBbody] at hBrefs
  have honotbw : ¬(o.name ∈ (classifyDefault g).bw) := dp_output_not_bw hnd homem hoopW
  have hoargs : ∀ a ∈ nodeArgNames o, a ∈ gb.map Node.name := by
    have h2 : refsOkAux [] (gb ++ [o]) = true := by rw [← hgsplit]; exact hrefs
    have h3 := (refsOk_snoc.1 h2).2
    intro a ha
    have := h3 a ha
    simpa using this
  have honotout : ¬(o.name ∈ bwOutNamesOf o kF) := by
    intro hc
    have hco : o.name ∈ nodeArgNames o := by
      unfold bwOutNamesOf at hc
      rcases List.mem_filterMap.1 hc with ⟨a, ha, haeq⟩
      exact List.mem_filterMap.2 ⟨a, (List.drop_sublist _ _).subset ha, haeq⟩
    have h4 : o.name ∈ gb.map Node.name := hoargs _ hco
    have h5 := hnd
    rw [hgsplit, List.map_append] at h5
    exact (List.nodup_append.1 h5).2.2 h4 (by simp)
  have hnopB : ∀ n ∈ (g.filter
      (fun n => decide (n.name ∈ (classifyDefault g).bw) ||
        decide (n.name ∈ bwOutNamesOf o kF))), n.op ≠ Op.output := by
    intro n hn hc
    have hng := List.mem_of_mem_filter hn
    obtain rfl : n = o := houniqW n hng hc
    have hkn := List.of_mem_filter hn
    simp only [Bool.or_eq_true, decide_eq_true_eq] at hkn
    rcases hkn with h | h
    · exact honotbw h
    · exact honotout h
  have hbodyPH : placeholderNames (g.filter
      (fun n => decide (n.name ∈ (classifyDefault g).bw) ||
        decide (n.name ∈ bwOutNamesOf o kF))) = T := by
    have h2 : placeholderNames bw = sv ++ placeholderNames (g.filter
        (fun n => decide (n.name ∈ (classifyDefault g).bw) ||
          decide (n.name ∈ bwOutNamesOf o kF))) := by
      rw [hbwG, placeholderNames_append, placeholderNames_append,
        placeholderNames_out, placeholderNames_phs, List.append_nil, hBbody]
    rw [hbwph] at h2
    have h3 := congrArg (List.drop sv.length) h2
    rw [List.drop_left, List.drop_left] at h3
    exact h3.symm
  have hESV : List.Forall₂ (fun s v => ρ.lookup s = some v) sv w2 :=
    mapM_some_forall2 hw2
  have hEALL : List.Forall₂ (fun s v => ρ.lookup s = some v)
      (sv ++ T) (w2 ++ tangVals) := forall2_append hESV hET
  have hnodesB : ∀ n ∈ sv.map mkPlaceholder ++ (g.filter
      (fun n => decide (n.name ∈ (classifyDefault g).bw) ||
        decide (n.name ∈ bwOutNamesOf o kF))),
      (n.op = Op.placeholder →
        ∃ v, ((sv ++ T).zip (w2 ++ tangVals)).lookup n.name = some v ∧
          ρ.lookup n.name = some v) ∧
      (n.op = Op.call_function →
        ∃ ws, n.args.mapM (evalArg S ρ) = some ws ∧
          ρ.lookup n.name = some (S.interp n.target ws)) ∧
      (n.op = Op.get_attr → ρ.lookup n.name = some (S.attrs n.target)) := by
    intro n hn
    rcases List.mem_append.1 hn with hn | hn
    · rcases List.mem_map.1 hn with ⟨s, hsm, rfl⟩
      refine ⟨fun _ => ?_, ⟨fun hc => by simp [mkPlaceholder] at hc,
        fun hc => by simp [mkPlaceholder] at hc⟩⟩
      exact zip_env_lookup hsvT hEALL s (List.mem_append_left _ hsm)
    · have hng := List.mem_of_mem_filter hn
      have hnout := hnopB n hn
      refine ⟨?_, (hcons n hng hnout).2.1, (hcons n hng hnout).2.2⟩
      intro hop
      have hsT : n.name ∈ T := by
        rw [← hbodyPH]
        unfold placeholderNames
        exact List.mem_map_of_mem _ (List.mem_filter.2 ⟨hn, by simp [hop]⟩)
      exact zip_env_lookup hsvT hEALL n.name (List.mem_append_right _ hsT)
  have hnopB' : ∀ n ∈ sv.map mkPlaceholder ++ (g.filter
      (fun n => decide (n.name ∈ (classifyDefault g).bw) ||
        decide (n.name ∈ bwOutNamesOf o kF))), n.op ≠ Op.output := by
    intro n hn
    rcases List.mem_append.1 hn with hn | hn
    · rcases List.mem_map.1 hn with ⟨s, -, rfl⟩
      intro hc
      cases hc
    · exact hnopB n hn
  have hrefsB : refsOkAux [] (sv.map mkPlaceholder ++ (g.filter
      (fun n => decide (n.name ∈ (classifyDefault g).bw) ||
        decide (n.name ∈ bwOutNamesOf o kF)))) = true := by
    rw [refsOk_ph_front, List.nil_append]
    exact hBrefs
  have houtsB : ∀ s ∈ bwdOuts, s ∈ ((sv.map mkPlaceholder ++ (g.filter
      (fun n => decide (n.name ∈ (classifyDefault g).bw) ||
        decide (n.name ∈ bwOutNamesOf o kF)))).map Node.name) := by
    intro s hs
    have hdom2 := hboDom s hs
    have h3 := (hBdom s).1 hdom2
    rw [List.map_append, map_name_phs]
    rcases h3 with h3 | h3
    · exact List.mem_append_left _ h3
    · exact List.mem_append_right _ h3
  obtain ⟨bwOut, hbwRun, hbwVal⟩ := graph_run_outputs hnopB' hrefsB hnodesB houtsB
  rw [hvs2] at hbwVal
  obtain rfl : vs2 = bwOut := Option.some.inj hbwVal
  have hcallB : callModule S bw (w2 ++ tangVals) = some vs2 := by
    unfold callModule
    rw [hbwph, hbwG, hBbody]
    exact hbwRun
  -- ===== assembly =====
  unfold compiledRoundTrip
  rw [hcallF]
  simp only [Option.bind_eq_bind, Option.some_bind]
  have hdropEq : (vs1 ++ w2).drop kF = w2 := by
    rw [← hvs1len']
    exact List.drop_left _ _
  rw [hdropEq, hcallB]
  simp only [Option.some_bind]
  have htakeEq : (vs1 ++ w2).take kF = vs1 := by
    rw [← hvs1len']
    exact List.take_left _ _
  rw [htakeEq, hvseq]
  rw [show (vs1 ++ vs2).take kF = vs1 from by rw [← hvs1len']; exact List.take_left _ _]
  rw [show (vs1 ++ vs2).drop kF = vs2 from by rw [← hvs1len']; exact List.drop_left _ _]
  rfl

theorem mapM_nodeExtract_eq :
    ∀ {args : List Arg} {names : List String},
      args.mapM (fun a => match a with
        | Arg.node s => some s | Arg.const _ => none) = some names →
      args = names.map Arg.node := by
  intro args names h
  have hF := mapM_some_forall2 h
  clear h
  induction hF with
  | nil => rfl
  | @cons a c l1 l2 h1 h2 ih =>
    cases a with
    | node s =>
      obtain rfl : s = c := by simpa using h1
      rw [List.map_cons, ih]
    | const v => simp at h1

/-- Every requested output of a successful extraction names a surviving
non-output node of the extracted graph (input placeholders are always
created; used body nodes survive dead-code elimination). -/
theorem extract_out_mem {src G : List Node} {ins outs : List String}
    (hnd : (src.map Node.name).Nodup)
    (hnout : ∀ m ∈ src, m.op ≠ .output → m.name ≠ "output")
    (hins : ins.Nodup) (hinsout : ¬("output" ∈ ins))
    (h : _extract_graph_with_inputs_outputs src ins outs = some G) :
    ∀ s ∈ outs, ∃ n, n ∈ G ∧ n.name = s ∧ n.op ≠ Op.output := by
  obtain ⟨herr, hvalid, hGdce⟩ := extract_eq_some h
  rw [List.append_assoc] at hGdce
  obtain ⟨kb, hGeq, hkb, -⟩ := extract_structure h
  have hpre_refs := pre_refsOk hvalid
  have hpre_nd := @pre_names_nodup src ins outs hnd hnout hins hinsout
  have hvsub := (@ext_body_refsOk ins src ⟨[], [], false⟩ rfl
    (by intro a ha; cases ha)).2
  intro s hs
  rcases List.mem_append.1 (hvsub s (hvalid s hs)) with hsi | hsb
  · refine ⟨mkPlaceholder s, ?_, rfl, ?_⟩
    · rw [hGeq]
      exact List.mem_append_left _
        (List.mem_append_left _ (List.mem_map_of_mem _ hsi))
    · intro hc
      cases hc
  · rcases List.mem_map.1 hsb with ⟨z, hz, rfl⟩
    have houtargs : nodeArgNames (mkOutput outs) = outs := by
      simp only [nodeArgNames, mkOutput, List.filterMap_map]
      exact List.filterMap_some ..
    have houtmem : mkOutput outs ∈ (dceAux (ins.map mkPlaceholder ++
        ((extractEnv src ins).body ++ [mkOutput outs]))).1 := by
      refine dce_kept_impure ?_ (by simp [isImpure, mkOutput])
      exact List.mem_append_right _ (List.mem_append_right _ (by simp))
    have hused : z.name ∈ (dceAux (ins.map mkPlaceholder ++
        ((extractEnv src ins).body ++ [mkOutput outs]))).2 :=
      dce_used_of_kept houtmem (by rw [houtargs]; exact hs)
    have hkept := dce_kept_of_used hpre_refs (by simpa using hpre_nd)
      (List.mem_append_right _ (List.mem_append_left _ hz)) hused
    have hzG : z ∈ G := by
      rw [hGdce]
      exact hkept
    obtain ⟨-, -, hops⟩ := extractEnv_body_shape hz
    refine ⟨z, hzG, rfl, ?_⟩
    rcases hops with hop | hop <;> simp [hop]

/-- Recomposition correctness for the min-cut recompute partitioner: the
forward-then-backward round trip over the two extracted sub-graphs
reproduces the joint graph's output slices. -/
theorem mincut_roundtrip {S : Sem α} {g : List Node} {metaOf : String → MetaInfo}
    {numFwd : Nat} {reach : List NetV} {p : MCParts}
    {primVals tangVals vs : List α}
    (hwf : wfGraph g = true)
    (hmc : minCutPipeline g metaOf numFwd reach = some p)
    (hph : placeholderNames g = p.primals ++ p.tangents)
    (hlenP : primVals.length = p.primals.length)
    (hlenT : tangVals.length = p.tangents.length)
    (hjoint : callModule S g (primVals ++ tangVals) = some vs)
    (hsv : (p.savedPruned ++ p.tangents).Nodup)
    (hso : ¬("output" ∈ p.savedPruned ++ p.tangents))
    (hlenF : p.fwdOuts.length = numFwd) :
    compiledRoundTrip S p.fwd p.bwd numFwd primVals tangVals =
      some (vs.take numFwd, vs.drop numFwd) := by
  obtain ⟨o, outNames, hfo, hon, hfOuts, hbOuts, hprim, htang, -, -, -, -, hf2, hb2⟩ :=
    minCutPipeline_some hmc
  obtain ⟨hnd, hrefs, hphargs, hnoutn, gb, oW, hgsplit, hoopW, hgbnop, hfoW, houniqW⟩ :=
    wf_parts hwf
  rw [hfo] at hfoW
  obtain rfl : o = oW := Option.some.inj hfoW
  unfold callModule at hjoint
  obtain ⟨ρ, o2, hrun, hfo2, hvs, hcons⟩ := joint_facts hwf hjoint
  rw [hfo] at hfo2
  obtain rfl : o = o2 := Option.some.inj hfo2
  have hndPH : (placeholderNames g).Nodup :=
    ((List.filter_sublist g).map Node.name).nodup hnd
  have hPT : (p.primals ++ p.tangents).Nodup := by rw [← hph]; exact hndPH
  have hPnd : p.primals.Nodup := (List.nodup_append.1 hPT).1
  have hTnd : p.tangents.Nodup := (List.nodup_append.1 hPT).2.1
  have hPTdisj := (List.nodup_append.1 hPT).2.2
  have henv : (placeholderNames g).zip (primVals ++ tangVals) =
      p.primals.zip primVals ++ p.tangents.zip tangVals := by
    rw [hph]
    exact List.zip_append hlenP.symm
  rw [henv] at hcons
  have hmemP : ∀ s ∈ p.primals, ∃ n, n ∈ g ∧ n.name = s ∧ n.op = Op.placeholder := by
    intro s hs
    rw [hprim] at hs
    rcases List.mem_map.1 hs with ⟨n, hn, rfl⟩
    have h2 := List.of_mem_filter hn
    rw [isPrimalPH, Bool.and_eq_true] at h2
    exact ⟨n, List.mem_of_mem_filter hn, rfl, by simpa using h2.1⟩
  have hmemT : ∀ s ∈ p.tangents, ∃ n, n ∈ g ∧ n.name = s ∧ n.op = Op.placeholder := by
    intro s hs
    rw [htang] at hs
    rcases List.mem_map.1 hs with ⟨n, hn, rfl⟩
    have h2 := List.of_mem_filter hn
    rw [isTangentPH, Bool.and_eq_true] at h2
    exact ⟨n, List.mem_of_mem_filter hn, rfl, by simpa using h2.1⟩
  have hzPfst : (p.primals.zip primVals).map Prod.fst = p.primals :=
    List.map_fst_zip _ _ hlenP.ge
  have hEP : List.Forall₂ (fun s v => ρ.lookup s = some v) p.primals primVals := by
    refine forall2_imp_mem (zip_lookup_forall2 hPnd hlenP.symm) ?_
    intro s hs v hv
    obtain ⟨n, hn, rfl, hop⟩ := hmemP s hs
    obtain ⟨w, hw1, hw2⟩ := (hcons n hn (by simp [hop])).1 hop
    have hv2 := lookup_append_left (p.tangents.zip tangVals) hv
    rw [hw1] at hv2
    obtain rfl : w = v := Option.some.inj hv2
    exact hw2
  have hET : List.Forall₂ (fun s v => ρ.lookup s = some v) p.tangents tangVals := by
    refine forall2_imp_mem (zip_lookup_forall2 hTnd hlenT.symm) ?_
    intro s hs v hv
    obtain ⟨n, hn, rfl, hop⟩ := hmemT s hs
    obtain ⟨w, hw1, hw2⟩ := (hcons n hn (by simp [hop])).1 hop
    have hnmem : ¬(n.name ∈ (p.primals.zip primVals).map Prod.fst) := by
      rw [hzPfst]
      intro hc
      exact hPTdisj hc hs
    rw [lookup_append_right hnmem] at hw1
    rw [hw1] at hv
    obtain rfl : w = v := Option.some.inj hv
    exact hw2
  have hPnoout : ¬("output" ∈ p.primals) := by
    intro hc
    obtain ⟨n, hn, hname, hop⟩ := hmemP _ hc
    exact hnoutn n hn (by simp [hop]) hname
  -- joint output decomposition
  have hoargsEq : o.args = outNames.map Arg.node := mapM_nodeExtract_eq hon
  rw [hoargsEq, mapM_node_lookup, ← List.take_append_drop numFwd outNames] at hvs
  obtain ⟨vs1, vs2, hvs1, hvs2, hvseq, hvs1len⟩ := mapM_append_split hvs
  rw [← hfOuts] at hvs1
  rw [← hbOuts] at hvs2
  have hvs1len' : vs1.length = numFwd := by
    rw [← hfOuts] at hvs1len
    rw [hvs1len, hlenF]
  -- ===== forward extraction =====
  obtain ⟨herrF, hvalidF, hGdceF⟩ := extract_eq_some hf2
  rw [List.append_assoc] at hGdceF
  obtain ⟨kbF, hGfEq, hkbF, -⟩ := extract_structure hf2
  have hbodysubF : List.Sublist (extractEnv g p.primals).body g := by
    obtain ⟨t, ht1, ht2⟩ := @ext_body_sublist p.primals g ⟨[], [], false⟩
    have heq : (extractEnv g p.primals).body = t := by
      unfold extractEnv
      rw [ht1]
      rfl
    rw [heq]
    exact ht2
  have hFrefs : refsOkAux [] (p.primals.map mkPlaceholder ++ kbF) = true := by
    have h1 : refsOkAux [] p.fwd = true := by
      rw [hGdceF]
      exact dce_refsOk (pre_refsOk hvalidF)
    rw [hGfEq] at h1
    exact (refsOk_snoc.1 h1).1
  have hnopF : ∀ n ∈ p.primals.map mkPlaceholder ++ kbF, n.op ≠ Op.output := by
    intro n hn
    rcases List.mem_append.1 hn with hn | hn
    · rcases List.mem_map.1 hn with ⟨s, -, rfl⟩
      intro hc
      cases hc
    · obtain ⟨-, -, hops⟩ := extractEnv_body_shape (hkbF.subset hn)
      rcases hops with hop | hop <;> simp [hop]
  have hnodesF : ∀ n ∈ p.primals.map mkPlaceholder ++ kbF,
      (n.op = Op.placeholder →
        ∃ v, (p.primals.zip primVals).lookup n.name = some v ∧
          ρ.lookup n.name = some v) ∧
      (n.op = Op.call_function →
        ∃ ws, n.args.mapM (evalArg S ρ) = some ws ∧
          ρ.lookup n.name = some (S.interp n.target ws)) ∧
      (n.op = Op.get_attr → ρ.lookup n.name = some (S.attrs n.target)) := by
    intro n hn
    rcases List.mem_append.1 hn with hn | hn
    · rcases List.mem_map.1 hn with ⟨s, hsm, rfl⟩
      refine ⟨fun _ => ?_, ⟨fun hc => by simp [mkPlaceholder] at hc,
        fun hc => by simp [mkPlaceholder] at hc⟩⟩
      exact zip_env_lookup hPnd hEP s hsm
    · have hng : n ∈ g := hbodysubF.subset (hkbF.subset hn)
      have hnop2 := hnopF n (List.mem_append_right _ hn)
      refine ⟨?_, (hcons n hng hnop2).2.1, (hcons n hng hnop2).2.2⟩
      intro hop
      obtain ⟨-, -, hops⟩ := extractEnv_body_shape (hkbF.subset hn)
      rcases hops with h2 | h2 <;> (rw [hop] at h2; cases h2)
  have houtsF : ∀ s ∈ p.fwdOuts ++ p.savedPruned,
      s ∈ (p.primals.map mkPlaceholder ++ kbF).map Node.name := by
    have hx := extract_out_mem hnd hnoutn hPnd hPnoout hf2
    intro s hs
    obtain ⟨n, hnG, rfl, hnop2⟩ := hx s hs
    rw [hGfEq] at hnG
    rcases List.mem_append.1 hnG with hn2 | hn2
    · exact List.mem_map_of_mem _ hn2
    · rw [List.mem_singleton.1 hn2] at hnop2
      exact absurd rfl hnop2
  obtain ⟨fwOut, hfwRun, hfwVal⟩ := graph_run_outputs hnopF hFrefs hnodesF houtsF
  obtain ⟨w1, w2, hw1, hw2, hweq, hw1len⟩ := mapM_append_split hfwVal
  rw [hvs1] at hw1
  obtain rfl : vs1 = w1 := Option.some.inj hw1
  have hphfwd : placeholderNames p.fwd = p.primals := by
    unfold placeholderNames
    rw [extract_placeholders hf2, map_name_phs]
  have hcallF : callModule S p.fwd primVals = some (vs1 ++ w2) := by
    unfold callModule
    rw [hphfwd, hGfEq, ← hweq]
    exact hfwRun
  -- ===== backward extraction =====
  obtain ⟨herrBx, hvalidB, hGdceB⟩ := extract_eq_some hb2
  rw [List.append_assoc] at hGdceB
  obtain ⟨kbB, hGbEq, hkbB, -⟩ := extract_structure hb2
  have hbodysubB :
      List.Sublist (extractEnv g (p.savedPruned ++ p.tangents)).body g := by
    obtain ⟨t, ht1, ht2⟩ :=
      @ext_body_sublist (p.savedPruned ++ p.tangents) g ⟨[], [], false⟩
    have heq : (extractEnv g (p.savedPruned ++ p.tangents)).body = t := by
      unfold extractEnv
      rw [ht1]
      rfl
    rw [heq]
    exact ht2
  have hBrefs : refsOkAux []
      ((p.savedPruned ++ p.tangents).map mkPlaceholder ++ kbB) = true := by
    have h1 : refsOkAux [] p.bwd = true := by
      rw [hGdceB]
      exact dce_refsOk (pre_refsOk hvalidB)
    rw [hGbEq] at h1
    exact (refsOk_snoc.1 h1).1
  have hnopB : ∀ n ∈ (p.savedPruned ++ p.tangents).map mkPlaceholder ++ kbB,
      n.op ≠ Op.output := by
    intro n hn
    rcases List.mem_append.1 hn with hn | hn
    · rcases List.mem_map.1 hn with ⟨s, -, rfl⟩
      intro hc
      cases hc
    · obtain ⟨-, -, hops⟩ := extractEnv_body_shape (hkbB.subset hn)
      rcases hops with hop | hop <;> simp [hop]
  have hESV : List.Forall₂ (fun s v => ρ.lookup s = some v) p.savedPruned w2 :=
    mapM_some_forall2 hw2
  have hEALL : List.Forall₂ (fun s v => ρ.lookup s = some v)
      (p.savedPruned ++ p.tangents) (w2 ++ tangVals) := forall2_append hESV hET
  have hnodesB : ∀ n ∈ (p.savedPruned ++ p.tangents).map mkPlaceholder ++ kbB,
      (n.op = Op.placeholder →
        ∃ v, ((p.savedPruned ++ p.tangents).zip (w2 ++ tangVals)).lookup n.name =
          some v ∧ ρ.lookup n.name = some v) ∧
      (n.op = Op.call_function →
        ∃ ws, n.args.mapM (evalArg S ρ) = some ws ∧
          ρ.lookup n.name = some (S.interp n.target ws)) ∧
      (n.op = Op.get_attr → ρ.lookup n.name = some (S.attrs n.target)) := by
    intro n hn
    rcases List.mem_append.1 hn with hn | hn
    · rcases List.mem_map.1 hn with ⟨s, hsm, rfl⟩
      refine ⟨fun _ => ?_, ⟨fun hc => by simp [mkPlaceholder] at hc,
        fun hc => by simp [mkPlaceholder] at hc⟩⟩
      exact zip_env_lookup hsv hEALL s hsm
    · have hng : n ∈ g := hbodysubB.subset (hkbB.subset hn)
      have hnop2 := hnopB n (List.mem_append_right _ hn)
      refine ⟨?_, (hcons n hng hnop2).2.1, (hcons n hng hnop2).2.2⟩
      intro hop
      obtain ⟨-, -, hops⟩ := extractEnv_body_shape (hkbB.subset hn)
      rcases hops with h2 | h2 <;> (rw [hop] at h2; cases h2)
  have houtsB : ∀ s ∈ p.bwdOuts,
      s ∈ ((p.savedPruned ++ p.tangents).map mkPlaceholder ++ kbB).map Node.name := by
    have hx := extract_out_mem hnd hnoutn hsv hso hb2
    intro s hs
    obtain ⟨n, hnG, rfl, hnop2⟩ := hx s hs
    rw [hGbEq] at hnG
    rcases List.mem_append.1 hnG with hn2 | hn2
    · exact List.mem_map_of_mem _ hn2
    · rw [List.mem_singleton.1 hn2] at hnop2
      exact absurd rfl hnop2
  obtain ⟨bwOut, hbwRun, hbwVal⟩ := graph_run_outputs hnopB hBrefs hnodesB houtsB
  rw [hvs2] at hbwVal
  obtain rfl : vs2 = bwOut := Option.some.inj hbwVal
  have hphbwd : placeholderNames p.bwd = p.savedPruned ++ p.tangents := by
    unfold placeholderNames
    rw [extract_placeholders hb2, map_name_phs]
  have hcallB : callModule S p.bwd (w2 ++ tangVals) = some vs2 := by
    unfold callModule
    rw [hphbwd, hGbEq]
    exact hbwRun
  -- ===== assembly =====
  unfold compiledRoundTrip
  rw [hcallF]
  simp only [Option.bind_eq_bind, Option.some_bind]
  have hdropEq : (vs1 ++ w2).drop numFwd = w2 := by
    rw [← hvs1len']
    exact List.drop_left _ _
  rw [hdropEq, hcallB]
  simp only [Option.some_bind]
  have htakeEq : (vs1 ++ w2).take numFwd = vs1 := by
    rw [← hvs1len']
    exact List.take_left _ _
  rw [htakeEq, hvseq]
  rw [show (vs1 ++ vs2).take numFwd = vs1 from by
    rw [← hvs1len']; exact List.take_left _ _]
  rw [show (vs1 ++ vs2).drop numFwd = vs2 from by
    rw [← hvs1len']; exact List.drop_left _ _]
  rfl

/-- **C1, counterexample.**  On the joint graph `exC1Joint`, whose backward
output slice returns the primal input `primals_1` directly, the default
partitioner succeeds and the joint graph evaluates to `[6, 5]`; yet the
forward-then-backward round trip of `CompiledFunction` fails (`none`)
instead of producing the joint backward slice `[5]`: the backward graph
acquires a copied `primals_1` placeholder, so its placeholder list is not
the saved values followed by the tangents, and binding the saved-plus-
tangent arguments positionally leaves the `tangents_1` placeholder unbound.
The claim that recomposition always reproduces the joint outputs fails. -/
theorem claim1_counterexample :
    default_partition exC1Joint 1 1 = some (exC1Fw, exC1Bw) ∧
    callModule exSem exC1Joint ([5] ++ [3]) = some [6, 5] ∧
    compiledRoundTrip exSem exC1Fw exC1Bw 1 [5] [3] = none := by
  decide

/-- **C1 (amended).**  Recomposition correctness of both partitioners.  For
the simple/default partitioner the claim holds provided the backward
graph's placeholder list is exactly the saved values followed by the
tangent inputs (this fails when the backward output slice references a
primal input directly, as `claim1_counterexample` shows); for the min-cut
partitioner it holds whenever the pipeline succeeds.  In both cases,
running the forward graph on the primal inputs and then the backward graph
on the forward graph's extra (saved-value) outputs followed by the tangent
inputs reproduces exactly the joint graph's forward and backward output
slices, in count and order. -/
theorem claim1_roundtrip_amended :
    (∀ (S : Sem α) (g fw bw : List Node) (kF kB : Nat)
        (primVals tangVals vs : List α),
      wfGraph g = true →
      default_partition g kF kB = some (fw, bw) →
      placeholderNames g =
        (g.filter (fun n => isPrimalPH n)).map Node.name ++
        (g.filter (fun n => isTangentPH n)).map Node.name →
      primVals.length = ((g.filter (fun n => isPrimalPH n)).map Node.name).length →
      tangVals.length = ((g.filter (fun n => isTangentPH n)).map Node.name).length →
      callModule S g (primVals ++ tangVals) = some vs →
      placeholderNames bw = (classifyDefault g).saved ++
        (g.filter (fun n => isTangentPH n)).map Node.name →
      ((classifyDefault g).saved ++
        (g.filter (fun n => isTangentPH n)).map Node.name).Nodup →
      compiledRoundTrip S fw bw kF primVals tangVals =
        some (vs.take kF, vs.drop kF)) ∧
    (∀ (S : Sem α) (g : List Node) (metaOf : String → MetaInfo)
        (numFwd : Nat) (reach : List NetV) (p : MCParts)
        (primVals tangVals vs : List α),
      wfGraph g = true →
      minCutPipeline g metaOf numFwd reach = some p →
      placeholderNames g = p.primals ++ p.tangents →
      primVals.length = p.primals.length →
      tangVals.length = p.tangents.length →
      callModule S g (primVals ++ tangVals) = some vs →
      (p.savedPruned ++ p.tangents).Nodup →
      ¬("output" ∈ p.savedPruned ++ p.tangents) →
      p.fwdOuts.length = numFwd →
      compiledRoundTrip S p.fwd p.bwd numFwd primVals tangVals =
        some (vs.take numFwd, vs.drop numFwd)) :=
  ⟨fun _ _ _ _ _ _ _ _ _ h1 h2 h3 h4 h5 h6 h7 h8 =>
      default_roundtrip h1 h2 h3 h4 h5 h6 h7 h8,
   fun _ _ _ _ _ _ _ _ _ h1 h2 h3 h4 h5 h6 h7 h8 h9 =>
      mincut_roundtrip h1 h2 h3 h4 h5 h6 h7 h8 h9⟩

theorem claim1_witness :
    ((wfGraph exJoint = true ∧
      callModule exSem exJoint ([5] ++ [3]) = some [6, 10]) ∧
     compiledRoundTrip exSem exDPFw exDPBw 1 [5] [3] =
       some (([6, 10] : List Int).take 1, ([6, 10] : List Int).drop 1)) ∧
    ((wfGraph exMCJoint = true ∧
      callModule exSem exMCJoint ([5] ++ [3, 9]) = some [6, 9]) ∧
     compiledRoundTrip exSem exMCParts.fwd exMCParts.bwd 1 [5] [3, 9] =
       some (([6, 9] : List Int).take 1, ([6, 9] : List Int).drop 1)) :=
  ⟨⟨⟨by decide, by decide⟩,
    (@claim1_roundtrip_amended Int).1 exSem exJoint exDPFw exDPBw 1 1 [5] [3]
      [6, 10] (by decide) (by decide) (by decide) (by decide) (by decide)
      (by decide) (by decide) (by decide)⟩,
   ⟨⟨by decide, by decide⟩,
    (@claim1_roundtrip_amended Int).2 exSem exMCJoint exMCMeta 1 exMCReach
      exMCParts [5] [3, 9] [6, 9] (by decide) (by decide) (by decide)
      (by decide) (by decide) (by decide) (by decide) (by decide) (by decide)⟩⟩

end AotAutograd
